import Mathlib

/-!
Shadow Empire PBEM bot: the directory monitor.

A shallow embedding of `pkg/monitor/monitor.go` (the file tracker and the
turn-inference engine run by one directory scan, the reminder check run after
it, the turn number read from a file name) together with theorems about it.

Conventions of the embedding:

* a Go `string` is the list of its characters (`GoString`), the string being
  valid UTF-8;
* `strings.ToLower` applies `unicode.ToLower` to every character; the table of
  `unicode.ToLower` is part of the Go standard library and is a parameter of the
  embedding (`CaseTable`): every definition and theorem that involves
  lower-casing holds for every table that is the ASCII mapping on ASCII and maps
  a lower-cased character to itself, and the scenarios are evaluated with the
  table `latin1CaseTable`;
* Go `int` is taken at its 64-bit width; `int`/`int64` values are
  mathematical integers, and the two places where the monitor does arithmetic
  on them (`currentTurn + 1`, `now - info.FirstSeen`) wrap around as 64-bit
  two's complement arithmetic does (`wrapInt64`); indices
  into `userMappings` are natural numbers below its length, on which the index
  arithmetic of the monitor is exact;
* the `map[string]*FileTrackingInfo` is a function from keys to optional records;
* everything the scan obtains from outside (directory listing, file sizes, the
  clock, the outcome of each webhook call) is an explicit argument;
* the webhook calls made by a scan are collected in a log, each entry tagged with
  the (lower-cased) name of the file the loop was working on when it made the call.
-/

namespace Monitor

/-! ## Strings -/

/-- A Go string, as the list of its characters. -/
abbrev GoString := List Char

/-- The letter mapping of `unicode.ToLower` on ASCII (its branch for
`r <= MaxASCII`): `A`..`Z` go to `a`..`z`, every other character is kept. -/
def asciiLower (c : Char) : Char :=
  if 'A' ≤ c ∧ c ≤ 'Z' then Char.ofNat (c.toNat + 32) else c

/-- The case mapping of Go's package `unicode`: `toLower` stands for
`unicode.ToLower`. Its table (`unicode.CaseRanges`) belongs to the Go standard
library, not to this repository; it is taken as given, with two of its
properties: on ASCII it is `asciiLower`, and the lower-case form of a character
is its own lower-case form (the monitor lower-cases a name at line 243 and hands
the result to functions that lower-case it again, lines 50, 65 and 201). -/
class CaseTable where
  /-- Go `unicode.ToLower`. -/
  toLower : Char → Char
  /-- The branch of `unicode.ToLower` for `r <= MaxASCII`. -/
  toLower_ascii : ∀ c : Char, c.toNat < 128 → toLower c = asciiLower c
  /-- Lower-casing twice is lower-casing once. -/
  toLower_idem : ∀ c : Char, toLower (toLower c) = toLower c

/-- Go `unicode.ToLower`. -/
def lowerChar [CaseTable] (c : Char) : Char := CaseTable.toLower c

/-- Go `strings.ToLower`: `unicode.ToLower` applied to every character of the
string (for a string of ASCII characters the library takes a shortcut with the
same result). -/
def stringsToLower [CaseTable] (s : GoString) : GoString := s.map lowerChar

/-- A concrete letter mapping, on which the scenarios of this file are evaluated:
`unicode.ToLower` on the characters up to U+00FF (`A`..`Z` go to `a`..`z`, and
the Latin-1 capitals `À`..`Þ`, without the sign `×`, go to `à`..`þ`); every
character above U+00FF is kept. The texts of the scenarios stay within U+00FF. -/
def latin1Lower (c : Char) : Char :=
  if 192 ≤ c.toNat ∧ c.toNat ≤ 222 ∧ c.toNat ≠ 215 then Char.ofNat (c.toNat + 32)
  else asciiLower c

/-- The case table of the scenarios, given by `latin1Lower`. -/
instance latin1CaseTable : CaseTable where
  toLower := latin1Lower
  toLower_ascii := by
    intro c hc
    unfold latin1Lower
    rw [if_neg (by omega)]
  toLower_idem := by
    intro c
    have hc : c = Char.ofNat c.toNat := (Char.ofNat_toNat c).symm
    by_cases h1 : 192 ≤ c.toNat ∧ c.toNat ≤ 222 ∧ c.toNat ≠ 215
    · obtain ⟨a, b, d⟩ := h1
      generalize c.toNat = n at hc a b d
      subst hc
      interval_cases n <;> decide
    · by_cases h2 : 'A' ≤ c ∧ c ≤ 'Z'
      · obtain ⟨a, b⟩ := h2
        rw [Char.le_def, UInt32.le_def, BitVec.le_def] at a b
        have a' : 65 ≤ c.toNat := a
        have b' : c.toNat ≤ 90 := b
        generalize c.toNat = n at hc a' b'
        subst hc
        interval_cases n <;> decide
      · have e : latin1Lower c = c := by
          unfold latin1Lower asciiLower
          rw [if_neg h1, if_neg h2]
        rw [e, e]

/-- Go `strings.Contains s substr`: `substr` occurs in `s` as a contiguous block
(the empty string occurs in every string). -/
def stringsContains : GoString → GoString → Bool
  | [], substr => substr.isEmpty
  | c :: cs, substr => substr.isPrefixOf (c :: cs) || stringsContains cs substr

/-- Go `strings.HasPrefix s p`. -/
def stringsStartsWith (s p : GoString) : Bool := p.isPrefixOf s

/-- Go `strings.HasSuffix s suffix`. -/
def stringsEndsWith (s suffix : GoString) : Bool := suffix.isSuffixOf s

/-- Go `strings.TrimPrefix s p`: `s` without the leading `p`, when it has one. -/
def stringsTrimLeading (s p : GoString) : GoString :=
  if p.isPrefixOf s then s.drop p.length else s

/-! ## Machine integers -/

/-- Largest value of a 64-bit Go `int`. -/
def maxInt64 : Int := 9223372036854775807

/-- Smallest value of a 64-bit Go `int`. -/
def minInt64 : Int := -9223372036854775808

/-- The 64-bit two's complement value of the exact result `x`: what a Go `int`
(or `int64`) addition or subtraction with that exact result yields. -/
def wrapInt64 (x : Int) : Int :=
  (x + 9223372036854775808) % 18446744073709551616 - 9223372036854775808

/-- Value of a string of decimal digits. -/
def digitsValue (ds : GoString) : Nat :=
  ds.foldl (fun n c => 10 * n + (c.toNat - 48)) 0

/-- Go `strconv.Atoi` on an unsigned decimal numeral (the only kind of text the
monitor passes to it): the value when the text is a non-empty run of ASCII
digits whose value fits a 64-bit `int`, an error (`none`) otherwise. -/
def strconvAtoi (s : GoString) : Option Int :=
  if s ≠ [] ∧ s.all Char.isDigit = true ∧ (digitsValue s : Int) ≤ maxInt64 then
    some (digitsValue s : Int)
  else none

/-! ## Turn number in a file name -/

/-- Anchored match of `turn(\d+)(?:_|$)` at the head of `s`, giving the text of
the capture group. `\d+` is greedy and the text after it must be `_` or the end
of the string, so the group is the whole run of digits after `turn`. -/
def matchTurnDigits (s : GoString) : Option GoString :=
  if stringsStartsWith s ['t', 'u', 'r', 'n'] then
    let r := s.drop 4
    let ds := r.takeWhile Char.isDigit
    let rest := r.dropWhile Char.isDigit
    if ds ≠ [] ∧ (rest = [] ∨ rest.head? = some '_') then some ds else none
  else none

/-- Anchored match of `player_?turn(\d+)(?:_|$)` at the head of `s`, giving the
text of the capture group. -/
def matchPlayerTurnDigits (s : GoString) : Option GoString :=
  if stringsStartsWith s ['p', 'l', 'a', 'y', 'e', 'r'] then
    match s.drop 6 with
    | '_' :: r => matchTurnDigits r
    | r => matchTurnDigits r
  else none

/-- Leftmost match of the regular expression `(?:^|_)body` in a text, as
`FindStringSubmatch` finds it: the positions are tried from left to right, at
each one first the alternative `^` (possible only at the start of the text,
flag `atStart`) and then the alternative `_`. The result is the capture group of
`body`; `none` when the expression matches nowhere. -/
def regexFind (body : GoString → Option GoString) : Bool → GoString → Option GoString
  | atStart, [] => if atStart then body [] else none
  | atStart, c :: r =>
    match (if atStart then body (c :: r) else none) with
    | some m => some m
    | none =>
      match (if c = '_' then body r else none) with
      | some m => some m
      | none => regexFind body false r

/-- Go `extractTurnNumber`: the turn number written in a file name, 0 when none
is found. The two patterns are tried in order; a pattern counts only when it
matches and `strconv.Atoi` accepts its digits. -/
def extractTurnNumber [CaseTable] (filename : GoString) : Int :=
  let lower := stringsToLower filename
  match (regexFind matchTurnDigits true lower).bind strconvAtoi with
  | some n => n
  | none =>
    match (regexFind matchPlayerTurnDigits true lower).bind strconvAtoi with
    | some n => n
    | none => 0

/-! ## Filters -/

/-- Go `shouldIgnoreFile`: the lower-cased file name contains one of the ignore
patterns. -/
def shouldIgnoreFile [CaseTable] (filename : GoString) (ignorePatterns : List GoString) : Bool :=
  if ignorePatterns.length = 0 then false
  else ignorePatterns.any (fun pattern => stringsContains (stringsToLower filename) pattern)

/-- Go `hasAllowedExtension`: with an empty list every name passes; otherwise
the lower-cased name must end in `.e` for one of the listed extensions `e`
(a leading dot of `e` is dropped first). -/
def hasAllowedExtension [CaseTable] (filename : GoString) (exts : List GoString) : Bool :=
  if exts.length = 0 then true
  else exts.any (fun e =>
    stringsEndsWith (stringsToLower filename) ('.' :: stringsTrimLeading e ['.']))

/-! ## Data model -/

/-- Go `FileTrackingInfo`: when a file was first seen, whether it has been
processed, and the size recorded for it. -/
structure FileTrackingInfo where
  FirstSeen : Int
  Processed : Bool
  LastSize : Int
  deriving DecidableEq, Repr

/-- Go `TurnInfo`, the record of the turn being waited on. A `time.Time` is the
integer instant it denotes, the zero `time.Time{}` being 0. -/
structure TurnInfo where
  StartedAt : Int
  Username : GoString
  DiscordID : GoString
  NextUsername : GoString
  TurnNumber : Int
  LastRemindedAt : Int
  deriving DecidableEq, Repr

/-- Go `userparser.UserMapping`, with the fields the monitor reads. -/
structure UserMapping where
  Order : Int
  Username : GoString
  DiscordID : GoString
  deriving DecidableEq, Repr

/-- Go `types.Config`, with the parsed fields the monitor reads. -/
structure Config where
  GameName : GoString
  IgnorePatterns : List GoString
  AllowedExtensions : List GoString
  FileDebounceMs : Int
  ReminderIntervalMinutes : Int
  PollIntervalSec : Int
  deriving DecidableEq, Repr

/-- One entry of the listing returned by `os.ReadDir`, together with what
`os.Stat` reports for it during the scan: `none` when `os.Stat` fails, the
size in bytes otherwise. -/
structure DirEntry where
  Name : GoString
  IsDir : Bool
  StatSize : Option Int
  deriving DecidableEq, Repr

/-- A webhook call made by the scan, with its arguments. -/
inductive Notification where
  /-- The call `webhook.SendWebHook targetUsername targetDiscordID nextPlayerSaveName turnNumber`. -/
  | turnAdvance (targetUsername targetDiscordID nextPlayerSaveName : GoString) (turnNumber : Int)
  /-- The call `webhook.SendRenameWebHook username discordID filename turnNumber`. -/
  | renameNeeded (username discordID filename : GoString) (turnNumber : Int)
  deriving DecidableEq, Repr

/-- The outside world as one scan meets it: `webhookOk k` tells whether the
webhook call made when `k` calls have already been made in this scan returns
without error, `timeNow k` is what `time.Now()` reads right after that call. -/
structure World where
  webhookOk : Nat → Bool
  timeNow : Nat → Int

/-- The `map[string]*FileTrackingInfo` keyed by lower-cased file name. -/
abbrev FileTracker := GoString → Option FileTrackingInfo

/-- The map `m` after the assignment `m[key] = info`. -/
def FileTracker.set (m : FileTracker) (key : GoString) (info : FileTrackingInfo) : FileTracker :=
  fun k => if k = key then some info else m k

/-- The variables of `processDirectory` that its loop reads and writes, with the
log of the webhook calls made so far (each with the file being processed). -/
structure ScanState where
  fileTracker : FileTracker
  currentFiles : List GoString
  currentTurn : Int
  currentTurnInfo : Option TurnInfo
  sent : List (GoString × Notification)

/-- What a scan leaves behind: the tracker, the two values `processDirectory`
returns, and the webhook calls it made, in order. -/
structure ScanResult where
  fileTracker : FileTracker
  currentTurn : Int
  currentTurnInfo : Option TurnInfo
  sent : List (GoString × Notification)

/-! ## One scan -/

/-- The loop `for i, mapping := range userMappings` with its `break`: the first
index whose lower-cased user name occurs in the file name, `none` standing for
the value -1 the Go variable keeps when the loop finds nothing. -/
def findUserIndex [CaseTable] (filename : GoString) :
    (userMappings : List UserMapping) → Option (Fin userMappings.length)
  | [] => none
  | mapping :: rest =>
    if stringsContains filename (stringsToLower mapping.Username) then
      some ⟨0, Nat.succ_pos _⟩
    else (findUserIndex filename rest).map Fin.succ

/-- Index `(i + 1) % len(userMappings)` of the next player. -/
def nextIndex {n : Nat} (i : Fin n) : Fin n :=
  ⟨(i.val + 1) % n, Nat.mod_lt _ (Nat.lt_of_le_of_lt (Nat.zero_le _) i.isLt)⟩

/-- Index `(i - 1 + len(userMappings)) % len(userMappings)` of the previous player. -/
def previousIndex {n : Nat} (i : Fin n) : Fin n :=
  ⟨(i.val + n - 1) % n, Nat.mod_lt _ (Nat.lt_of_le_of_lt (Nat.zero_le _) i.isLt)⟩

/-- The assignment `info.Processed = true` on the record of `filename`. -/
def markProcessed (filename : GoString) (info : FileTrackingInfo) (st : ScanState) : ScanState :=
  let done := FileTrackingInfo.mk info.FirstSeen true info.LastSize
  { st with fileTracker := st.fileTracker.set filename done }

/-- The decision sequence run on a file whose debounce period is over and whose
size check passed (monitor.go lines 282-376): ignore patterns, game-name check
with the rename notification, player attribution with the turn notification. -/
def evaluateFile [CaseTable] (world : World) (userMappings : List UserMapping)
    (ignorePatterns : List GoString) (gameName filename : GoString)
    (info : FileTrackingInfo) (st : ScanState) : ScanState :=
  if shouldIgnoreFile filename ignorePatterns then
    markProcessed filename info st
  else if !stringsStartsWith filename gameName then
    match findUserIndex filename userMappings with
    | some foundUserIndex =>
      let previousUserMapping := userMappings.get (previousIndex foundUserIndex)
      let call := Notification.renameNeeded previousUserMapping.Username
        previousUserMapping.DiscordID filename st.currentTurn
      markProcessed filename info { st with sent := st.sent ++ [(filename, call)] }
    | none => markProcessed filename info st
  else
    match findUserIndex filename userMappings with
    | some currentPlayerIndex =>
      let currentUserMapping := userMappings.get currentPlayerIndex
      let nextUserMapping := userMappings.get (nextIndex currentPlayerIndex)
      let isLast : Bool := currentPlayerIndex.val = userMappings.length - 1
      let saveInstructionTurnNumber :=
        if isLast then wrapInt64 (st.currentTurn + 1) else st.currentTurn
      let currentTurn := if isLast then saveInstructionTurnNumber else st.currentTurn
      let k := st.sent.length
      let call := Notification.turnAdvance currentUserMapping.Username
        currentUserMapping.DiscordID nextUserMapping.Username saveInstructionTurnNumber
      let st1 : ScanState :=
        { st with currentTurn := currentTurn, sent := st.sent ++ [(filename, call)] }
      let st2 : ScanState :=
        if world.webhookOk k then
          let started := TurnInfo.mk (world.timeNow k) currentUserMapping.Username
            currentUserMapping.DiscordID nextUserMapping.Username saveInstructionTurnNumber 0
          { st1 with currentTurnInfo := some started }
        else st1
      markProcessed filename info st2
    | none => markProcessed filename info st

/-- Lines 248-254 of monitor.go: the file is entered among the current files
and the turn counter is raised to the turn number in its name when that number
is greater. -/
def noteFile [CaseTable] (st : ScanState) (filename : GoString) : ScanState :=
  { st with
    currentFiles := filename :: st.currentFiles
    currentTurn :=
      if extractTurnNumber filename > st.currentTurn then extractTurnNumber filename
      else st.currentTurn }

/-- Lines 257-260 of monitor.go: the size used by the debounce check, 0 when
`os.Stat` fails. -/
def entrySize (file : DirEntry) : Int :=
  match file.StatSize with
  | some sz => sz
  | none => 0

/-- The test `size != 0 && info.LastSize != 0 && size != info.LastSize`. -/
def sizeChanged (size : Int) (info : FileTrackingInfo) : Bool :=
  size != 0 && info.LastSize != 0 && size != info.LastSize

/-- The test `!info.Processed && (now-info.FirstSeen) >= int64(fileDebounceMs)`. -/
def debounceOver (now fileDebounceMs : Int) (info : FileTrackingInfo) : Bool :=
  !info.Processed && decide (wrapInt64 (now - info.FirstSeen) ≥ fileDebounceMs)

/-- The body of the loop `for _, file := range files` of `processDirectory`
(monitor.go lines 238-378), `now` being the `time.Now().UnixMilli()` read at the
start of the scan. -/
def processFile [CaseTable] (world : World) (now : Int) (userMappings : List UserMapping)
    (fileDebounceMs : Int) (ignorePatterns : List GoString) (cfg : Config)
    (st : ScanState) (file : DirEntry) : ScanState :=
  if file.IsDir then st
  else
    let filename := stringsToLower file.Name
    if !hasAllowedExtension filename cfg.AllowedExtensions then st
    else
      let st := noteFile st filename
      let size := entrySize file
      match st.fileTracker filename with
      | none =>
        let fresh := FileTrackingInfo.mk now false size
        { st with fileTracker := st.fileTracker.set filename fresh }
      | some info =>
        if debounceOver now fileDebounceMs info then
          if sizeChanged size info then
            let extended := FileTrackingInfo.mk now info.Processed size
            { st with fileTracker := st.fileTracker.set filename extended }
          else
            evaluateFile world userMappings ignorePatterns (stringsToLower cfg.GameName)
              filename info st
        else st

/-- The loop of `processDirectory` over the whole listing. -/
def scanLoop [CaseTable] (world : World) (now : Int) (userMappings : List UserMapping)
    (fileDebounceMs : Int) (ignorePatterns : List GoString) (cfg : Config)
    (st : ScanState) (files : List DirEntry) : ScanState :=
  files.foldl (processFile world now userMappings fileDebounceMs ignorePatterns cfg) st

/-- The final loop of `processDirectory`: every key that is not among the
current files is deleted. -/
def cleanUp (fileTracker : FileTracker) (currentFiles : List GoString) : FileTracker :=
  fun k => if k ∈ currentFiles then fileTracker k else none

/-- Go `processDirectory`, one scan of the directory. `readDir` is the result of
`os.ReadDir` (`none` when it fails, in which case nothing changes). -/
def processDirectory [CaseTable] (world : World) (now : Int) (readDir : Option (List DirEntry))
    (fileTracker : FileTracker) (userMappings : List UserMapping) (fileDebounceMs : Int)
    (ignorePatterns : List GoString) (cfg : Config) (currentTurn : Int)
    (currentTurnInfo : Option TurnInfo) : ScanResult :=
  match readDir with
  | none =>
    { fileTracker := fileTracker, currentTurn := currentTurn,
      currentTurnInfo := currentTurnInfo, sent := [] }
  | some files =>
    let st := scanLoop world now userMappings fileDebounceMs ignorePatterns cfg
      { fileTracker := fileTracker, currentFiles := [], currentTurn := currentTurn,
        currentTurnInfo := currentTurnInfo, sent := [] } files
    { fileTracker := cleanUp st.fileTracker st.currentFiles, currentTurn := st.currentTurn,
      currentTurnInfo := st.currentTurnInfo, sent := st.sent }

/-- The seeding loop of `MonitorDirectory` (monitor.go lines 122-130): every
non-directory entry present at start gets a record with `Processed` set and the
size left at zero; `clock k` is the `time.Now().UnixMilli()` read for entry `k`. -/
def seedTracker [CaseTable] (clock : Nat → Int) : Nat → List DirEntry → FileTracker → FileTracker
  | _, [], fileTracker => fileTracker
  | k, file :: rest, fileTracker =>
    if file.IsDir then seedTracker clock (k + 1) rest fileTracker
    else seedTracker clock (k + 1) rest
      (fileTracker.set (stringsToLower file.Name) (FileTrackingInfo.mk (clock k) true 0))


/-- The value of `saveInstructionTurnNumber` (monitor.go lines 343-351) for the
player at index `i` of `n` mappings when the turn counter is `c`: `c + 1` in
machine arithmetic for the last player, `c` for the others. -/
def saveTurn (n : Nat) (i : Nat) (c : Int) : Int :=
  if i = n - 1 then wrapInt64 (c + 1) else c

/-- The entry is one the loop body works on: not a directory, and its lower-cased
name passes `hasAllowedExtension`. -/
def accepted [CaseTable] (cfg : Config) (file : DirEntry) : Bool :=
  !file.IsDir && hasAllowedExtension (stringsToLower file.Name) cfg.AllowedExtensions

/-- The file name is attributed to the player at index `i`: the lower-cased user
name of mapping `i` occurs in the file name, and that of no earlier mapping does. -/
def attributedTo [CaseTable] (filename : GoString) (userMappings : List UserMapping)
    (i : Fin userMappings.length) : Prop :=
  stringsContains filename (stringsToLower (userMappings.get i).Username) = true ∧
  ∀ j : Fin userMappings.length, j.val < i.val →
    stringsContains filename (stringsToLower (userMappings.get j).Username) = false

instance [CaseTable] (filename : GoString) (userMappings : List UserMapping)
    (i : Fin userMappings.length) : Decidable (attributedTo filename userMappings i) := by
  unfold attributedTo
  infer_instance

/-- No user name occurs in the file name. -/
def unattributed [CaseTable] (filename : GoString) (userMappings : List UserMapping) : Prop :=
  ∀ m ∈ userMappings, stringsContains filename (stringsToLower m.Username) = false

instance [CaseTable] (filename : GoString) (userMappings : List UserMapping) :
    Decidable (unattributed filename userMappings) := by
  unfold unattributed
  infer_instance

/-- The state of a scan when its loop has gone through the entries `pre`, the
first entries of the listing. -/
def stateAfter [CaseTable] (world : World) (now : Int) (userMappings : List UserMapping)
    (fileDebounceMs : Int) (ignorePatterns : List GoString) (cfg : Config)
    (fileTracker : FileTracker) (currentTurn : Int) (currentTurnInfo : Option TurnInfo)
    (pre : List DirEntry) : ScanState :=
  scanLoop world now userMappings fileDebounceMs ignorePatterns cfg
    (ScanState.mk fileTracker [] currentTurn currentTurnInfo []) pre

/-- The names of the listing are distinct after lower-casing. -/
def distinctNames [CaseTable] (files : List DirEntry) : Prop :=
  (files.map (fun f => stringsToLower f.Name)).Nodup

instance [CaseTable] (files : List DirEntry) : Decidable (distinctNames files) := by
  unfold distinctNames
  infer_instance

/-- What one tick of the polling loop of `MonitorDirectory` feeds to
`processDirectory`: the world and clock of that scan, the result of `os.ReadDir`,
and the active-turn record the loop holds at that moment (the one the previous
scan returned, possibly with its reminder time updated in between). -/
structure Tick where
  world : World
  now : Int
  readDir : Option (List DirEntry)
  currentTurnInfo : Option TurnInfo

/-- The turn counters returned by the successive scans of a sequence of ticks,
the tracker and the counter being handed from each scan to the next as the
polling loop does. -/
def scanCounters [CaseTable] (userMappings : List UserMapping) (fileDebounceMs : Int)
    (ignorePatterns : List GoString) (cfg : Config) :
    FileTracker → Int → List Tick → List Int
  | _, _, [] => []
  | fileTracker, currentTurn, tick :: rest =>
    (processDirectory tick.world tick.now tick.readDir fileTracker userMappings
      fileDebounceMs ignorePatterns cfg currentTurn tick.currentTurnInfo).currentTurn ::
    scanCounters userMappings fileDebounceMs ignorePatterns cfg
      (processDirectory tick.world tick.now tick.readDir fileTracker userMappings
        fileDebounceMs ignorePatterns cfg currentTurn tick.currentTurnInfo).fileTracker
      (processDirectory tick.world tick.now tick.readDir fileTracker userMappings
        fileDebounceMs ignorePatterns cfg currentTurn tick.currentTurnInfo).currentTurn rest

/-- The number of listing entries met by a sequence of ticks. -/
def entryCount (ticks : List Tick) : Nat :=
  (ticks.map (fun tick => (tick.readDir.getD []).length)).sum

/-! ## Scenarios

Concrete inputs on which the definitions above are evaluated. -/

/-- The players `A`, `B`, `C` of the specification's scenarios, in turn order. -/
def playersABC : List UserMapping :=
  [ UserMapping.mk 1 "A".toList "id_a".toList,
    UserMapping.mk 2 "B".toList "id_b".toList,
    UserMapping.mk 3 "C".toList "id_c".toList ]

/-- A configuration with the given game name, no ignore pattern, every
extension allowed and the default intervals. -/
def configFor (gameName : String) : Config :=
  Config.mk gameName.toList [] [] 30000 720 5

/-- A world in which every webhook call succeeds and whose clock reads `t`. -/
def worldOk (t : Int) : World := World.mk (fun _ => true) (fun _ => t)

/-- A world in which every webhook call fails and whose clock reads `t`. -/
def worldDown (t : Int) : World := World.mk (fun _ => false) (fun _ => t)

/-- The tracker with no record. -/
def emptyTracker : FileTracker := fun _ => none

/-- A regular file of the given name and size. -/
def fileOf (name : String) (size : Int) : DirEntry := DirEntry.mk name.toList false (some size)

/-- The state of a scan about to look at one file that has been waiting, unchanged
at 10 bytes, since time 0: `key` is the lower-cased name of the file, `turn` the
turn counter; no webhook call has been made and no turn is active. -/
def waitingState (key : String) (turn : Int) : ScanState :=
  ScanState.mk (emptyTracker.set key.toList (FileTrackingInfo.mk 0 false 10)) [] turn none []

/-- A save of the last player `C` whose name carries the largest turn number a
machine integer holds, first scanned at time 0 by a monitor started on an empty
directory (turn counter 1, no record). -/
def overflowFirstScan : ScanResult :=
  processDirectory (worldOk 0) 0 (some [fileOf "m1_turn9223372036854775807_C" 10])
    emptyTracker playersABC 30000 [] (configFor "m1") 1 none

/-- The scan that follows `overflowFirstScan` 40 seconds later, the file unchanged. -/
def overflowSecondScan : ScanResult :=
  processDirectory (worldOk 40000) 40000 (some [fileOf "m1_turn9223372036854775807_C" 10])
    overflowFirstScan.fileTracker playersABC 30000 [] (configFor "m1")
    overflowFirstScan.currentTurn overflowFirstScan.currentTurnInfo

/-- The state in which the loop of `overflowSecondScan` starts. -/
def overflowState : ScanState :=
  ScanState.mk overflowFirstScan.fileTracker [] overflowFirstScan.currentTurn
    overflowFirstScan.currentTurnInfo []

/-- The tracker of a monitor started on a directory that holds the one file
`notes.txt`. -/
def seededNotes : FileTracker :=
  seedTracker (fun _ => 0) 0 [fileOf "notes.txt" 5] emptyTracker

/-- The default configuration: game `pbem1`, allowed extension `se1`. -/
def defaultConfig : Config :=
  Config.mk "pbem1".toList [] ["se1".toList] 30000 720 5

/-- The tracker holds a record marked processed. -/
def isProcessed (record : Option FileTrackingInfo) : Bool :=
  match record with
  | some info => info.Processed
  | none => false

/-- The scan evaluated the file of key `k` by the decision sequence: after the
scan its record is marked processed whereas the tracker passed in held no
processed record for it, or the scan made a webhook call on its behalf. -/
def evaluatedBy (before : FileTracker) (result : ScanResult) (k : GoString) : Prop :=
  (isProcessed (result.fileTracker k) = true ∧ isProcessed (before k) = false) ∨
  ∃ x ∈ result.sent, x.1 = k

instance (before : FileTracker) (result : ScanResult) (k : GoString) :
    Decidable (evaluatedBy before result k) := by
  unfold evaluatedBy
  infer_instance

/-- A game client creates `pbem1_turn1_B` empty: the first scan, at time 0 on a
monitor started on an empty directory, sees it with size 0. -/
def emptyFirstScan : ScanResult :=
  processDirectory (worldOk 0) 0 (some [fileOf "pbem1_turn1_B" 0])
    emptyTracker playersABC 30000 [] (configFor "pbem1") 1 none

/-- The scan that follows `emptyFirstScan` 40 seconds later, the file now
holding 500 bytes. -/
def emptySecondScan : ScanResult :=
  processDirectory (worldOk 40000) 40000 (some [fileOf "pbem1_turn1_B" 500])
    emptyFirstScan.fileTracker playersABC 30000 [] (configFor "pbem1")
    emptyFirstScan.currentTurn emptyFirstScan.currentTurnInfo

/-- The file `pbem1_turn1_B` appears with 100 bytes: first scan, at time 0, of a
monitor started on an empty directory. -/
def flickerFirstScan : ScanResult :=
  processDirectory (worldOk 0) 0 (some [fileOf "pbem1_turn1_B" 100])
    emptyTracker playersABC 30000 [] (configFor "pbem1") 1 none

/-- The scan 5 seconds after `flickerFirstScan`, the file now at 200 bytes. -/
def flickerSecondScan : ScanResult :=
  processDirectory (worldOk 5000) 5000 (some [fileOf "pbem1_turn1_B" 200])
    flickerFirstScan.fileTracker playersABC 30000 [] (configFor "pbem1")
    flickerFirstScan.currentTurn flickerFirstScan.currentTurnInfo

/-- The scan 31 seconds after `flickerFirstScan` (26 seconds after
`flickerSecondScan`), the file back at 100 bytes. -/
def flickerThirdScan : ScanResult :=
  processDirectory (worldOk 31000) 31000 (some [fileOf "pbem1_turn1_B" 100])
    flickerSecondScan.fileTracker playersABC 30000 [] (configFor "pbem1")
    flickerSecondScan.currentTurn flickerSecondScan.currentTurnInfo

/-- The players `Émile` and `Bob`, in turn order. -/
def playersEmileBob : List UserMapping :=
  [ UserMapping.mk 1 "Émile".toList "id_e".toList,
    UserMapping.mk 2 "Bob".toList "id_b".toList ]

/-- A game with the single player `A`. -/
def playerA : List UserMapping := [UserMapping.mk 1 "A".toList "id_a".toList]

/-- A directory on a case-sensitive file system holds `M1_TURN1_C` and
`m1_turn1_C`, both of 10 bytes, listed in this order by `os.ReadDir`, which
sorts by file name; first scan of a monitor started on an empty directory with
a debounce window of 0. -/
def twinScan : ScanResult :=
  processDirectory (worldOk 0) 0 (some [fileOf "M1_TURN1_C" 10, fileOf "m1_turn1_C" 10])
    emptyTracker playersABC 0 [] (configFor "m1") 1 none

/-- The key `m1_turn1_c` is tracked since time 0 at 100 bytes; at time 40000 the
directory holds `M1_TURN1_C` with 300 bytes and `m1_turn1_C` with 200 bytes,
listed in this order by `os.ReadDir`, which sorts by file name. -/
def twinSizesScan : ScanResult :=
  processDirectory (worldOk 40000) 40000
    (some [fileOf "M1_TURN1_C" 300, fileOf "m1_turn1_C" 200])
    (emptyTracker.set "m1_turn1_c".toList (FileTrackingInfo.mk 0 false 100))
    playersABC 30000 [] (configFor "m1") 1 none

/-! ## The reminder check

Lines 152-193 of monitor.go, run after each scan. A `time.Time` is the instant
it denotes, in nanoseconds, 0 being the zero `time.Time{}`; a `time.Duration`
is a number of nanoseconds. -/

/-- Go `Time.Sub`, which `time.Since` calls: the difference of two instants as a
`time.Duration`, kept within the 64-bit range (the largest or the smallest
duration stands for a difference that does not fit). -/
def timeSub (t u : Int) : Int :=
  if t - u > maxInt64 then maxInt64
  else if t - u < minInt64 then minInt64
  else t - u

/-- Line 141 of monitor.go, `time.Duration(reminderIntervalMinutes) * time.Minute`:
the reminder interval in nanoseconds, in machine arithmetic. -/
def reminderIntervalDuration (reminderIntervalMinutes : Int) : Int :=
  wrapInt64 (reminderIntervalMinutes * 60000000000)

/-- The call `webhook.SendReminderWebHook username discordID nextPlayerSaveName
turnNumber minutesElapsed`. -/
structure ReminderCall where
  username : GoString
  discordID : GoString
  nextPlayerSaveName : GoString
  turnNumber : Int
  minutesElapsed : Int
  deriving DecidableEq, Repr

/-- The outside world as one reminder check meets it: `sinceStartAt` and
`sinceReminderAt` are the clock readings of the two calls of `time.Since`,
`minutesOf d` is `int(d.Minutes())` (a floating-point computation, taken as
given), `sendOk` tells whether `SendReminderWebHook` returns without error, and
`afterSend` is what `time.Now()` reads after a successful call. -/
structure ReminderWorld where
  sinceStartAt : Int
  sinceReminderAt : Int
  minutesOf : Int → Int
  sendOk : Bool
  afterSend : Int

/-- The condition of lines 158-159: no reminder yet and the interval elapsed since
the turn started, or a reminder already sent and the interval elapsed since it. -/
def reminderDue (rw : ReminderWorld) (reminderIntervalDuration : Int) (info : TurnInfo) : Bool :=
  (info.LastRemindedAt == 0 &&
    decide (timeSub rw.sinceStartAt info.StartedAt ≥ reminderIntervalDuration)) ||
  (!(info.LastRemindedAt == 0) &&
    decide (timeSub rw.sinceReminderAt info.LastRemindedAt ≥ reminderIntervalDuration))

/-- The reminder check of one tick (monitor.go lines 152-193): the active-turn
record after the check, and the reminder call made, if any. -/
def reminderStep (rw : ReminderWorld) (reminderIntervalDuration : Int)
    (currentTurnInfo : Option TurnInfo) : Option TurnInfo × Option ReminderCall :=
  match currentTurnInfo with
  | none => (none, none)
  | some info =>
    if reminderDue rw reminderIntervalDuration info then
      let minutesElapsed := rw.minutesOf (timeSub rw.sinceStartAt info.StartedAt)
      let call := ReminderCall.mk info.Username info.DiscordID info.NextUsername
        info.TurnNumber minutesElapsed
      if rw.sendOk then
        (some (TurnInfo.mk info.StartedAt info.Username info.DiscordID info.NextUsername
          info.TurnNumber rw.afterSend), some call)
      else (some info, some call)
    else (some info, none)

/-- The reference instant of the reminder interval: the later of the turn start
and the last successful reminder, the turn start when no reminder was sent. -/
def reminderReference (info : TurnInfo) : Int :=
  if info.LastRemindedAt = 0 then info.StartedAt else max info.StartedAt info.LastRemindedAt

/-- An active turn started at instant 1000 for `B` (next player `C`, turn 1), no
reminder sent yet. -/
def turnOfB : TurnInfo :=
  TurnInfo.mk 1000 "B".toList "id_b".toList "C".toList 1 0

/-- A reminder world whose clock reads `t` throughout, with the given outcome of
the reminder call; minutes are counted by integer division. -/
def reminderWorldAt (t : Int) (ok : Bool) : ReminderWorld :=
  ReminderWorld.mk t t (fun d => d / 60000000000) ok t

/-- A world whose first webhook call fails and whose later calls succeed, the
clock reading `t`. -/
def worldFirstDown (t : Int) : World := World.mk (fun k => decide (k ≠ 0)) (fun _ => t)

/-- Two stable saves, `pbem1_turn1_B` and `pbem1_turn1_Bx`, both tracked since
time 0 at 10 bytes, are met by the scan at time 40000; the first webhook call of
the scan fails, the second succeeds; no turn is active before the scan. -/
def twoSavesScan : ScanResult :=
  processDirectory (worldFirstDown 50000) 40000
    (some [fileOf "pbem1_turn1_B" 10, fileOf "pbem1_turn1_Bx" 10])
    ((emptyTracker.set "pbem1_turn1_b".toList (FileTrackingInfo.mk 0 false 10)).set
      "pbem1_turn1_bx".toList (FileTrackingInfo.mk 0 false 10))
    playersABC 30000 [] (configFor "pbem1") 1 none

/-! ## Save names -/

/-- The decimal numeral of `n`, most significant digit first, built from the
last digit on; `fuel` bounds the number of digits. -/
def decimalAux : Nat → Nat → GoString → GoString
  | 0, _, acc => acc
  | fuel + 1, n, acc =>
    if n / 10 = 0 then Char.ofNat (48 + n % 10) :: acc
    else decimalAux fuel (n / 10) (Char.ofNat (48 + n % 10) :: acc)

/-- What the verb `%d` of `fmt.Sprintf` prints for the non-negative integer `n`:
its decimal numeral. -/
def decimal (n : Nat) : GoString := decimalAux (n + 1) n []

/-- What the verb `%d` prints for an integer. -/
def formatInt (n : Int) : GoString :=
  if n < 0 then '-' :: decimal n.natAbs else decimal n.toNat

/-- The save name of the turn-advance and reminder notifications (webhook.go
lines 136 and 214), the text `%s_turn%d_%s` filled with the game name, the turn
number and the name of the next player. -/
def saveInstructionName (gameName : GoString) (turnNumber : Int)
    (nextPlayerSaveName : GoString) : GoString :=
  gameName ++ '_' :: 't' :: 'u' :: 'r' :: 'n' :: formatInt turnNumber ++
    '_' :: nextPlayerSaveName

/-- The name carries a turn marker: one of the two patterns of
`extractTurnNumber` matches its lower-cased form. -/
def hasTurnMarker [CaseTable] (name : GoString) : Bool :=
  (regexFind matchTurnDigits true (stringsToLower name)).isSome ||
  (regexFind matchPlayerTurnDigits true (stringsToLower name)).isSome

/-! ## Basic facts about the loop body -/

theorem FileTracker.set_same (m : FileTracker) (key : GoString) (info : FileTrackingInfo) :
    m.set key info key = some info := by
  simp [FileTracker.set]

theorem FileTracker.set_other (m : FileTracker) (key k : GoString) (info : FileTrackingInfo)
    (h : k ≠ key) : m.set key info k = m k := by
  simp [FileTracker.set, h]

theorem evaluateFile_ignored [CaseTable] (world : World) (ums : List UserMapping)
    (ign : List GoString) (g fn : GoString) (info : FileTrackingInfo) (st : ScanState)
    (hi : shouldIgnoreFile fn ign = true) :
    evaluateFile world ums ign g fn info st = markProcessed fn info st := by
  unfold evaluateFile
  simp [hi]

theorem evaluateFile_rename_none [CaseTable] (world : World) (ums : List UserMapping)
    (ign : List GoString) (g fn : GoString) (info : FileTrackingInfo) (st : ScanState)
    (hi : shouldIgnoreFile fn ign = false) (hp : stringsStartsWith fn g = false)
    (hu : findUserIndex fn ums = none) :
    evaluateFile world ums ign g fn info st = markProcessed fn info st := by
  unfold evaluateFile
  simp [hi, hp, hu]

theorem evaluateFile_rename_some [CaseTable] (world : World) (ums : List UserMapping)
    (ign : List GoString) (g fn : GoString) (info : FileTrackingInfo) (st : ScanState)
    (i : Fin ums.length)
    (hi : shouldIgnoreFile fn ign = false) (hp : stringsStartsWith fn g = false)
    (hu : findUserIndex fn ums = some i) :
    evaluateFile world ums ign g fn info st =
      markProcessed fn info { st with sent := st.sent ++ [(fn, Notification.renameNeeded
        (ums.get (previousIndex i)).Username (ums.get (previousIndex i)).DiscordID fn
        st.currentTurn)] } := by
  unfold evaluateFile
  simp [hi, hp, hu]

theorem evaluateFile_turn_none [CaseTable] (world : World) (ums : List UserMapping)
    (ign : List GoString) (g fn : GoString) (info : FileTrackingInfo) (st : ScanState)
    (hi : shouldIgnoreFile fn ign = false) (hp : stringsStartsWith fn g = true)
    (hu : findUserIndex fn ums = none) :
    evaluateFile world ums ign g fn info st = markProcessed fn info st := by
  unfold evaluateFile
  simp [hi, hp, hu]

theorem evaluateFile_turn_some [CaseTable] (world : World) (ums : List UserMapping)
    (ign : List GoString) (g fn : GoString) (info : FileTrackingInfo) (st : ScanState)
    (i : Fin ums.length)
    (hi : shouldIgnoreFile fn ign = false) (hp : stringsStartsWith fn g = true)
    (hu : findUserIndex fn ums = some i) :
    evaluateFile world ums ign g fn info st =
      markProcessed fn info
        { st with
          currentTurn := saveTurn ums.length i.val st.currentTurn
          currentTurnInfo :=
            if world.webhookOk st.sent.length then
              some (TurnInfo.mk (world.timeNow st.sent.length) (ums.get i).Username
                (ums.get i).DiscordID (ums.get (nextIndex i)).Username
                (saveTurn ums.length i.val st.currentTurn) 0)
            else st.currentTurnInfo
          sent := st.sent ++ [(fn, Notification.turnAdvance (ums.get i).Username
            (ums.get i).DiscordID (ums.get (nextIndex i)).Username
            (saveTurn ums.length i.val st.currentTurn))] } := by
  unfold evaluateFile saveTurn
  simp only [hi, hp, hu]
  by_cases hl : i.val = ums.length - 1 <;> by_cases hw : world.webhookOk st.sent.length = true <;>
    simp [hl, hw, markProcessed]


/-- Case analysis on the loop body: a property holds of the state after one
entry as soon as it holds of the result of each of the five paths through the body. -/
theorem processFile_cases [CaseTable] (world : World) (now : Int) (ums : List UserMapping)
    (deb : Int) (ign : List GoString) (cfg : Config) (st : ScanState) (file : DirEntry)
    (P : ScanState → Prop)
    (hskip : (file.IsDir = true ∨
        hasAllowedExtension (stringsToLower file.Name) cfg.AllowedExtensions = false) → P st)
    (hnew : file.IsDir = false →
        hasAllowedExtension (stringsToLower file.Name) cfg.AllowedExtensions = true →
        st.fileTracker (stringsToLower file.Name) = none →
        P { noteFile st (stringsToLower file.Name) with
            fileTracker := st.fileTracker.set (stringsToLower file.Name)
              (FileTrackingInfo.mk now false (entrySize file)) })
    (hwait : ∀ info, file.IsDir = false →
        hasAllowedExtension (stringsToLower file.Name) cfg.AllowedExtensions = true →
        st.fileTracker (stringsToLower file.Name) = some info →
        debounceOver now deb info = false →
        P (noteFile st (stringsToLower file.Name)))
    (hextend : ∀ info, file.IsDir = false →
        hasAllowedExtension (stringsToLower file.Name) cfg.AllowedExtensions = true →
        st.fileTracker (stringsToLower file.Name) = some info →
        debounceOver now deb info = true → sizeChanged (entrySize file) info = true →
        P { noteFile st (stringsToLower file.Name) with
            fileTracker := st.fileTracker.set (stringsToLower file.Name)
              (FileTrackingInfo.mk now info.Processed (entrySize file)) })
    (heval : ∀ info, file.IsDir = false →
        hasAllowedExtension (stringsToLower file.Name) cfg.AllowedExtensions = true →
        st.fileTracker (stringsToLower file.Name) = some info →
        debounceOver now deb info = true → sizeChanged (entrySize file) info = false →
        P (evaluateFile world ums ign (stringsToLower cfg.GameName)
            (stringsToLower file.Name) info (noteFile st (stringsToLower file.Name)))) :
    P (processFile world now ums deb ign cfg st file) := by
  unfold processFile
  by_cases hd : file.IsDir = true
  · simp only [hd, if_true]
    exact hskip (Or.inl hd)
  · have hd' : file.IsDir = false := by simpa using hd
    by_cases ha : hasAllowedExtension (stringsToLower file.Name) cfg.AllowedExtensions = true
    · simp only [hd', ha, Bool.not_true, Bool.false_eq_true, if_false]
      have hn : (noteFile st (stringsToLower file.Name)).fileTracker = st.fileTracker := rfl
      cases ht : st.fileTracker (stringsToLower file.Name) with
      | none =>
        simp only [hn, ht]
        exact hnew hd' ha ht
      | some info =>
        simp only [hn, ht]
        by_cases hdeb : debounceOver now deb info = true
        · by_cases hs : sizeChanged (entrySize file) info = true
          · simp only [hdeb, hs, if_true]
            exact hextend info hd' ha ht hdeb hs
          · have hs' : sizeChanged (entrySize file) info = false := by simpa using hs
            simp only [hdeb, hs', if_true, Bool.false_eq_true, if_false]
            exact heval info hd' ha ht hdeb hs'
        · have hdeb' : debounceOver now deb info = false := by simpa using hdeb
          simp only [hdeb', Bool.false_eq_true, if_false]
          exact hwait info hd' ha ht hdeb'
    · have ha' : hasAllowedExtension (stringsToLower file.Name) cfg.AllowedExtensions = false := by
        simpa using ha
      simp only [hd', ha', Bool.not_false, if_true, Bool.false_eq_true, if_false]
      exact hskip (Or.inr ha')


/-! ## Frame properties of the loop body -/

theorem evaluateFile_fileTracker [CaseTable] (world : World) (ums : List UserMapping)
    (ign : List GoString) (g fn : GoString) (info : FileTrackingInfo) (st : ScanState) :
    (evaluateFile world ums ign g fn info st).fileTracker =
      st.fileTracker.set fn (FileTrackingInfo.mk info.FirstSeen true info.LastSize) := by
  cases hi : shouldIgnoreFile fn ign with
  | true => rw [evaluateFile_ignored world ums ign g fn info st hi]; rfl
  | false =>
    cases hp : stringsStartsWith fn g with
    | false =>
      cases hu : findUserIndex fn ums with
      | none => rw [evaluateFile_rename_none world ums ign g fn info st hi hp hu]; rfl
      | some i => rw [evaluateFile_rename_some world ums ign g fn info st i hi hp hu]; rfl
    | true =>
      cases hu : findUserIndex fn ums with
      | none => rw [evaluateFile_turn_none world ums ign g fn info st hi hp hu]; rfl
      | some i => rw [evaluateFile_turn_some world ums ign g fn info st i hi hp hu]; rfl

theorem evaluateFile_currentFiles [CaseTable] (world : World) (ums : List UserMapping)
    (ign : List GoString) (g fn : GoString) (info : FileTrackingInfo) (st : ScanState) :
    (evaluateFile world ums ign g fn info st).currentFiles = st.currentFiles := by
  cases hi : shouldIgnoreFile fn ign with
  | true => rw [evaluateFile_ignored world ums ign g fn info st hi]; rfl
  | false =>
    cases hp : stringsStartsWith fn g with
    | false =>
      cases hu : findUserIndex fn ums with
      | none => rw [evaluateFile_rename_none world ums ign g fn info st hi hp hu]; rfl
      | some i => rw [evaluateFile_rename_some world ums ign g fn info st i hi hp hu]; rfl
    | true =>
      cases hu : findUserIndex fn ums with
      | none => rw [evaluateFile_turn_none world ums ign g fn info st hi hp hu]; rfl
      | some i => rw [evaluateFile_turn_some world ums ign g fn info st i hi hp hu]; rfl

theorem evaluateFile_sent [CaseTable] (world : World) (ums : List UserMapping)
    (ign : List GoString) (g fn : GoString) (info : FileTrackingInfo) (st : ScanState) :
    ∃ extra, (evaluateFile world ums ign g fn info st).sent = st.sent ++ extra ∧
      ∀ x ∈ extra, x.1 = fn := by
  cases hi : shouldIgnoreFile fn ign with
  | true =>
    rw [evaluateFile_ignored world ums ign g fn info st hi]
    exact ⟨[], by simp [markProcessed], by simp⟩
  | false =>
    cases hp : stringsStartsWith fn g with
    | false =>
      cases hu : findUserIndex fn ums with
      | none =>
        rw [evaluateFile_rename_none world ums ign g fn info st hi hp hu]
        exact ⟨[], by simp [markProcessed], by simp⟩
      | some i =>
        rw [evaluateFile_rename_some world ums ign g fn info st i hi hp hu]
        exact ⟨_, rfl, by simp⟩
    | true =>
      cases hu : findUserIndex fn ums with
      | none =>
        rw [evaluateFile_turn_none world ums ign g fn info st hi hp hu]
        exact ⟨[], by simp [markProcessed], by simp⟩
      | some i =>
        rw [evaluateFile_turn_some world ums ign g fn info st i hi hp hu]
        exact ⟨_, rfl, by simp⟩

theorem evaluateFile_currentTurn [CaseTable] (world : World) (ums : List UserMapping)
    (ign : List GoString) (g fn : GoString) (info : FileTrackingInfo) (st : ScanState) :
    (evaluateFile world ums ign g fn info st).currentTurn = st.currentTurn ∨
    (evaluateFile world ums ign g fn info st).currentTurn = wrapInt64 (st.currentTurn + 1) := by
  cases hi : shouldIgnoreFile fn ign with
  | true => rw [evaluateFile_ignored world ums ign g fn info st hi]; exact Or.inl rfl
  | false =>
    cases hp : stringsStartsWith fn g with
    | false =>
      cases hu : findUserIndex fn ums with
      | none =>
        rw [evaluateFile_rename_none world ums ign g fn info st hi hp hu]; exact Or.inl rfl
      | some i =>
        rw [evaluateFile_rename_some world ums ign g fn info st i hi hp hu]; exact Or.inl rfl
    | true =>
      cases hu : findUserIndex fn ums with
      | none =>
        rw [evaluateFile_turn_none world ums ign g fn info st hi hp hu]; exact Or.inl rfl
      | some i =>
        rw [evaluateFile_turn_some world ums ign g fn info st i hi hp hu]
        show saveTurn ums.length i.val st.currentTurn = st.currentTurn ∨
          saveTurn ums.length i.val st.currentTurn = wrapInt64 (st.currentTurn + 1)
        unfold saveTurn
        split_ifs
        · exact Or.inr rfl
        · exact Or.inl rfl

/-- An entry the loop body skips leaves the state as it is. -/
theorem processFile_not_accepted [CaseTable] (world : World) (now : Int) (ums : List UserMapping)
    (deb : Int) (ign : List GoString) (cfg : Config) (st : ScanState) (file : DirEntry)
    (h : accepted cfg file = false) :
    processFile world now ums deb ign cfg st file = st := by
  unfold accepted at h
  unfold processFile
  by_cases hd : file.IsDir = true
  · simp [hd]
  · have hd' : file.IsDir = false := by simpa using hd
    simp only [hd', Bool.not_false, Bool.true_and] at h
    simp [hd', h]

/-- The loop body touches no record but the one of the entry it is given. -/
theorem processFile_tracker_other [CaseTable] (world : World) (now : Int) (ums : List UserMapping)
    (deb : Int) (ign : List GoString) (cfg : Config) (st : ScanState) (file : DirEntry)
    (k : GoString) (hk : k ≠ stringsToLower file.Name) :
    (processFile world now ums deb ign cfg st file).fileTracker k = st.fileTracker k := by
  apply processFile_cases world now ums deb ign cfg st file
    (fun s => s.fileTracker k = st.fileTracker k)
  · intro _; rfl
  · intro _ _ _; exact FileTracker.set_other _ _ _ _ hk
  · intro _ _ _ _ _; rfl
  · intro _ _ _ _ _ _; exact FileTracker.set_other _ _ _ _ hk
  · intro info _ _ _ _ _
    show (evaluateFile _ _ _ _ _ _ _).fileTracker k = _
    rw [evaluateFile_fileTracker]
    exact FileTracker.set_other _ _ _ _ hk

/-- A record already marked processed is left as it is by the loop body. -/
theorem processFile_processed_keep [CaseTable] (world : World) (now : Int) (ums : List UserMapping)
    (deb : Int) (ign : List GoString) (cfg : Config) (st : ScanState) (file : DirEntry)
    (k : GoString) (info : FileTrackingInfo) (hrec : st.fileTracker k = some info)
    (hp : info.Processed = true) :
    (processFile world now ums deb ign cfg st file).fileTracker k = some info := by
  by_cases hk : k = stringsToLower file.Name
  · subst hk
    apply processFile_cases world now ums deb ign cfg st file
      (fun s => s.fileTracker (stringsToLower file.Name) = some info)
    · intro _; exact hrec
    · intro _ _ hnone; rw [hrec] at hnone; exact absurd hnone (by simp)
    · intro _ _ _ _ _; exact hrec
    · intro info' _ _ hsome hdeb _
      rw [hrec] at hsome
      cases hsome
      simp [debounceOver, hp] at hdeb
    · intro info' _ _ hsome hdeb _
      rw [hrec] at hsome
      cases hsome
      simp [debounceOver, hp] at hdeb
  · rw [processFile_tracker_other world now ums deb ign cfg st file k hk]
    exact hrec

/-- The webhook calls made by the loop body are appended to the log and carry
the lower-cased name of the entry. -/
theorem processFile_sent [CaseTable] (world : World) (now : Int) (ums : List UserMapping)
    (deb : Int) (ign : List GoString) (cfg : Config) (st : ScanState) (file : DirEntry) :
    ∃ extra, (processFile world now ums deb ign cfg st file).sent = st.sent ++ extra ∧
      ∀ x ∈ extra, x.1 = stringsToLower file.Name := by
  apply processFile_cases world now ums deb ign cfg st file
    (fun s => ∃ extra, s.sent = st.sent ++ extra ∧ ∀ x ∈ extra, x.1 = stringsToLower file.Name)
  · intro _; exact ⟨[], by simp, by simp⟩
  · intro _ _ _; exact ⟨[], by simp [noteFile], by simp⟩
  · intro _ _ _ _ _; exact ⟨[], by simp [noteFile], by simp⟩
  · intro _ _ _ _ _ _; exact ⟨[], by simp [noteFile], by simp⟩
  · intro info _ _ _ _ _
    exact evaluateFile_sent world ums ign _ _ info (noteFile st (stringsToLower file.Name))

/-- The current files after the loop body: the entry's name is added exactly
when the entry is accepted. -/
theorem processFile_currentFiles [CaseTable] (world : World) (now : Int) (ums : List UserMapping)
    (deb : Int) (ign : List GoString) (cfg : Config) (st : ScanState) (file : DirEntry) :
    (processFile world now ums deb ign cfg st file).currentFiles =
      if accepted cfg file then stringsToLower file.Name :: st.currentFiles
      else st.currentFiles := by
  apply processFile_cases world now ums deb ign cfg st file
    (fun s => s.currentFiles =
      if accepted cfg file then stringsToLower file.Name :: st.currentFiles
      else st.currentFiles)
  · intro h
    have : accepted cfg file = false := by
      unfold accepted
      rcases h with h | h <;> simp [h]
    simp [this]
  · intro hd ha _; simp [accepted, hd, ha, noteFile]
  · intro _ hd ha _ _; simp [accepted, hd, ha, noteFile]
  · intro _ hd ha _ _ _; simp [accepted, hd, ha, noteFile]
  · intro info hd ha _ _ _
    show (evaluateFile _ _ _ _ _ _ _).currentFiles = _
    rw [evaluateFile_currentFiles]
    simp [accepted, hd, ha, noteFile]

/-- The keys of the tracker after the loop body: those it had, and the entry's
name when the entry is accepted. -/
theorem processFile_tracked [CaseTable] (world : World) (now : Int) (ums : List UserMapping)
    (deb : Int) (ign : List GoString) (cfg : Config) (st : ScanState) (file : DirEntry)
    (k : GoString) :
    ((processFile world now ums deb ign cfg st file).fileTracker k).isSome = true ↔
      (st.fileTracker k).isSome = true ∨
        (accepted cfg file = true ∧ k = stringsToLower file.Name) := by
  by_cases hk : k = stringsToLower file.Name
  · subst hk
    apply processFile_cases world now ums deb ign cfg st file
      (fun s => (s.fileTracker (stringsToLower file.Name)).isSome = true ↔
        (st.fileTracker (stringsToLower file.Name)).isSome = true ∨
          (accepted cfg file = true ∧ stringsToLower file.Name = stringsToLower file.Name))
    · intro h
      have : accepted cfg file = false := by
        unfold accepted
        rcases h with h | h <;> simp [h]
      simp [this]
    · intro hd ha _; simp [accepted, hd, ha, FileTracker.set]
    · intro _ hd ha hsome _; simp [accepted, hd, ha, noteFile, hsome]
    · intro _ hd ha _ _ _; simp [accepted, hd, ha, FileTracker.set]
    · intro info hd ha _ _ _
      show ((evaluateFile _ _ _ _ _ _ _).fileTracker _).isSome = true ↔ _
      rw [evaluateFile_fileTracker]
      simp [accepted, hd, ha, FileTracker.set]
  · rw [processFile_tracker_other world now ums deb ign cfg st file k hk]
    simp [hk]


/-! ## The turn counter -/

/-- Machine arithmetic is exact on results that fit 64 bits. -/
theorem wrapInt64_of_fits (x : Int) (hlo : minInt64 ≤ x) (hhi : x ≤ maxInt64) :
    wrapInt64 x = x := by
  unfold wrapInt64
  unfold minInt64 at hlo
  unfold maxInt64 at hhi
  omega

theorem strconvAtoi_nonneg (s : GoString) (n : Int) (h : strconvAtoi s = some n) : 0 ≤ n := by
  unfold strconvAtoi at h
  split_ifs at h
  cases h
  exact Int.ofNat_nonneg _

/-- The turn number read from a file name is never negative. -/
theorem extractTurnNumber_nonneg [CaseTable] (fn : GoString) : 0 ≤ extractTurnNumber fn := by
  unfold extractTurnNumber
  simp only
  split
  · rename_i n h
    obtain ⟨ds, _, hds⟩ := Option.bind_eq_some.mp h
    exact strconvAtoi_nonneg ds n hds
  · split
    · rename_i n h
      obtain ⟨ds, _, hds⟩ := Option.bind_eq_some.mp h
      exact strconvAtoi_nonneg ds n hds
    · exact le_refl 0

theorem noteFile_currentTurn [CaseTable] (st : ScanState) (fn : GoString) :
    (noteFile st fn).currentTurn = max st.currentTurn (extractTurnNumber fn) := by
  unfold noteFile
  simp only
  split_ifs with h
  · omega
  · omega

/-- One entry moves the turn counter up, by at most one above the bound `B` on
the counter and on the turn number in the entry's name, as long as `B` is below
the largest machine integer. -/
theorem processFile_currentTurn [CaseTable] (world : World) (now : Int) (ums : List UserMapping)
    (deb : Int) (ign : List GoString) (cfg : Config) (st : ScanState) (file : DirEntry)
    (B : Int) (hB : st.currentTurn ≤ B)
    (hfile : extractTurnNumber (stringsToLower file.Name) ≤ B) (hmax : B < maxInt64) :
    st.currentTurn ≤ (processFile world now ums deb ign cfg st file).currentTurn ∧
    (processFile world now ums deb ign cfg st file).currentTurn ≤ B + 1 ∧
    (accepted cfg file = true → extractTurnNumber (stringsToLower file.Name) ≤
      (processFile world now ums deb ign cfg st file).currentTurn) := by
  have hnote := noteFile_currentTurn st (stringsToLower file.Name)
  have hnn := extractTurnNumber_nonneg (stringsToLower file.Name)
  apply processFile_cases world now ums deb ign cfg st file
    (fun s => st.currentTurn ≤ s.currentTurn ∧ s.currentTurn ≤ B + 1 ∧
      (accepted cfg file = true → extractTurnNumber (stringsToLower file.Name) ≤ s.currentTurn))
  · intro h
    have : accepted cfg file = false := by
      unfold accepted
      rcases h with h | h <;> simp [h]
    simp only [this, Bool.false_eq_true, false_implies, and_true]
    omega
  · intro _ _ _
    show st.currentTurn ≤ (noteFile st _).currentTurn ∧ (noteFile st _).currentTurn ≤ B + 1 ∧
      (_ → _ ≤ (noteFile st _).currentTurn)
    rw [hnote]
    omega
  · intro _ _ _ _ _
    rw [hnote]
    omega
  · intro _ _ _ _ _ _
    show st.currentTurn ≤ (noteFile st _).currentTurn ∧ (noteFile st _).currentTurn ≤ B + 1 ∧
      (_ → _ ≤ (noteFile st _).currentTurn)
    rw [hnote]
    omega
  · intro info _ _ _ _ _
    have hw : wrapInt64 ((noteFile st (stringsToLower file.Name)).currentTurn + 1) =
        (noteFile st (stringsToLower file.Name)).currentTurn + 1 := by
      apply wrapInt64_of_fits
      · rw [hnote]; unfold minInt64 at *; omega
      · rw [hnote]; omega
    rcases evaluateFile_currentTurn world ums ign (stringsToLower cfg.GameName)
      (stringsToLower file.Name) info (noteFile st (stringsToLower file.Name)) with h | h
    · rw [h, hnote]; omega
    · rw [h, hw, hnote]; omega

/-! ## The loop over the listing -/

theorem scanLoop_nil [CaseTable] (world : World) (now : Int) (ums : List UserMapping)
    (deb : Int) (ign : List GoString) (cfg : Config) (st : ScanState) :
    scanLoop world now ums deb ign cfg st [] = st := rfl

theorem scanLoop_cons [CaseTable] (world : World) (now : Int) (ums : List UserMapping)
    (deb : Int) (ign : List GoString) (cfg : Config) (st : ScanState) (file : DirEntry)
    (files : List DirEntry) :
    scanLoop world now ums deb ign cfg st (file :: files) =
      scanLoop world now ums deb ign cfg (processFile world now ums deb ign cfg st file) files :=
  rfl

theorem scanLoop_append [CaseTable] (world : World) (now : Int) (ums : List UserMapping)
    (deb : Int) (ign : List GoString) (cfg : Config) (st : ScanState)
    (pre post : List DirEntry) :
    scanLoop world now ums deb ign cfg st (pre ++ post) =
      scanLoop world now ums deb ign cfg (scanLoop world now ums deb ign cfg st pre) post := by
  unfold scanLoop
  exact List.foldl_append _ _ _ _

/-- The loop moves the turn counter up, by at most the number of entries above
the bound `B`, as long as no increment can overflow. -/
theorem scanLoop_currentTurn [CaseTable] (world : World) (now : Int) (ums : List UserMapping)
    (deb : Int) (ign : List GoString) (cfg : Config) (files : List DirEntry) :
    ∀ (st : ScanState) (B : Int), st.currentTurn ≤ B →
      (∀ f ∈ files, extractTurnNumber (stringsToLower f.Name) ≤ B) →
      B + files.length ≤ maxInt64 →
      st.currentTurn ≤ (scanLoop world now ums deb ign cfg st files).currentTurn ∧
      (scanLoop world now ums deb ign cfg st files).currentTurn ≤ B + files.length ∧
      ∀ f ∈ files, accepted cfg f = true → extractTurnNumber (stringsToLower f.Name) ≤
        (scanLoop world now ums deb ign cfg st files).currentTurn := by
  induction files with
  | nil =>
    intro st B hB _ _
    simp [scanLoop_nil, hB]
  | cons file rest ih =>
    intro st B hB hfiles hmax
    rw [scanLoop_cons]
    have hlen : ((file :: rest).length : Int) = (rest.length : Int) + 1 := by simp
    have hstep := processFile_currentTurn world now ums deb ign cfg st file B hB
      (hfiles file (List.mem_cons_self _ _)) (by omega)
    obtain ⟨h1, h2, h3⟩ := hstep
    have hrest := ih (processFile world now ums deb ign cfg st file) (B + 1) h2
      (fun f hf => by have := hfiles f (List.mem_cons_of_mem _ hf); omega)
      (by omega)
    obtain ⟨r1, r2, r3⟩ := hrest
    refine ⟨by omega, by omega, ?_⟩
    intro f hf hacc
    rcases List.mem_cons.mp hf with rfl | hf'
    · have := h3 hacc; omega
    · exact r3 f hf' hacc


/-! ## The turn counter across a scan (C1, C7) -/

/-- C1, as amended. Provided no increment of the turn counter overflows (the
counter passed in and every turn number written in a listed file name are at
most `B`, and `B` plus the number of listing entries is at most the largest
64-bit integer), the turn counter returned by one scan is greater than or equal
to the turn counter passed in, whatever the tracker, the listing, the player
mappings, the configuration and the outcome of the webhook calls; the returned
counter is at most `B` plus the number of entries, so the bound carries over to
the next scan. -/
theorem processDirectory_currentTurn_mono [CaseTable] (world : World) (now : Int)
    (readDir : Option (List DirEntry)) (fileTracker : FileTracker) (ums : List UserMapping)
    (deb : Int) (ign : List GoString) (cfg : Config) (currentTurn : Int)
    (currentTurnInfo : Option TurnInfo) (B : Int)
    (hB : currentTurn ≤ B)
    (hnames : ∀ f ∈ readDir.getD [], extractTurnNumber (stringsToLower f.Name) ≤ B)
    (hmax : B + (readDir.getD []).length ≤ maxInt64) :
    currentTurn ≤ (processDirectory world now readDir fileTracker ums deb ign cfg
      currentTurn currentTurnInfo).currentTurn ∧
    (processDirectory world now readDir fileTracker ums deb ign cfg
      currentTurn currentTurnInfo).currentTurn ≤ B + (readDir.getD []).length := by
  cases readDir with
  | none =>
    simp only [processDirectory, Option.getD_none, List.length_nil]
    omega
  | some files =>
    simp only [Option.getD_some] at hnames hmax
    have h := scanLoop_currentTurn world now ums deb ign cfg files
      (ScanState.mk fileTracker [] currentTurn currentTurnInfo []) B hB hnames hmax
    exact ⟨h.1, h.2.1⟩

/-- The bounds of one scan, in the form used for sequences of scans. -/
theorem processDirectory_currentTurn_bounds [CaseTable] (tick : Tick) (fileTracker : FileTracker)
    (ums : List UserMapping) (deb : Int) (ign : List GoString) (cfg : Config)
    (currentTurn : Int) (B : Int) (hB : currentTurn ≤ B)
    (hnames : ∀ f ∈ tick.readDir.getD [], extractTurnNumber (stringsToLower f.Name) ≤ B)
    (hmax : B + (tick.readDir.getD []).length ≤ maxInt64) :
    currentTurn ≤ (processDirectory tick.world tick.now tick.readDir fileTracker ums deb ign
      cfg currentTurn tick.currentTurnInfo).currentTurn ∧
    (processDirectory tick.world tick.now tick.readDir fileTracker ums deb ign cfg
      currentTurn tick.currentTurnInfo).currentTurn ≤ B + (tick.readDir.getD []).length := by
  cases hrd : tick.readDir with
  | none =>
    simp only [processDirectory, Option.getD_none, List.length_nil]
    omega
  | some files =>
    rw [hrd] at hnames hmax
    simp only [Option.getD_some] at hnames hmax ⊢
    have h := scanLoop_currentTurn tick.world tick.now ums deb ign cfg files
      (ScanState.mk fileTracker [] currentTurn tick.currentTurnInfo []) B hB hnames hmax
    exact ⟨h.1, h.2.1⟩

/-- Along any sequence of scans in which no increment of the turn counter can
overflow, the counter never decreases: every counter returned is at least the
counter the sequence started from, and the counters returned are in
non-decreasing order. -/
theorem scanCounters_mono [CaseTable] (ums : List UserMapping) (deb : Int) (ign : List GoString)
    (cfg : Config) (ticks : List Tick) :
    ∀ (fileTracker : FileTracker) (currentTurn B : Int), currentTurn ≤ B →
      (∀ tick ∈ ticks, ∀ f ∈ tick.readDir.getD [],
        extractTurnNumber (stringsToLower f.Name) ≤ B) →
      B + entryCount ticks ≤ maxInt64 →
      (∀ c ∈ scanCounters ums deb ign cfg fileTracker currentTurn ticks, currentTurn ≤ c) ∧
      (scanCounters ums deb ign cfg fileTracker currentTurn ticks).Pairwise (· ≤ ·) := by
  induction ticks with
  | nil =>
    intro _ _ _ _ _ _
    simp [scanCounters]
  | cons tick rest ih =>
    intro fileTracker currentTurn B hB hnames hmax
    have hcount : (entryCount (tick :: rest) : Int) =
        ((tick.readDir.getD []).length : Int) + (entryCount rest : Int) := by
      simp [entryCount]
    have hstep := processDirectory_currentTurn_bounds tick fileTracker ums deb ign cfg
      currentTurn B hB (hnames tick (List.mem_cons_self _ _)) (by omega)
    have hrest := ih
      (processDirectory tick.world tick.now tick.readDir fileTracker ums deb ign cfg
        currentTurn tick.currentTurnInfo).fileTracker
      (processDirectory tick.world tick.now tick.readDir fileTracker ums deb ign cfg
        currentTurn tick.currentTurnInfo).currentTurn
      (B + (tick.readDir.getD []).length) hstep.2
      (fun t ht f hf => by
        have := hnames t (List.mem_cons_of_mem _ ht) f hf
        omega)
      (by omega)
    unfold scanCounters
    refine ⟨?_, ?_⟩
    · intro c hc
      rcases List.mem_cons.mp hc with rfl | hc
      · exact hstep.1
      · exact le_trans hstep.1 (hrest.1 c hc)
    · exact List.pairwise_cons.mpr ⟨hrest.1, hrest.2⟩

/-- C1, witness: the scenario of the specification (players `A`, `B`, `C`, game
`pbem1`, file `pbem1_turn1_B`, counter 1) meets the hypotheses with bound 1. -/
theorem processDirectory_currentTurn_mono_witness :
    (1 : Int) ≤ (processDirectory (worldOk 50000) 40000 (some [fileOf "pbem1_turn1_B" 10])
      (emptyTracker.set "pbem1_turn1_b".toList (FileTrackingInfo.mk 0 false 10))
      playersABC 30000 [] (configFor "pbem1") 1 none).currentTurn ∧
    (processDirectory (worldOk 50000) 40000 (some [fileOf "pbem1_turn1_B" 10])
      (emptyTracker.set "pbem1_turn1_b".toList (FileTrackingInfo.mk 0 false 10))
      playersABC 30000 [] (configFor "pbem1") 1 none).currentTurn ≤ 1 + 1 :=
  processDirectory_currentTurn_mono (worldOk 50000) 40000 (some [fileOf "pbem1_turn1_B" 10])
    (emptyTracker.set "pbem1_turn1_b".toList (FileTrackingInfo.mk 0 false 10))
    playersABC 30000 [] (configFor "pbem1") 1 none 1 (by decide) (by decide) (by decide)

/-- C1, counterexample: started on an empty directory with turn counter 1, the
monitor sees the save `m1_turn9223372036854775807_C` of the last player appear.
The first scan raises the counter to 9223372036854775807; the next scan, once
the file is stable, computes `currentTurn + 1`, which wraps around, and returns
-9223372036854775808, less than the counter it was passed. -/
theorem processDirectory_currentTurn_decreases :
    overflowFirstScan.currentTurn = 9223372036854775807 ∧
    overflowSecondScan.currentTurn = -9223372036854775808 ∧
    ¬ (overflowFirstScan.currentTurn ≤ overflowSecondScan.currentTurn) := by
  decide


/-- C7, as amended. Provided no increment of the turn counter overflows (the
counter passed in and every turn number written in a listed file name are at
most `B`, and `B` plus the number of listing entries is at most the largest
64-bit integer), for every scan and every non-directory entry of the listing
with an allowed extension the returned turn counter is at least the maximum of
the counter passed in and `extractTurnNumber` of the lower-cased name; nothing
is assumed of the tracker (new, waiting, processed), of the ignore patterns, of
the game name, of the players or of the outcome of the webhook calls. -/
theorem processDirectory_currentTurn_ge_name [CaseTable] (world : World) (now : Int)
    (files : List DirEntry) (fileTracker : FileTracker) (ums : List UserMapping)
    (deb : Int) (ign : List GoString) (cfg : Config) (currentTurn : Int)
    (currentTurnInfo : Option TurnInfo) (B : Int) (file : DirEntry)
    (hB : currentTurn ≤ B)
    (hnames : ∀ f ∈ files, extractTurnNumber (stringsToLower f.Name) ≤ B)
    (hmax : B + files.length ≤ maxInt64)
    (hmem : file ∈ files) (hdir : file.IsDir = false)
    (hext : hasAllowedExtension (stringsToLower file.Name) cfg.AllowedExtensions = true) :
    max currentTurn (extractTurnNumber (stringsToLower file.Name)) ≤
      (processDirectory world now (some files) fileTracker ums deb ign cfg
        currentTurn currentTurnInfo).currentTurn := by
  have h := scanLoop_currentTurn world now ums deb ign cfg files
    (ScanState.mk fileTracker [] currentTurn currentTurnInfo []) B hB hnames hmax
  have hacc : accepted cfg file = true := by simp [accepted, hdir, hext]
  exact max_le h.1 (h.2.2 file hmem hacc)

/-- C7, witness: the new arrival `pbem1_turn7_B` raises the counter from 1 to at
least 7 in the scan that first sees it. -/
theorem processDirectory_currentTurn_ge_name_witness :
    max 1 (extractTurnNumber (stringsToLower (fileOf "pbem1_turn7_B" 10).Name)) ≤
      (processDirectory (worldOk 0) 0 (some [fileOf "pbem1_turn7_B" 10]) emptyTracker
        playersABC 30000 [] (configFor "pbem1") 1 none).currentTurn :=
  processDirectory_currentTurn_ge_name (worldOk 0) 0 [fileOf "pbem1_turn7_B" 10] emptyTracker
    playersABC 30000 [] (configFor "pbem1") 1 none 7 (fileOf "pbem1_turn7_B" 10)
    (by decide) (by decide) (by decide) (by decide) (by decide) (by decide)

/-- C7, counterexample: in `overflowSecondScan` the listing holds the regular
file `m1_turn9223372036854775807_C` (every extension is allowed), the counter
passed in is 9223372036854775807 and so is the turn number in the name, yet the
counter returned is -9223372036854775808. -/
theorem processDirectory_currentTurn_below_name :
    (fileOf "m1_turn9223372036854775807_C" 10).IsDir = false ∧
    hasAllowedExtension (stringsToLower (fileOf "m1_turn9223372036854775807_C" 10).Name)
      (configFor "m1").AllowedExtensions = true ∧
    extractTurnNumber (stringsToLower (fileOf "m1_turn9223372036854775807_C" 10).Name) =
      9223372036854775807 ∧
    ¬ (max overflowFirstScan.currentTurn
        (extractTurnNumber (stringsToLower (fileOf "m1_turn9223372036854775807_C" 10).Name)) ≤
      overflowSecondScan.currentTurn) := by
  decide

/-! ## Player attribution -/

theorem findUserIndex_none_iff [CaseTable] (fn : GoString) (ums : List UserMapping) :
    findUserIndex fn ums = none ↔ unattributed fn ums := by
  unfold unattributed
  induction ums with
  | nil => simp [findUserIndex]
  | cons m rest ih =>
    unfold findUserIndex
    by_cases hm : stringsContains fn (stringsToLower m.Username) = true
    · simp [hm]
    · have hm' : stringsContains fn (stringsToLower m.Username) = false := by simpa using hm
      simp [hm', ih]

theorem findUserIndex_some_attributed [CaseTable] (fn : GoString) (ums : List UserMapping) :
    ∀ i : Fin ums.length, findUserIndex fn ums = some i → attributedTo fn ums i := by
  induction ums with
  | nil => intro i; exact i.elim0
  | cons m rest ih =>
    intro i hi
    unfold findUserIndex at hi
    by_cases hm : stringsContains fn (stringsToLower m.Username) = true
    · simp only [hm, if_true, Option.some.injEq] at hi
      subst hi
      refine ⟨by simpa using hm, ?_⟩
      intro j hj
      exact absurd hj (Nat.not_lt_zero _)
    · have hm' : stringsContains fn (stringsToLower m.Username) = false := by simpa using hm
      simp only [hm', Bool.false_eq_true, if_false, Option.map_eq_some'] at hi
      obtain ⟨i', hi', rfl⟩ := hi
      obtain ⟨h1, h2⟩ := ih i' hi'
      refine ⟨by simpa using h1, ?_⟩
      intro j hj
      rcases j with ⟨jv, jlt⟩
      cases jv with
      | zero => simpa using hm'
      | succ jv' =>
        have := h2 ⟨jv', by simpa using jlt⟩ (by simpa using hj)
        simpa using this

theorem attributedTo_unique [CaseTable] (fn : GoString) (ums : List UserMapping)
    (i j : Fin ums.length) (hi : attributedTo fn ums i) (hj : attributedTo fn ums j) :
    i = j := by
  apply Fin.ext
  rcases Nat.lt_trichotomy i.val j.val with h | h | h
  · have := hj.2 i h
    rw [hi.1] at this
    exact absurd this (by simp)
  · exact h
  · have := hi.2 j h
    rw [hj.1] at this
    exact absurd this (by simp)

/-- The search loop returns index `i` exactly when the file name is attributed
to the player at index `i`. -/
theorem findUserIndex_some_iff [CaseTable] (fn : GoString) (ums : List UserMapping)
    (i : Fin ums.length) : findUserIndex fn ums = some i ↔ attributedTo fn ums i := by
  constructor
  · exact findUserIndex_some_attributed fn ums i
  · intro hi
    cases h : findUserIndex fn ums with
    | none =>
      have hu := (findUserIndex_none_iff fn ums).mp h
      have := hu (ums.get i) (List.get_mem _ _ _)
      rw [hi.1] at this
      exact absurd this (by simp)
    | some j =>
      have hj := findUserIndex_some_attributed fn ums j h
      rw [attributedTo_unique fn ums i j hi hj]

/-! ## Eligible files -/

/-- On an accepted entry whose record is unprocessed, whose debounce period is
over and whose size check passes, the loop body runs the decision sequence. -/
theorem processFile_eligible [CaseTable] (world : World) (now : Int) (ums : List UserMapping)
    (deb : Int) (ign : List GoString) (cfg : Config) (st : ScanState) (file : DirEntry)
    (info : FileTrackingInfo) (hacc : accepted cfg file = true)
    (hrec : st.fileTracker (stringsToLower file.Name) = some info)
    (hdeb : debounceOver now deb info = true)
    (hsize : sizeChanged (entrySize file) info = false) :
    processFile world now ums deb ign cfg st file =
      evaluateFile world ums ign (stringsToLower cfg.GameName) (stringsToLower file.Name) info
        (noteFile st (stringsToLower file.Name)) := by
  unfold accepted at hacc
  simp only [Bool.and_eq_true, Bool.not_eq_true'] at hacc
  have hn : (noteFile st (stringsToLower file.Name)).fileTracker = st.fileTracker := rfl
  unfold processFile
  simp [hacc.1, hacc.2, hn, hrec, hdeb, hsize]


/-! ## The decision sequence (C2, C3, C4) -/

/-- C2, as amended. When an eligible, non-ignored, correctly prefixed file is
attributed to the player at index `i` of `N` mappings, and `c` is the counter
after the filename-driven advance for that file: if `i = N-1` and `c` is below
the largest 64-bit integer, the turn number passed to the turn-advance
notification and the turn counter after the transition both equal `c + 1`; if
`i < N-1` both equal `c`. -/
theorem processFile_turn_number [CaseTable] (world : World) (now : Int) (ums : List UserMapping)
    (deb : Int) (ign : List GoString) (cfg : Config) (st : ScanState) (file : DirEntry)
    (info : FileTrackingInfo) (i : Fin ums.length)
    (hacc : accepted cfg file = true)
    (hrec : st.fileTracker (stringsToLower file.Name) = some info)
    (hdeb : debounceOver now deb info = true)
    (hsize : sizeChanged (entrySize file) info = false)
    (hign : shouldIgnoreFile (stringsToLower file.Name) ign = false)
    (hpre : stringsStartsWith (stringsToLower file.Name) (stringsToLower cfg.GameName) = true)
    (hattr : attributedTo (stringsToLower file.Name) ums i) :
    (i.val = ums.length - 1 →
      max st.currentTurn (extractTurnNumber (stringsToLower file.Name)) < maxInt64 →
      (processFile world now ums deb ign cfg st file).currentTurn =
        max st.currentTurn (extractTurnNumber (stringsToLower file.Name)) + 1 ∧
      (processFile world now ums deb ign cfg st file).sent = st.sent ++
        [(stringsToLower file.Name, Notification.turnAdvance (ums.get i).Username
          (ums.get i).DiscordID (ums.get (nextIndex i)).Username
          (max st.currentTurn (extractTurnNumber (stringsToLower file.Name)) + 1))]) ∧
    (i.val < ums.length - 1 →
      (processFile world now ums deb ign cfg st file).currentTurn =
        max st.currentTurn (extractTurnNumber (stringsToLower file.Name)) ∧
      (processFile world now ums deb ign cfg st file).sent = st.sent ++
        [(stringsToLower file.Name, Notification.turnAdvance (ums.get i).Username
          (ums.get i).DiscordID (ums.get (nextIndex i)).Username
          (max st.currentTurn (extractTurnNumber (stringsToLower file.Name))))]) := by
  have hfind := (findUserIndex_some_iff (stringsToLower file.Name) ums i).mpr hattr
  have hnote := noteFile_currentTurn st (stringsToLower file.Name)
  have hnn := extractTurnNumber_nonneg (stringsToLower file.Name)
  rw [processFile_eligible world now ums deb ign cfg st file info hacc hrec hdeb hsize,
    evaluateFile_turn_some world ums ign _ _ info _ i hign hpre hfind]
  simp only [markProcessed, hnote]
  have hsent : (noteFile st (stringsToLower file.Name)).sent = st.sent := rfl
  constructor
  · intro hlast hfit
    have hw : wrapInt64 (max st.currentTurn (extractTurnNumber (stringsToLower file.Name)) + 1) =
        max st.currentTurn (extractTurnNumber (stringsToLower file.Name)) + 1 := by
      apply wrapInt64_of_fits
      · unfold minInt64; omega
      · omega
    simp [saveTurn, hlast, hw, hsent]
  · intro hlt
    have hne : i.val ≠ ums.length - 1 := by omega
    simp [saveTurn, hne, hsent]


/-- C2, witness: players `A`, `B`, `C`, counter 1, game `m1`; the stable file
`m1_turn1_C` is attributed to `C`, the last player: the counter becomes 2 and
the notification tells `C` to save turn 2 for `A`. -/
theorem processFile_turn_number_witness :
    (processFile (worldOk 50000) 40000 playersABC 30000 [] (configFor "m1")
      (waitingState "m1_turn1_c" 1) (fileOf "m1_turn1_C" 10)).currentTurn = 2 ∧
    (processFile (worldOk 50000) 40000 playersABC 30000 [] (configFor "m1")
      (waitingState "m1_turn1_c" 1) (fileOf "m1_turn1_C" 10)).sent =
      [("m1_turn1_c".toList,
        Notification.turnAdvance "C".toList "id_c".toList "A".toList 2)] :=
  have h := (processFile_turn_number (worldOk 50000) 40000 playersABC 30000 []
    (configFor "m1") (waitingState "m1_turn1_c" 1) (fileOf "m1_turn1_C" 10)
    (FileTrackingInfo.mk 0 false 10) ⟨2, by decide⟩ (by decide) (by decide) (by decide)
    (by decide) (by decide) (by decide) (by decide)).1
    (by decide) (by decide)
  ⟨h.1.trans (by decide), h.2.trans (by decide)⟩

/-- C2, counterexample: in the second scan of the overflow scenario the file is
eligible, not ignored, correctly prefixed and attributed to `C`, index 2 of 3;
the counter after the filename-driven advance is `c = 9223372036854775807`; the
counter after the transition and the turn number passed to the notification are
-9223372036854775808, which is not `c + 1`. -/
theorem processFile_turn_number_wraps :
    findUserIndex "m1_turn9223372036854775807_c".toList playersABC = some ⟨2, by decide⟩ ∧
    (noteFile overflowState "m1_turn9223372036854775807_c".toList).currentTurn =
      9223372036854775807 ∧
    (processFile (worldOk 40000) 40000 playersABC 30000 [] (configFor "m1") overflowState
      (fileOf "m1_turn9223372036854775807_C" 10)).currentTurn = -9223372036854775808 ∧
    (processFile (worldOk 40000) 40000 playersABC 30000 [] (configFor "m1") overflowState
      (fileOf "m1_turn9223372036854775807_C" 10)).sent =
      [("m1_turn9223372036854775807_c".toList,
        Notification.turnAdvance "C".toList "id_c".toList "A".toList (-9223372036854775808))] ∧
    (-9223372036854775808 : Int) ≠ 9223372036854775807 + 1 := by
  decide


/-- The index of the previous player is `(i - 1) mod N`. -/
theorem previousIndex_val {n : Nat} (i : Fin n) :
    ((previousIndex i).val : Int) = ((i.val : Int) - 1) % (n : Int) := by
  have hn : 1 ≤ n := Nat.lt_of_le_of_lt (Nat.zero_le _) i.isLt
  show (((i.val + n - 1) % n : Nat) : Int) = _
  rw [Int.natCast_mod]
  have h : ((i.val + n - 1 : Nat) : Int) = ((i.val : Int) - 1) + (n : Int) := by omega
  rw [h, Int.add_emod_self]

/-- With two players or more the previous player is not the player itself. -/
theorem previousIndex_ne {n : Nat} (i : Fin n) (hn : 2 ≤ n) : previousIndex i ≠ i := by
  intro h
  have hv : (i.val + n - 1) % n = i.val := congrArg Fin.val h
  have hi := i.isLt
  rcases Nat.eq_zero_or_pos i.val with h0 | hpos
  · rw [h0] at hv
    have : (0 + n - 1) % n = n - 1 := by
      rw [Nat.zero_add]; exact Nat.mod_eq_of_lt (by omega)
    omega
  · have h1 : i.val + n - 1 = (i.val - 1) + n := by omega
    rw [h1, Nat.add_mod_right, Nat.mod_eq_of_lt (by omega)] at hv
    omega

/-- C3. For every eligible file whose lower-cased name starts with the
lower-cased game name and contains no ignore pattern, and every list of player
mappings: when `i` is the least index whose lower-cased user name occurs in the
lower-cased file name, exactly one webhook call is made for the file, the
turn-advance notification addressed to mapping `i` and naming as next player the
mapping at index `(i + 1) mod N`, an index below `N`; when no user name occurs in
the file name no call is made; in both cases the record is marked processed. -/
theorem processFile_turn_notification [CaseTable] (world : World) (now : Int) (ums : List UserMapping)
    (deb : Int) (ign : List GoString) (cfg : Config) (st : ScanState) (file : DirEntry)
    (info : FileTrackingInfo)
    (hacc : accepted cfg file = true)
    (hrec : st.fileTracker (stringsToLower file.Name) = some info)
    (hdeb : debounceOver now deb info = true)
    (hsize : sizeChanged (entrySize file) info = false)
    (hign : shouldIgnoreFile (stringsToLower file.Name) ign = false)
    (hpre : stringsStartsWith (stringsToLower file.Name) (stringsToLower cfg.GameName) = true) :
    (∀ i : Fin ums.length, attributedTo (stringsToLower file.Name) ums i →
      (nextIndex i).val = (i.val + 1) % ums.length ∧ (nextIndex i).val < ums.length ∧
      (processFile world now ums deb ign cfg st file).sent = st.sent ++
        [(stringsToLower file.Name, Notification.turnAdvance (ums.get i).Username
          (ums.get i).DiscordID (ums.get (nextIndex i)).Username
          (saveTurn ums.length i.val
            (max st.currentTurn (extractTurnNumber (stringsToLower file.Name)))))]) ∧
    (unattributed (stringsToLower file.Name) ums →
      (processFile world now ums deb ign cfg st file).sent = st.sent) ∧
    (processFile world now ums deb ign cfg st file).fileTracker (stringsToLower file.Name) =
      some (FileTrackingInfo.mk info.FirstSeen true info.LastSize) := by
  have hnote := noteFile_currentTurn st (stringsToLower file.Name)
  have hsent : (noteFile st (stringsToLower file.Name)).sent = st.sent := rfl
  rw [processFile_eligible world now ums deb ign cfg st file info hacc hrec hdeb hsize]
  refine ⟨?_, ?_, ?_⟩
  · intro i hattr
    have hfind := (findUserIndex_some_iff (stringsToLower file.Name) ums i).mpr hattr
    rw [evaluateFile_turn_some world ums ign _ _ info _ i hign hpre hfind]
    refine ⟨rfl, (nextIndex i).isLt, ?_⟩
    simp only [markProcessed, hnote, hsent]
  · intro hun
    have hfind := (findUserIndex_none_iff (stringsToLower file.Name) ums).mpr hun
    rw [evaluateFile_turn_none world ums ign _ _ info _ hign hpre hfind]
    rfl
  · rw [evaluateFile_fileTracker]
    exact FileTracker.set_same _ _ _

/-- C3, witness: players `A`, `B`, `C`, game `pbem1`, counter 1, the stable file
`pbem1_turn1_B`: the acting player is `B`, the next player `C`, the turn to save 1. -/
theorem processFile_turn_notification_witness :
    (processFile (worldOk 50000) 40000 playersABC 30000 [] (configFor "pbem1")
      (waitingState "pbem1_turn1_b" 1) (fileOf "pbem1_turn1_B" 10)).sent =
      [("pbem1_turn1_b".toList,
        Notification.turnAdvance "B".toList "id_b".toList "C".toList 1)] :=
  have h := (processFile_turn_notification (worldOk 50000) 40000 playersABC 30000 []
    (configFor "pbem1") (waitingState "pbem1_turn1_b" 1) (fileOf "pbem1_turn1_B" 10)
    (FileTrackingInfo.mk 0 false 10) (by decide) (by decide) (by decide) (by decide)
    (by decide) (by decide)).1 ⟨1, by decide⟩ (by decide)
  h.2.2.trans (by decide)

/-- C4, as amended. For every eligible, non-ignored file whose lower-cased name
does not start with the lower-cased game name, and every list of player
mappings: when `i` is the least index whose lower-cased user name occurs in the
file name, exactly one webhook call is made for the file, the rename
notification addressed to the mapping at index `(i - 1) mod N`, an index
different from `i` as soon as there are two players; when no user name occurs
in the file name no call is made; in both cases the record is marked processed,
no turn-advance notification is sent and the active-turn record is unchanged. -/
theorem processFile_rename_notification [CaseTable] (world : World) (now : Int)
    (ums : List UserMapping) (deb : Int) (ign : List GoString) (cfg : Config)
    (st : ScanState) (file : DirEntry) (info : FileTrackingInfo)
    (hacc : accepted cfg file = true)
    (hrec : st.fileTracker (stringsToLower file.Name) = some info)
    (hdeb : debounceOver now deb info = true)
    (hsize : sizeChanged (entrySize file) info = false)
    (hign : shouldIgnoreFile (stringsToLower file.Name) ign = false)
    (hpre : stringsStartsWith (stringsToLower file.Name) (stringsToLower cfg.GameName) = false) :
    (∀ i : Fin ums.length, attributedTo (stringsToLower file.Name) ums i →
      ((previousIndex i).val : Int) = ((i.val : Int) - 1) % (ums.length : Int) ∧
      (2 ≤ ums.length → previousIndex i ≠ i) ∧
      (processFile world now ums deb ign cfg st file).sent = st.sent ++
        [(stringsToLower file.Name, Notification.renameNeeded
          (ums.get (previousIndex i)).Username (ums.get (previousIndex i)).DiscordID
          (stringsToLower file.Name)
          (max st.currentTurn (extractTurnNumber (stringsToLower file.Name))))]) ∧
    (unattributed (stringsToLower file.Name) ums →
      (processFile world now ums deb ign cfg st file).sent = st.sent) ∧
    (processFile world now ums deb ign cfg st file).fileTracker (stringsToLower file.Name) =
      some (FileTrackingInfo.mk info.FirstSeen true info.LastSize) ∧
    (processFile world now ums deb ign cfg st file).currentTurnInfo = st.currentTurnInfo := by
  have hnote := noteFile_currentTurn st (stringsToLower file.Name)
  have hsent : (noteFile st (stringsToLower file.Name)).sent = st.sent := rfl
  rw [processFile_eligible world now ums deb ign cfg st file info hacc hrec hdeb hsize]
  refine ⟨?_, ?_, ?_, ?_⟩
  · intro i hattr
    have hfind := (findUserIndex_some_iff (stringsToLower file.Name) ums i).mpr hattr
    rw [evaluateFile_rename_some world ums ign _ _ info _ i hign hpre hfind]
    refine ⟨previousIndex_val i, previousIndex_ne i, ?_⟩
    simp only [markProcessed, hnote, hsent]
  · intro hun
    have hfind := (findUserIndex_none_iff (stringsToLower file.Name) ums).mpr hun
    rw [evaluateFile_rename_none world ums ign _ _ info _ hign hpre hfind]
    rfl
  · rw [evaluateFile_fileTracker]
    exact FileTracker.set_same _ _ _
  · cases hu : findUserIndex (stringsToLower file.Name) ums with
    | none => rw [evaluateFile_rename_none world ums ign _ _ info _ hign hpre hu]; rfl
    | some i => rw [evaluateFile_rename_some world ums ign _ _ info _ i hign hpre hu]; rfl

/-- C4, witness: players `A`, `B`, `C`, game `pbem1`, the stable file
`other_turn2_A`: the name does not start with the game name, `A` (index 0)
occurs in it, and the rename notification goes to `C` (index 2). -/
theorem processFile_rename_notification_witness :
    (processFile (worldOk 50000) 40000 playersABC 30000 [] (configFor "pbem1")
      (waitingState "other_turn2_a" 1) (fileOf "other_turn2_A" 10)).sent =
      [("other_turn2_a".toList,
        Notification.renameNeeded "C".toList "id_c".toList "other_turn2_a".toList 2)] :=
  have h := (processFile_rename_notification (worldOk 50000) 40000 playersABC 30000 []
    (configFor "pbem1") (waitingState "other_turn2_a" 1) (fileOf "other_turn2_A" 10)
    (FileTrackingInfo.mk 0 false 10) (by decide) (by decide) (by decide) (by decide)
    (by decide) (by decide)).1 ⟨0, by decide⟩ (by decide)
  h.2.2.trans (by decide)


/-- C4, counterexample: with the single player `A` and game `pbem1`, the stable
file `other_turn2_A` is attributed to index 0, and `(0 - 1) mod 1` is 0 again:
the rename notification is addressed to `A`, the mapping at index `i` itself. -/
theorem processFile_rename_notification_single_player :
    findUserIndex "other_turn2_a".toList playerA = some ⟨0, by decide⟩ ∧
    playerA.get ⟨0, by decide⟩ = UserMapping.mk 1 "A".toList "id_a".toList ∧
    (processFile (worldOk 50000) 40000 playerA 30000 [] (configFor "pbem1")
      (waitingState "other_turn2_a" 1) (fileOf "other_turn2_A" 10)).sent =
      [("other_turn2_a".toList,
        Notification.renameNeeded "A".toList "id_a".toList "other_turn2_a".toList 2)] := by
  decide

/-! ## The tracker across a whole scan (C8) -/

theorem upper_range (c : Char) (h : 'A' ≤ c ∧ c ≤ 'Z') : 65 ≤ c.toNat ∧ c.toNat ≤ 90 := by
  obtain ⟨h1, h2⟩ := h
  rw [Char.le_def, UInt32.le_def, BitVec.le_def] at h1 h2
  exact ⟨h1, h2⟩

/-- On ASCII `unicode.ToLower` is the ASCII letter mapping. -/
theorem lowerChar_ascii [CaseTable] (c : Char) (h : c.toNat < 128) :
    lowerChar c = asciiLower c :=
  CaseTable.toLower_ascii c h

theorem lowerChar_idem [CaseTable] (c : Char) : lowerChar (lowerChar c) = lowerChar c :=
  CaseTable.toLower_idem c

theorem lowerChar_underscore [CaseTable] : lowerChar '_' = '_' :=
  (lowerChar_ascii '_' (by decide)).trans (by decide)

theorem lowerChar_dot [CaseTable] : lowerChar '.' = '.' :=
  (lowerChar_ascii '.' (by decide)).trans (by decide)

/-- The marker `turn` in lower case is its own lower-case form. -/
theorem stringsToLower_turn [CaseTable] :
    stringsToLower ['t', 'u', 'r', 'n'] = ['t', 'u', 'r', 'n'] := by
  have ht : lowerChar 't' = 't' := (lowerChar_ascii 't' (by decide)).trans (by decide)
  have hu : lowerChar 'u' = 'u' := (lowerChar_ascii 'u' (by decide)).trans (by decide)
  have hr : lowerChar 'r' = 'r' := (lowerChar_ascii 'r' (by decide)).trans (by decide)
  have hn : lowerChar 'n' = 'n' := (lowerChar_ascii 'n' (by decide)).trans (by decide)
  unfold stringsToLower
  simp only [List.map_cons, List.map_nil, ht, hu, hr, hn]

/-- Lower-casing a lower-cased string changes nothing. -/
theorem stringsToLower_idem [CaseTable] (s : GoString) :
    stringsToLower (stringsToLower s) = stringsToLower s := by
  unfold stringsToLower
  rw [List.map_map]
  apply List.map_congr_left
  intro c _
  exact lowerChar_idem c

/-- The extension filter gives the same answer on a name and on its lower-cased form. -/
theorem hasAllowedExtension_lower [CaseTable] (name : GoString) (exts : List GoString) :
    hasAllowedExtension (stringsToLower name) exts = hasAllowedExtension name exts := by
  unfold hasAllowedExtension
  rw [stringsToLower_idem]

/-- Entries with other names leave the record of `k` alone. -/
theorem scanLoop_tracker_other [CaseTable] (world : World) (now : Int) (ums : List UserMapping)
    (deb : Int) (ign : List GoString) (cfg : Config) (k : GoString) (files : List DirEntry) :
    ∀ st : ScanState, (∀ f ∈ files, stringsToLower f.Name ≠ k) →
      (scanLoop world now ums deb ign cfg st files).fileTracker k = st.fileTracker k := by
  induction files with
  | nil => intro st _; rfl
  | cons file rest ih =>
    intro st h
    rw [scanLoop_cons, ih _ (fun f hf => h f (List.mem_cons_of_mem _ hf))]
    exact processFile_tracker_other world now ums deb ign cfg st file k
      (fun hk => h file (List.mem_cons_self _ _) hk.symm)

/-- A record marked processed is the same after the loop. -/
theorem scanLoop_processed_keep [CaseTable] (world : World) (now : Int) (ums : List UserMapping)
    (deb : Int) (ign : List GoString) (cfg : Config) (k : GoString) (info : FileTrackingInfo)
    (hp : info.Processed = true) (files : List DirEntry) :
    ∀ st : ScanState, st.fileTracker k = some info →
      (scanLoop world now ums deb ign cfg st files).fileTracker k = some info := by
  induction files with
  | nil => intro st h; exact h
  | cons file rest ih =>
    intro st h
    rw [scanLoop_cons]
    exact ih _ (processFile_processed_keep world now ums deb ign cfg st file k info h hp)

/-- The webhook calls of the loop are appended to the log, each tagged with the
lower-cased name of an entry of the listing. -/
theorem scanLoop_sent [CaseTable] (world : World) (now : Int) (ums : List UserMapping)
    (deb : Int) (ign : List GoString) (cfg : Config) (files : List DirEntry) :
    ∀ st : ScanState, ∃ extra,
      (scanLoop world now ums deb ign cfg st files).sent = st.sent ++ extra ∧
      ∀ x ∈ extra, ∃ f ∈ files, x.1 = stringsToLower f.Name := by
  induction files with
  | nil => intro st; exact ⟨[], by simp [scanLoop_nil], by simp⟩
  | cons file rest ih =>
    intro st
    obtain ⟨e1, h1, t1⟩ := processFile_sent world now ums deb ign cfg st file
    obtain ⟨e2, h2, t2⟩ := ih (processFile world now ums deb ign cfg st file)
    refine ⟨e1 ++ e2, ?_, ?_⟩
    · rw [scanLoop_cons, h2, h1, List.append_assoc]
    · intro x hx
      rcases List.mem_append.mp hx with hx | hx
      · exact ⟨file, List.mem_cons_self _ _, t1 x hx⟩
      · obtain ⟨f, hf, hxf⟩ := t2 x hx
        exact ⟨f, List.mem_cons_of_mem _ hf, hxf⟩

/-- The current files after the loop: those noted before, and the lower-cased
names of the accepted entries. -/
theorem scanLoop_currentFiles [CaseTable] (world : World) (now : Int) (ums : List UserMapping)
    (deb : Int) (ign : List GoString) (cfg : Config) (k : GoString) (files : List DirEntry) :
    ∀ st : ScanState, k ∈ (scanLoop world now ums deb ign cfg st files).currentFiles ↔
      k ∈ st.currentFiles ∨ ∃ f ∈ files, accepted cfg f = true ∧ stringsToLower f.Name = k := by
  induction files with
  | nil => intro st; simp [scanLoop_nil]
  | cons file rest ih =>
    intro st
    rw [scanLoop_cons, ih, processFile_currentFiles]
    by_cases hacc : accepted cfg file = true
    · simp only [hacc, if_true, List.mem_cons, exists_eq_or_imp, true_and]
      constructor
      · rintro ((h | h) | h)
        · exact Or.inr (Or.inl h.symm)
        · exact Or.inl h
        · exact Or.inr (Or.inr h)
      · rintro (h | h | h)
        · exact Or.inl (Or.inr h)
        · exact Or.inl (Or.inl h.symm)
        · exact Or.inr h
    · simp [hacc]

/-- The keys of the tracker after the loop: those it had before, and the
lower-cased names of the accepted entries. -/
theorem scanLoop_tracked [CaseTable] (world : World) (now : Int) (ums : List UserMapping)
    (deb : Int) (ign : List GoString) (cfg : Config) (k : GoString) (files : List DirEntry) :
    ∀ st : ScanState,
      ((scanLoop world now ums deb ign cfg st files).fileTracker k).isSome = true ↔
      (st.fileTracker k).isSome = true ∨
        ∃ f ∈ files, accepted cfg f = true ∧ stringsToLower f.Name = k := by
  induction files with
  | nil => intro st; simp [scanLoop_nil]
  | cons file rest ih =>
    intro st
    rw [scanLoop_cons, ih, processFile_tracked]
    simp only [List.mem_cons, exists_eq_or_imp]
    constructor
    · rintro ((h | ⟨h1, h2⟩) | h)
      · exact Or.inl h
      · exact Or.inr (Or.inl ⟨h1, h2.symm⟩)
      · exact Or.inr (Or.inr h)
    · rintro (h | ⟨h1, h2⟩ | h)
      · exact Or.inl (Or.inl h)
      · exact Or.inl (Or.inr ⟨h1, h2.symm⟩)
      · exact Or.inr h

/-- The keys of the tracker after a scan are the lower-cased names of the
accepted entries of the listing. -/
theorem processDirectory_tracked_iff [CaseTable] (world : World) (now : Int) (files : List DirEntry)
    (fileTracker : FileTracker) (ums : List UserMapping) (deb : Int)
    (ign : List GoString) (cfg : Config) (currentTurn : Int)
    (currentTurnInfo : Option TurnInfo) (k : GoString) :
    ((processDirectory world now (some files) fileTracker ums deb ign cfg currentTurn
        currentTurnInfo).fileTracker k).isSome = true ↔
      ∃ f ∈ files, accepted cfg f = true ∧ stringsToLower f.Name = k := by
  show ((cleanUp _ _) k).isSome = true ↔ _
  unfold cleanUp
  have hcf := scanLoop_currentFiles world now ums deb ign cfg k files
    (ScanState.mk fileTracker [] currentTurn currentTurnInfo [])
  have htr := scanLoop_tracked world now ums deb ign cfg k files
    (ScanState.mk fileTracker [] currentTurn currentTurnInfo [])
  simp only [List.not_mem_nil, false_or] at hcf
  by_cases hk : k ∈ (scanLoop world now ums deb ign cfg
      (ScanState.mk fileTracker [] currentTurn currentTurnInfo []) files).currentFiles
  · simp only [hk, if_true]
    constructor
    · intro _; exact hcf.mp hk
    · intro h; exact htr.mpr (Or.inr h)
  · simp only [hk, if_false, Option.isSome_none, Bool.false_eq_true, false_iff]
    exact fun h => hk (hcf.mpr h)

/-- An entry is accepted exactly when it is no directory and its name passes the
extension filter. -/
theorem accepted_iff [CaseTable] (cfg : Config) (f : DirEntry) :
    accepted cfg f = true ↔
      (f.IsDir = false ∧ hasAllowedExtension f.Name cfg.AllowedExtensions = true) := by
  unfold accepted
  rw [hasAllowedExtension_lower]
  simp

/-- C8. After every scan whose directory read succeeds, the keys of the file
tracker are exactly the lower-cased names of the non-directory listing entries
that pass `hasAllowedExtension`, whatever the tracker held before: a tracked
name absent from the listing is removed, and the name of an entry whose
extension is not allowed has no record after the scan (so none is ever created
for it, however often it is scanned). -/
theorem processDirectory_keys [CaseTable] (world : World) (now : Int) (files : List DirEntry)
    (fileTracker : FileTracker) (ums : List UserMapping) (deb : Int)
    (ign : List GoString) (cfg : Config) (currentTurn : Int)
    (currentTurnInfo : Option TurnInfo) (k : GoString) :
    (((processDirectory world now (some files) fileTracker ums deb ign cfg currentTurn
        currentTurnInfo).fileTracker k).isSome = true ↔
      ∃ f ∈ files, f.IsDir = false ∧
        hasAllowedExtension f.Name cfg.AllowedExtensions = true ∧ stringsToLower f.Name = k) ∧
    ((∀ f ∈ files, stringsToLower f.Name ≠ k) →
      (processDirectory world now (some files) fileTracker ums deb ign cfg currentTurn
        currentTurnInfo).fileTracker k = none) ∧
    (∀ f ∈ files, hasAllowedExtension f.Name cfg.AllowedExtensions = false →
      (processDirectory world now (some files) fileTracker ums deb ign cfg currentTurn
        currentTurnInfo).fileTracker (stringsToLower f.Name) = none) := by
  have hiff := processDirectory_tracked_iff world now files fileTracker ums deb ign cfg
    currentTurn currentTurnInfo k
  have hacc := accepted_iff cfg
  have hmain : ((processDirectory world now (some files) fileTracker ums deb ign cfg currentTurn
        currentTurnInfo).fileTracker k).isSome = true ↔
      ∃ f ∈ files, f.IsDir = false ∧
        hasAllowedExtension f.Name cfg.AllowedExtensions = true ∧ stringsToLower f.Name = k := by
    rw [hiff]
    constructor
    · rintro ⟨f, hf, h1, h2⟩
      exact ⟨f, hf, ((hacc f).mp h1).1, ((hacc f).mp h1).2, h2⟩
    · rintro ⟨f, hf, h1, h2, h3⟩
      exact ⟨f, hf, (hacc f).mpr ⟨h1, h2⟩, h3⟩
  refine ⟨hmain, ?_, ?_⟩
  · intro habs
    cases hres : (processDirectory world now (some files) fileTracker ums deb ign cfg
      currentTurn currentTurnInfo).fileTracker k with
    | none => rfl
    | some r =>
      have := hmain.mp (by rw [hres]; rfl)
      obtain ⟨f, hf, _, _, hk⟩ := this
      exact absurd hk (habs f hf)
  · intro f _ hno
    cases hres : (processDirectory world now (some files) fileTracker ums deb ign cfg
      currentTurn currentTurnInfo).fileTracker (stringsToLower f.Name) with
    | none => rfl
    | some r =>
      have hex : ∃ g ∈ files, accepted cfg g = true ∧
          stringsToLower g.Name = stringsToLower f.Name := by
        apply (scanLoop_currentFiles world now ums deb ign cfg (stringsToLower f.Name) files
          (ScanState.mk fileTracker [] currentTurn currentTurnInfo [])).mp ?_ |>.resolve_left
          (by simp)
        by_contra hk
        have hnone : (processDirectory world now (some files) fileTracker ums deb ign cfg
            currentTurn currentTurnInfo).fileTracker (stringsToLower f.Name) = none := by
          show (cleanUp _ _) (stringsToLower f.Name) = none
          unfold cleanUp
          rw [if_neg hk]
        rw [hnone] at hres
        exact absurd hres (by simp)
      obtain ⟨g, _, hg, hname⟩ := hex
      have h1 : hasAllowedExtension (stringsToLower g.Name) cfg.AllowedExtensions = true := by
        unfold accepted at hg
        simp only [Bool.and_eq_true] at hg
        exact hg.2
      rw [hname, hasAllowedExtension_lower, hno] at h1
      exact absurd h1 (by simp)


/-! ## One entry within a scan -/

theorem processFile_new [CaseTable] (world : World) (now : Int) (ums : List UserMapping)
    (deb : Int) (ign : List GoString) (cfg : Config) (st : ScanState) (file : DirEntry)
    (hacc : accepted cfg file = true)
    (hrec : st.fileTracker (stringsToLower file.Name) = none) :
    processFile world now ums deb ign cfg st file =
      { noteFile st (stringsToLower file.Name) with
        fileTracker := st.fileTracker.set (stringsToLower file.Name)
          (FileTrackingInfo.mk now false (entrySize file)) } := by
  unfold accepted at hacc
  simp only [Bool.and_eq_true, Bool.not_eq_true'] at hacc
  have hn : (noteFile st (stringsToLower file.Name)).fileTracker = st.fileTracker := rfl
  unfold processFile
  simp [hacc.1, hacc.2, hn, hrec]

theorem processFile_waiting [CaseTable] (world : World) (now : Int) (ums : List UserMapping)
    (deb : Int) (ign : List GoString) (cfg : Config) (st : ScanState) (file : DirEntry)
    (info : FileTrackingInfo) (hacc : accepted cfg file = true)
    (hrec : st.fileTracker (stringsToLower file.Name) = some info)
    (hdeb : debounceOver now deb info = false) :
    processFile world now ums deb ign cfg st file = noteFile st (stringsToLower file.Name) := by
  unfold accepted at hacc
  simp only [Bool.and_eq_true, Bool.not_eq_true'] at hacc
  have hn : (noteFile st (stringsToLower file.Name)).fileTracker = st.fileTracker := rfl
  unfold processFile
  simp [hacc.1, hacc.2, hn, hrec, hdeb]

theorem processFile_extend [CaseTable] (world : World) (now : Int) (ums : List UserMapping)
    (deb : Int) (ign : List GoString) (cfg : Config) (st : ScanState) (file : DirEntry)
    (info : FileTrackingInfo) (hacc : accepted cfg file = true)
    (hrec : st.fileTracker (stringsToLower file.Name) = some info)
    (hdeb : debounceOver now deb info = true)
    (hsize : sizeChanged (entrySize file) info = true) :
    processFile world now ums deb ign cfg st file =
      { noteFile st (stringsToLower file.Name) with
        fileTracker := st.fileTracker.set (stringsToLower file.Name)
          (FileTrackingInfo.mk now info.Processed (entrySize file)) } := by
  unfold accepted at hacc
  simp only [Bool.and_eq_true, Bool.not_eq_true'] at hacc
  have hn : (noteFile st (stringsToLower file.Name)).fileTracker = st.fileTracker := rfl
  unfold processFile
  simp [hacc.1, hacc.2, hn, hrec, hdeb, hsize]

theorem distinctNames_split [CaseTable] (pre post : List DirEntry) (file : DirEntry)
    (h : distinctNames (pre ++ file :: post)) :
    (∀ f ∈ pre, stringsToLower f.Name ≠ stringsToLower file.Name) ∧
    (∀ f ∈ post, stringsToLower f.Name ≠ stringsToLower file.Name) := by
  unfold distinctNames at h
  rw [List.map_append, List.map_cons, List.nodup_append] at h
  obtain ⟨_, h2, h3⟩ := h
  rw [List.nodup_cons] at h2
  constructor
  · intro f hf heq
    exact h3 (List.mem_map_of_mem (fun f => stringsToLower f.Name) hf)
      (by rw [heq]; exact List.mem_cons_self _ _)
  · intro f hf heq
    exact h2.1 (by rw [← heq]; exact List.mem_map_of_mem (fun f => stringsToLower f.Name) hf)

/-- In a listing with distinct names, the record of an entry is, when the loop
reaches the entry, the one the tracker held at the start of the scan, and no
webhook call tagged with its name has been made; after the scan the record is
the one the loop body left (for an accepted entry), and the calls made after
the entry's turn carry other names. -/
theorem scan_locate [CaseTable] (world : World) (now : Int) (ums : List UserMapping)
    (deb : Int) (ign : List GoString) (cfg : Config) (fileTracker : FileTracker)
    (currentTurn : Int) (currentTurnInfo : Option TurnInfo)
    (pre post : List DirEntry) (file : DirEntry)
    (hnodup : distinctNames (pre ++ file :: post)) :
    (stateAfter world now ums deb ign cfg fileTracker currentTurn currentTurnInfo
      pre).fileTracker (stringsToLower file.Name) = fileTracker (stringsToLower file.Name) ∧
    (∀ x ∈ (stateAfter world now ums deb ign cfg fileTracker currentTurn currentTurnInfo
      pre).sent, x.1 ≠ stringsToLower file.Name) ∧
    (accepted cfg file = true →
      (processDirectory world now (some (pre ++ file :: post)) fileTracker ums deb ign cfg
        currentTurn currentTurnInfo).fileTracker (stringsToLower file.Name) =
      (processFile world now ums deb ign cfg
        (stateAfter world now ums deb ign cfg fileTracker currentTurn currentTurnInfo pre)
        file).fileTracker (stringsToLower file.Name)) ∧
    (∃ extra, (processDirectory world now (some (pre ++ file :: post)) fileTracker ums deb
        ign cfg currentTurn currentTurnInfo).sent =
      (processFile world now ums deb ign cfg
        (stateAfter world now ums deb ign cfg fileTracker currentTurn currentTurnInfo pre)
        file).sent ++ extra ∧ ∀ x ∈ extra, x.1 ≠ stringsToLower file.Name) := by
  obtain ⟨hpre, hpost⟩ := distinctNames_split pre post file hnodup
  have hres : scanLoop world now ums deb ign cfg
      (ScanState.mk fileTracker [] currentTurn currentTurnInfo []) (pre ++ file :: post) =
      scanLoop world now ums deb ign cfg (processFile world now ums deb ign cfg
        (stateAfter world now ums deb ign cfg fileTracker currentTurn currentTurnInfo pre)
        file) post := by
    rw [scanLoop_append, scanLoop_cons]
    rfl
  refine ⟨?_, ?_, ?_, ?_⟩
  · exact scanLoop_tracker_other world now ums deb ign cfg _ pre _ hpre
  · intro x hx heq
    obtain ⟨extra, he, ht⟩ := scanLoop_sent world now ums deb ign cfg pre
      (ScanState.mk fileTracker [] currentTurn currentTurnInfo [])
    have hx' : x ∈ extra := by
      have : x ∈ ([] : List (GoString × Notification)) ++ extra := by
        rw [← he]; exact hx
      simpa using this
    obtain ⟨f, hf, hxf⟩ := ht x hx'
    exact hpre f hf (hxf ▸ heq)
  · intro hacc
    show (cleanUp _ _) _ = _
    rw [hres]
    unfold cleanUp
    have hin : stringsToLower file.Name ∈ (scanLoop world now ums deb ign cfg
        (processFile world now ums deb ign cfg
          (stateAfter world now ums deb ign cfg fileTracker currentTurn currentTurnInfo pre)
          file) post).currentFiles := by
      rw [scanLoop_currentFiles, processFile_currentFiles]
      simp [hacc]
    rw [if_pos hin]
    exact scanLoop_tracker_other world now ums deb ign cfg _ post _ hpost
  · obtain ⟨extra, he, ht⟩ := scanLoop_sent world now ums deb ign cfg post
      (processFile world now ums deb ign cfg
        (stateAfter world now ums deb ign cfg fileTracker currentTurn currentTurnInfo pre) file)
    refine ⟨extra, ?_, ?_⟩
    · show (scanLoop _ _ _ _ _ _ _ _).sent = _
      rw [hres, he]
    · intro x hx heq
      obtain ⟨f, hf, hxf⟩ := ht x hx
      exact hpost f hf (hxf ▸ heq)


/-! ## New arrivals and processed files (C9, C10) -/

/-- A record marked processed: the loop body makes no webhook call for its file
and leaves the active-turn record alone. -/
theorem processFile_processed_quiet [CaseTable] (world : World) (now : Int) (ums : List UserMapping)
    (deb : Int) (ign : List GoString) (cfg : Config) (st : ScanState) (file : DirEntry)
    (info : FileTrackingInfo)
    (hrec : st.fileTracker (stringsToLower file.Name) = some info)
    (hp : info.Processed = true) :
    (processFile world now ums deb ign cfg st file).sent = st.sent ∧
    (processFile world now ums deb ign cfg st file).currentTurnInfo = st.currentTurnInfo := by
  by_cases hacc : accepted cfg file = true
  · have hdeb : debounceOver now deb info = false := by simp [debounceOver, hp]
    rw [processFile_waiting world now ums deb ign cfg st file info hacc hrec hdeb]
    exact ⟨rfl, rfl⟩
  · have hacc' : accepted cfg file = false := by simpa using hacc
    rw [processFile_not_accepted world now ums deb ign cfg st file hacc']
    exact ⟨rfl, rfl⟩

/-- While the record of `k` is marked processed, the loop makes no webhook call
tagged `k`. -/
theorem scanLoop_sent_processed [CaseTable] (world : World) (now : Int) (ums : List UserMapping)
    (deb : Int) (ign : List GoString) (cfg : Config) (k : GoString) (info : FileTrackingInfo)
    (hp : info.Processed = true) (files : List DirEntry) :
    ∀ st : ScanState, st.fileTracker k = some info →
      ∀ x ∈ (scanLoop world now ums deb ign cfg st files).sent, x ∈ st.sent ∨ x.1 ≠ k := by
  induction files with
  | nil => intro st _ x hx; exact Or.inl hx
  | cons file rest ih =>
    intro st hrec x hx
    rw [scanLoop_cons] at hx
    have hkeep := processFile_processed_keep world now ums deb ign cfg st file k info hrec hp
    rcases ih _ hkeep x hx with h | h
    · by_cases hk : stringsToLower file.Name = k
      · subst hk
        rw [(processFile_processed_quiet world now ums deb ign cfg st file info hrec hp).1] at h
        exact Or.inl h
      · obtain ⟨extra, he, ht⟩ := processFile_sent world now ums deb ign cfg st file
        rw [he] at h
        rcases List.mem_append.mp h with h | h
        · exact Or.inl h
        · exact Or.inr (fun hx1 => hk ((ht x h).symm.trans hx1))
    · exact Or.inr h

/-- Every non-directory entry present at start is seeded with a record marked
processed, and seeding keeps the records already marked processed so. -/
theorem seedTracker_processed [CaseTable] (clock : Nat → Int) (key : GoString) (files : List DirEntry) :
    ∀ (n : Nat) (tracker : FileTracker),
      ((∃ f ∈ files, f.IsDir = false ∧ stringsToLower f.Name = key) ∨
        ∃ r, tracker key = some r ∧ r.Processed = true) →
      ∃ r, seedTracker clock n files tracker key = some r ∧ r.Processed = true := by
  induction files with
  | nil =>
    intro n tracker h
    rcases h with ⟨f, hf, _⟩ | h
    · exact absurd hf (List.not_mem_nil _)
    · exact h
  | cons file rest ih =>
    intro n tracker h
    unfold seedTracker
    by_cases hd : file.IsDir = true
    · simp only [hd, if_true]
      apply ih
      rcases h with ⟨f, hf, hfd, hfk⟩ | h
      · rcases List.mem_cons.mp hf with rfl | hf'
        · rw [hd] at hfd; exact absurd hfd (by simp)
        · exact Or.inl ⟨f, hf', hfd, hfk⟩
      · exact Or.inr h
    · have hd' : file.IsDir = false := by simpa using hd
      simp only [hd', Bool.false_eq_true, if_false]
      apply ih
      by_cases hk : key = stringsToLower file.Name
      · exact Or.inr ⟨_, by rw [hk]; exact FileTracker.set_same _ _ _, rfl⟩
      · rcases h with ⟨f, hf, hfd, hfk⟩ | ⟨r, hr, hrp⟩
        · rcases List.mem_cons.mp hf with rfl | hf'
          · exact absurd hfk.symm hk
          · exact Or.inl ⟨f, hf', hfd, hfk⟩
        · exact Or.inr ⟨r, by rw [FileTracker.set_other _ _ _ _ hk]; exact hr, hrp⟩

/-- C9. For every scan over a listing whose names are distinct after
lower-casing, and every non-directory entry with an allowed extension that has
no record before the scan: after the scan its record is exactly (first-seen =
now, processed = false, last-size = current size), the scan makes no webhook
call on its behalf, and the loop body run on the entry leaves the log of calls
and the active-turn record as they were; this for every debounce window. -/
theorem processDirectory_new_arrival [CaseTable] (world : World) (now : Int) (ums : List UserMapping)
    (deb : Int) (ign : List GoString) (cfg : Config) (fileTracker : FileTracker)
    (currentTurn : Int) (currentTurnInfo : Option TurnInfo)
    (pre post : List DirEntry) (file : DirEntry)
    (hnodup : distinctNames (pre ++ file :: post))
    (hdir : file.IsDir = false)
    (hext : hasAllowedExtension file.Name cfg.AllowedExtensions = true)
    (hnew : fileTracker (stringsToLower file.Name) = none) :
    (processDirectory world now (some (pre ++ file :: post)) fileTracker ums deb ign cfg
      currentTurn currentTurnInfo).fileTracker (stringsToLower file.Name) =
      some (FileTrackingInfo.mk now false (entrySize file)) ∧
    (∀ x ∈ (processDirectory world now (some (pre ++ file :: post)) fileTracker ums deb ign
      cfg currentTurn currentTurnInfo).sent, x.1 ≠ stringsToLower file.Name) ∧
    (processFile world now ums deb ign cfg
      (stateAfter world now ums deb ign cfg fileTracker currentTurn currentTurnInfo pre)
      file).sent =
      (stateAfter world now ums deb ign cfg fileTracker currentTurn currentTurnInfo pre).sent ∧
    (processFile world now ums deb ign cfg
      (stateAfter world now ums deb ign cfg fileTracker currentTurn currentTurnInfo pre)
      file).currentTurnInfo =
      (stateAfter world now ums deb ign cfg fileTracker currentTurn currentTurnInfo
        pre).currentTurnInfo := by
  have hacc : accepted cfg file = true := by
    unfold accepted
    rw [hasAllowedExtension_lower]
    simp [hdir, hext]
  obtain ⟨h1, h2, h3, extra, h4, h5⟩ := scan_locate world now ums deb ign cfg fileTracker
    currentTurn currentTurnInfo pre post file hnodup
  have hstep := processFile_new world now ums deb ign cfg
    (stateAfter world now ums deb ign cfg fileTracker currentTurn currentTurnInfo pre) file
    hacc (by rw [h1]; exact hnew)
  refine ⟨?_, ?_, ?_, ?_⟩
  · rw [h3 hacc, hstep]
    exact FileTracker.set_same _ _ _
  · intro x hx
    rw [h4, hstep] at hx
    rcases List.mem_append.mp hx with hx | hx
    · exact h2 x hx
    · exact h5 x hx
  · rw [hstep]; rfl
  · rw [hstep]; rfl

/-- C9, witness: with a debounce window of 0 the new arrival `pbem1_turn1_B` is
recorded (first-seen 7, not processed, size 10) and nothing is sent. -/
theorem processDirectory_new_arrival_witness :
    (processDirectory (worldOk 7) 7 (some ([] ++ fileOf "pbem1_turn1_B" 10 :: []))
      emptyTracker playersABC 0 [] (configFor "pbem1") 1 none).fileTracker
      (stringsToLower (fileOf "pbem1_turn1_B" 10).Name) =
      some (FileTrackingInfo.mk 7 false 10) ∧
    (processDirectory (worldOk 7) 7 (some ([] ++ fileOf "pbem1_turn1_B" 10 :: []))
      emptyTracker playersABC 0 [] (configFor "pbem1") 1 none).sent = [] :=
  have h := processDirectory_new_arrival (worldOk 7) 7 playersABC 0 [] (configFor "pbem1")
    emptyTracker 1 none [] [] (fileOf "pbem1_turn1_B" 10)
    (by decide) (by decide) (by decide) (by decide)
  ⟨h.1.trans (by decide), by decide⟩

/-- C10, as amended. For every scan and every tracked file whose record is
marked processed and which is still present in the listing as a non-directory
entry with an allowed extension: the scan leaves that record unchanged, makes
no webhook call on its behalf, and the loop body run on the entry leaves the
log of calls and the active-turn record as they were. Every non-directory file
present at process start is seeded with a record marked processed, and the
decision sequence always leaves the record of the file it evaluated marked
processed: a file is evaluated at most once while it stays in the directory. -/
theorem processDirectory_processed_untouched [CaseTable] (world : World) (now : Int)
    (ums : List UserMapping) (deb : Int) (ign : List GoString) (cfg : Config)
    (fileTracker : FileTracker) (currentTurn : Int) (currentTurnInfo : Option TurnInfo)
    (pre post : List DirEntry) (file : DirEntry) (info : FileTrackingInfo)
    (hdir : file.IsDir = false)
    (hext : hasAllowedExtension file.Name cfg.AllowedExtensions = true)
    (hrec : fileTracker (stringsToLower file.Name) = some info)
    (hp : info.Processed = true) :
    (processDirectory world now (some (pre ++ file :: post)) fileTracker ums deb ign cfg
      currentTurn currentTurnInfo).fileTracker (stringsToLower file.Name) = some info ∧
    (∀ x ∈ (processDirectory world now (some (pre ++ file :: post)) fileTracker ums deb ign
      cfg currentTurn currentTurnInfo).sent, x.1 ≠ stringsToLower file.Name) ∧
    (processFile world now ums deb ign cfg
      (stateAfter world now ums deb ign cfg fileTracker currentTurn currentTurnInfo pre)
      file).sent =
      (stateAfter world now ums deb ign cfg fileTracker currentTurn currentTurnInfo pre).sent ∧
    (processFile world now ums deb ign cfg
      (stateAfter world now ums deb ign cfg fileTracker currentTurn currentTurnInfo pre)
      file).currentTurnInfo =
      (stateAfter world now ums deb ign cfg fileTracker currentTurn currentTurnInfo
        pre).currentTurnInfo ∧
    (∀ (clock : Nat → Int) (start : List DirEntry), ∀ f ∈ start, f.IsDir = false →
      ∃ r, seedTracker clock 0 start emptyTracker (stringsToLower f.Name) = some r ∧
        r.Processed = true) ∧
    (∀ (record : FileTrackingInfo) (st : ScanState),
      (evaluateFile world ums ign (stringsToLower cfg.GameName) (stringsToLower file.Name)
        record st).fileTracker (stringsToLower file.Name) =
        some (FileTrackingInfo.mk record.FirstSeen true record.LastSize)) := by
  have hacc : accepted cfg file = true := by
    unfold accepted
    rw [hasAllowedExtension_lower]
    simp [hdir, hext]
  have hbefore : (stateAfter world now ums deb ign cfg fileTracker currentTurn currentTurnInfo
      pre).fileTracker (stringsToLower file.Name) = some info :=
    scanLoop_processed_keep world now ums deb ign cfg _ info hp pre _ hrec
  have hquiet := processFile_processed_quiet world now ums deb ign cfg _ file info hbefore hp
  refine ⟨?_, ?_, hquiet.1, hquiet.2, ?_, ?_⟩
  · show (cleanUp _ _) _ = _
    unfold cleanUp
    have hin : stringsToLower file.Name ∈ (scanLoop world now ums deb ign cfg
        (ScanState.mk fileTracker [] currentTurn currentTurnInfo [])
        (pre ++ file :: post)).currentFiles := by
      rw [scanLoop_currentFiles]
      exact Or.inr ⟨file, by simp, hacc, rfl⟩
    rw [if_pos hin]
    exact scanLoop_processed_keep world now ums deb ign cfg _ info hp _ _ hrec
  · intro x hx
    have := scanLoop_sent_processed world now ums deb ign cfg (stringsToLower file.Name) info
      hp (pre ++ file :: post) (ScanState.mk fileTracker [] currentTurn currentTurnInfo [])
      hrec x hx
    rcases this with h | h
    · exact absurd h (List.not_mem_nil _)
    · exact h
  · intro clock start f hf hfd
    exact seedTracker_processed clock (stringsToLower f.Name) start 0 emptyTracker
      (Or.inl ⟨f, hf, hfd, rfl⟩)
  · intro record st
    rw [evaluateFile_fileTracker]
    exact FileTracker.set_same _ _ _

/-- C10, witness: the processed record of `pbem1_turn1_b.se1` is the same after
a scan that still lists the file, and nothing is sent. -/
theorem processDirectory_processed_untouched_witness :
    (processDirectory (worldOk 9) 40000 (some ([] ++ fileOf "pbem1_turn1_B.se1" 10 :: []))
      (emptyTracker.set "pbem1_turn1_b.se1".toList (FileTrackingInfo.mk 0 true 0))
      playersABC 30000 [] defaultConfig 1 none).fileTracker
      (stringsToLower (fileOf "pbem1_turn1_B.se1" 10).Name) =
      some (FileTrackingInfo.mk 0 true 0) :=
  (processDirectory_processed_untouched (worldOk 9) 40000 playersABC 30000 [] defaultConfig
    (emptyTracker.set "pbem1_turn1_b.se1".toList (FileTrackingInfo.mk 0 true 0)) 1 none
    [] [] (fileOf "pbem1_turn1_B.se1" 10) (FileTrackingInfo.mk 0 true 0)
    (by decide) (by decide) (by decide) (by decide)).1

/-- C10, counterexample: a monitor started on a directory holding `notes.txt`
seeds a processed record for it; with the default allowed extension `se1` the
first scan, in which the file is still listed, deletes that record. -/
theorem processDirectory_seeded_record_removed :
    seededNotes "notes.txt".toList = some (FileTrackingInfo.mk 0 true 0) ∧
    fileOf "notes.txt" 5 ∈ [fileOf "notes.txt" 5] ∧
    (processDirectory (worldOk 5000) 5000 (some [fileOf "notes.txt" 5]) seededNotes
      playersABC 30000 [] defaultConfig 1 none).fileTracker "notes.txt".toList = none := by
  decide


/-! ## Debounce (C5, C6) -/

theorem debounceOver_iff (now deb : Int) (info : FileTrackingInfo) :
    debounceOver now deb info = true ↔
      info.Processed = false ∧ deb ≤ wrapInt64 (now - info.FirstSeen) := by
  unfold debounceOver
  simp

theorem sizeChanged_iff (size : Int) (info : FileTrackingInfo) :
    sizeChanged size info = true ↔ size ≠ 0 ∧ info.LastSize ≠ 0 ∧ size ≠ info.LastSize := by
  unfold sizeChanged
  simp [and_assoc]

theorem sizeChanged_false_iff (size : Int) (info : FileTrackingInfo) :
    sizeChanged size info = false ↔ size = info.LastSize ∨ size = 0 ∨ info.LastSize = 0 := by
  rw [← Bool.not_eq_true, sizeChanged_iff]
  constructor
  · intro h
    by_cases h1 : size = 0
    · exact Or.inr (Or.inl h1)
    · by_cases h2 : info.LastSize = 0
      · exact Or.inr (Or.inr h2)
      · by_cases h3 : size = info.LastSize
        · exact Or.inl h3
        · exact absurd ⟨h1, h2, h3⟩ h
  · rintro (h | h | h) ⟨h1, h2, h3⟩
    · exact h3 h
    · exact h1 h
    · exact h2 h

/-- The loop body makes a webhook call, or turns an unprocessed (or missing)
record into a processed one, only on the path of the decision sequence. -/
theorem processFile_evaluated_only_if [CaseTable] (world : World) (now : Int) (ums : List UserMapping)
    (deb : Int) (ign : List GoString) (cfg : Config) (st : ScanState) (file : DirEntry)
    (hev : (processFile world now ums deb ign cfg st file).sent ≠ st.sent ∨
      ((∃ r, (processFile world now ums deb ign cfg st file).fileTracker
          (stringsToLower file.Name) = some r ∧ r.Processed = true) ∧
        ¬ ∃ r, st.fileTracker (stringsToLower file.Name) = some r ∧ r.Processed = true)) :
    accepted cfg file = true ∧
    ∃ info, st.fileTracker (stringsToLower file.Name) = some info ∧
      debounceOver now deb info = true ∧ sizeChanged (entrySize file) info = false := by
  revert hev
  apply processFile_cases world now ums deb ign cfg st file
    (fun s => (s.sent ≠ st.sent ∨
      ((∃ r, s.fileTracker (stringsToLower file.Name) = some r ∧ r.Processed = true) ∧
        ¬ ∃ r, st.fileTracker (stringsToLower file.Name) = some r ∧ r.Processed = true)) →
      accepted cfg file = true ∧
      ∃ info, st.fileTracker (stringsToLower file.Name) = some info ∧
        debounceOver now deb info = true ∧ sizeChanged (entrySize file) info = false)
  · intro _ hev
    rcases hev with h | ⟨h1, h2⟩
    · exact absurd rfl h
    · exact absurd h1 h2
  · intro _ _ _ hev
    rcases hev with h | ⟨⟨r, h1, h2⟩, _⟩
    · exact absurd rfl h
    · have h1' : some (FileTrackingInfo.mk now false (entrySize file)) = some r :=
        (FileTracker.set_same st.fileTracker (stringsToLower file.Name) _).symm.trans h1
      cases h1'
      exact absurd h2 (by simp)
  · intro info _ _ _ _ hev
    rcases hev with h | ⟨h1, h2⟩
    · exact absurd rfl h
    · exact absurd h1 h2
  · intro info _ _ _ hdeb _ hev
    rcases hev with h | ⟨⟨r, h1, h2⟩, _⟩
    · exact absurd rfl h
    · have h1' : some (FileTrackingInfo.mk now info.Processed (entrySize file)) = some r :=
        (FileTracker.set_same st.fileTracker (stringsToLower file.Name) _).symm.trans h1
      cases h1'
      have := ((debounceOver_iff now deb info).mp hdeb).1
      rw [this] at h2
      exact absurd h2 (by simp)
  · intro info hd ha hrec hdeb hsize _
    exact ⟨by simp [accepted, hd, ha], info, hrec, hdeb, hsize⟩

theorem isProcessed_iff (record : Option FileTrackingInfo) :
    isProcessed record = true ↔ ∃ r, record = some r ∧ r.Processed = true := by
  cases record with
  | none => simp [isProcessed]
  | some info => simp [isProcessed]

/-- C5, as amended. In every scan over a listing whose names are distinct
after lower-casing, a listed file is evaluated by the turn-inference decision
sequence (its record ends the scan processed without having been so before, or
a webhook call is made on its behalf) only if its record already existed before
that scan with processed = false, `now - first_seen`, computed in 64-bit
arithmetic, is at least the debounce window, and the file's current size equals
the last-size stored in its record or one of the two sizes is 0. -/
theorem processDirectory_evaluated_only_if [CaseTable] (world : World) (now : Int)
    (ums : List UserMapping) (deb : Int) (ign : List GoString) (cfg : Config)
    (fileTracker : FileTracker) (currentTurn : Int) (currentTurnInfo : Option TurnInfo)
    (files : List DirEntry) (file : DirEntry)
    (hnodup : distinctNames files) (hmem : file ∈ files)
    (hev : evaluatedBy fileTracker
      (processDirectory world now (some files) fileTracker ums deb ign cfg currentTurn
        currentTurnInfo) (stringsToLower file.Name)) :
    ∃ info, fileTracker (stringsToLower file.Name) = some info ∧
      info.Processed = false ∧
      deb ≤ wrapInt64 (now - info.FirstSeen) ∧
      (minInt64 ≤ now - info.FirstSeen → now - info.FirstSeen ≤ maxInt64 →
        deb ≤ now - info.FirstSeen) ∧
      (entrySize file = info.LastSize ∨ entrySize file = 0 ∨ info.LastSize = 0) := by
  obtain ⟨pre, post, rfl⟩ := List.append_of_mem hmem
  obtain ⟨h1, h2, h3, extra, h4, h5⟩ := scan_locate world now ums deb ign cfg fileTracker
    currentTurn currentTurnInfo pre post file hnodup
  have hstep : (processFile world now ums deb ign cfg
      (stateAfter world now ums deb ign cfg fileTracker currentTurn currentTurnInfo pre)
      file).sent ≠
      (stateAfter world now ums deb ign cfg fileTracker currentTurn currentTurnInfo pre).sent ∨
      ((∃ r, (processFile world now ums deb ign cfg
          (stateAfter world now ums deb ign cfg fileTracker currentTurn currentTurnInfo pre)
          file).fileTracker (stringsToLower file.Name) = some r ∧ r.Processed = true) ∧
        ¬ ∃ r, (stateAfter world now ums deb ign cfg fileTracker currentTurn currentTurnInfo
          pre).fileTracker (stringsToLower file.Name) = some r ∧ r.Processed = true) := by
    rcases hev with ⟨hafter, hnot'⟩ | ⟨x, hx, hxk⟩
    · obtain ⟨r, hr, hrp⟩ := (isProcessed_iff _).mp hafter
      have hnot : ¬ ∃ r, fileTracker (stringsToLower file.Name) = some r ∧
          r.Processed = true := by
        intro h
        rw [(isProcessed_iff _).mpr h] at hnot'
        exact absurd hnot' (by simp)
      by_cases hacc : accepted cfg file = true
      · right
        refine ⟨⟨r, ?_, hrp⟩, ?_⟩
        · rw [← h3 hacc]; exact hr
        · rw [h1]; exact hnot
      · have hacc' : accepted cfg file = false := by simpa using hacc
        exfalso
        have hsome : ((processDirectory world now (some (pre ++ file :: post)) fileTracker ums
            deb ign cfg currentTurn currentTurnInfo).fileTracker
            (stringsToLower file.Name)).isSome = true := by rw [hr]; rfl
        obtain ⟨g, hg, hgacc, hgk⟩ := (processDirectory_tracked_iff world now
          (pre ++ file :: post) fileTracker ums deb ign cfg currentTurn currentTurnInfo
          (stringsToLower file.Name)).mp hsome
        obtain ⟨hpre, hpost⟩ := distinctNames_split pre post file hnodup
        rcases List.mem_append.mp hg with hg | hg
        · exact hpre g hg hgk
        · rcases List.mem_cons.mp hg with rfl | hg
          · rw [hacc'] at hgacc; exact absurd hgacc (by simp)
          · exact hpost g hg hgk
    · left
      intro heq
      rw [h4, heq] at hx
      rcases List.mem_append.mp hx with hx | hx
      · exact h2 x hx hxk
      · exact h5 x hx hxk
  obtain ⟨_, info, hrec, hdeb, hsize⟩ := processFile_evaluated_only_if world now ums deb ign
    cfg _ file hstep
  rw [h1] at hrec
  obtain ⟨hproc, hwin⟩ := (debounceOver_iff now deb info).mp hdeb
  refine ⟨info, hrec, hproc, hwin, ?_, (sizeChanged_false_iff _ _).mp hsize⟩
  intro hlo hhi
  rw [wrapInt64_of_fits _ hlo hhi] at hwin
  exact hwin

/-- C5, counterexample: the file is first seen empty (record: first-seen 0, not
processed, last-size 0) and holds 500 bytes at the next scan, 40 seconds later;
that scan evaluates it (turn-advance notification to `B`, record marked
processed) although its current size, 500, is not the last-size of its record, 0.
And with a debounce window of 0, two files whose names differ only in letter
case are evaluated, under their common key, in the very scan that first sees
them, no record having existed before that scan. -/
theorem processDirectory_evaluated_size_differs :
    emptyFirstScan.fileTracker "pbem1_turn1_b".toList =
      some (FileTrackingInfo.mk 0 false 0) ∧
    entrySize (fileOf "pbem1_turn1_B" 500) = 500 ∧
    evaluatedBy emptyFirstScan.fileTracker emptySecondScan "pbem1_turn1_b".toList ∧
    emptySecondScan.sent = [("pbem1_turn1_b".toList,
      Notification.turnAdvance "B".toList "id_b".toList "C".toList 1)] ∧
    emptySecondScan.fileTracker "pbem1_turn1_b".toList =
      some (FileTrackingInfo.mk 0 true 0) ∧
    emptyTracker "m1_turn1_c".toList = none ∧
    evaluatedBy emptyTracker twinScan "m1_turn1_c".toList ∧
    twinScan.sent = [("m1_turn1_c".toList,
      Notification.turnAdvance "C".toList "id_c".toList "A".toList 2)] ∧
    twinScan.fileTracker "m1_turn1_c".toList = some (FileTrackingInfo.mk 0 true 10) := by
  decide

/-- C5, witness: players `A`, `B`, `C`, game `pbem1`; the file `pbem1_turn1_B`,
tracked since time 0 at 10 bytes and still 10 bytes at time 40000, is evaluated
(a notification is sent), and its record does meet the three conditions. -/
theorem processDirectory_evaluated_only_if_witness :
    ∃ info, (emptyTracker.set "pbem1_turn1_b".toList (FileTrackingInfo.mk 0 false 10))
        (stringsToLower (fileOf "pbem1_turn1_B" 10).Name) = some info ∧
      info.Processed = false ∧
      (30000 : Int) ≤ wrapInt64 (40000 - info.FirstSeen) ∧
      (minInt64 ≤ 40000 - info.FirstSeen → 40000 - info.FirstSeen ≤ maxInt64 →
        (30000 : Int) ≤ 40000 - info.FirstSeen) ∧
      (entrySize (fileOf "pbem1_turn1_B" 10) = info.LastSize ∨
        entrySize (fileOf "pbem1_turn1_B" 10) = 0 ∨ info.LastSize = 0) :=
  processDirectory_evaluated_only_if (worldOk 50000) 40000 playersABC 30000 []
    (configFor "pbem1")
    (emptyTracker.set "pbem1_turn1_b".toList (FileTrackingInfo.mk 0 false 10)) 1 none
    [fileOf "pbem1_turn1_B" 10] (fileOf "pbem1_turn1_B" 10)
    (by decide) (by decide) (by decide)

/-- C6, as amended. In every scan over a listing whose names are distinct after
lower-casing, for every tracked, unprocessed file listed as a non-directory
entry with an allowed extension: when the debounce window has elapsed (`now -
first_seen`, in 64-bit arithmetic, is at least the window) and the current size
and the recorded last-size are both non-zero and differ, the scan sets the
record's first-seen to now and its last-size to the current size, leaves it
unprocessed and makes no webhook call for it; when the window has not elapsed,
the scan leaves the record as it is, whatever the current size, and makes no
webhook call for it. -/
theorem processDirectory_size_change [CaseTable] (world : World) (now : Int)
    (ums : List UserMapping) (deb : Int) (ign : List GoString) (cfg : Config)
    (fileTracker : FileTracker) (currentTurn : Int) (currentTurnInfo : Option TurnInfo)
    (pre post : List DirEntry) (file : DirEntry) (info : FileTrackingInfo)
    (hnodup : distinctNames (pre ++ file :: post))
    (hdir : file.IsDir = false)
    (hext : hasAllowedExtension file.Name cfg.AllowedExtensions = true)
    (hrec : fileTracker (stringsToLower file.Name) = some info)
    (hproc : info.Processed = false) :
    (deb ≤ wrapInt64 (now - info.FirstSeen) → entrySize file ≠ 0 → info.LastSize ≠ 0 →
      entrySize file ≠ info.LastSize →
      (processDirectory world now (some (pre ++ file :: post)) fileTracker ums deb ign cfg
        currentTurn currentTurnInfo).fileTracker (stringsToLower file.Name) =
        some (FileTrackingInfo.mk now false (entrySize file)) ∧
      ∀ x ∈ (processDirectory world now (some (pre ++ file :: post)) fileTracker ums deb ign
        cfg currentTurn currentTurnInfo).sent, x.1 ≠ stringsToLower file.Name) ∧
    (wrapInt64 (now - info.FirstSeen) < deb →
      (processDirectory world now (some (pre ++ file :: post)) fileTracker ums deb ign cfg
        currentTurn currentTurnInfo).fileTracker (stringsToLower file.Name) = some info ∧
      ∀ x ∈ (processDirectory world now (some (pre ++ file :: post)) fileTracker ums deb ign
        cfg currentTurn currentTurnInfo).sent, x.1 ≠ stringsToLower file.Name) := by
  have hacc : accepted cfg file = true := by
    unfold accepted
    rw [hasAllowedExtension_lower]
    simp [hdir, hext]
  obtain ⟨h1, h2, h3, extra, h4, h5⟩ := scan_locate world now ums deb ign cfg fileTracker
    currentTurn currentTurnInfo pre post file hnodup
  have hbefore : (stateAfter world now ums deb ign cfg fileTracker currentTurn currentTurnInfo
      pre).fileTracker (stringsToLower file.Name) = some info := by rw [h1]; exact hrec
  have hquiet : ∀ s : ScanState,
      processFile world now ums deb ign cfg
        (stateAfter world now ums deb ign cfg fileTracker currentTurn currentTurnInfo pre)
        file = s →
      s.sent = (stateAfter world now ums deb ign cfg fileTracker currentTurn currentTurnInfo
        pre).sent →
      ∀ x ∈ (processDirectory world now (some (pre ++ file :: post)) fileTracker ums deb ign
        cfg currentTurn currentTurnInfo).sent, x.1 ≠ stringsToLower file.Name := by
    intro s hs hsent x hx
    rw [h4, hs, hsent] at hx
    rcases List.mem_append.mp hx with hx | hx
    · exact h2 x hx
    · exact h5 x hx
  constructor
  · intro hwin hs1 hs2 hs3
    have hdeb : debounceOver now deb info = true :=
      (debounceOver_iff now deb info).mpr ⟨hproc, hwin⟩
    have hsize : sizeChanged (entrySize file) info = true :=
      (sizeChanged_iff _ info).mpr ⟨hs1, hs2, hs3⟩
    have hstep := processFile_extend world now ums deb ign cfg _ file info hacc hbefore
      hdeb hsize
    refine ⟨?_, hquiet _ hstep rfl⟩
    rw [h3 hacc, hstep]
    show (FileTracker.set _ _ _) _ = _
    rw [FileTracker.set_same, hproc]
  · intro hwin
    have hdeb : debounceOver now deb info = false := by
      rw [← Bool.not_eq_true, debounceOver_iff]
      intro h
      omega
    have hstep := processFile_waiting world now ums deb ign cfg _ file info hacc hbefore hdeb
    refine ⟨?_, hquiet _ hstep rfl⟩
    rw [h3 hacc, hstep]
    exact hbefore

/-- C6, witness: tracked since time 0 at 100 bytes, the file holds 200 bytes at
time 40000, past the 30 second window: its record becomes (first-seen 40000,
not processed, last-size 200). -/
theorem processDirectory_size_change_witness :
    (processDirectory (worldOk 50000) 40000 (some ([] ++ fileOf "pbem1_turn1_B" 200 :: []))
      (emptyTracker.set "pbem1_turn1_b".toList (FileTrackingInfo.mk 0 false 100))
      playersABC 30000 [] (configFor "pbem1") 1 none).fileTracker
      (stringsToLower (fileOf "pbem1_turn1_B" 200).Name) =
      some (FileTrackingInfo.mk 40000 false 200) :=
  have h := (processDirectory_size_change (worldOk 50000) 40000 playersABC 30000 []
    (configFor "pbem1")
    (emptyTracker.set "pbem1_turn1_b".toList (FileTrackingInfo.mk 0 false 100)) 1 none
    [] [] (fileOf "pbem1_turn1_B" 200) (FileTrackingInfo.mk 0 false 100)
    (by decide) (by decide) (by decide) (by decide) (by decide)).1
    (by decide) (by decide) (by decide) (by decide)
  h.1.trans (by decide)

/-- C6, counterexample: the file is seen with 100 bytes at time 0, 200 bytes at
time 5000 and 100 bytes at time 31000, the window being 30000. At the second
scan the file is tracked, unprocessed, and its size differs from the recorded
last-size, yet the record keeps first-seen 0 and last-size 100. At the third
scan, 26000 after the second, the file is processed: the notification is sent.
And of two listed files whose names differ only in letter case, the second in
the listing (`m1_turn1_C`, 200 bytes, against a recorded last-size of 100, the
window being over) ends the scan with the last-size of the first, 300, in the
record they share. -/
theorem processDirectory_size_change_ignored_in_window :
    flickerFirstScan.fileTracker "pbem1_turn1_b".toList =
      some (FileTrackingInfo.mk 0 false 100) ∧
    flickerSecondScan.fileTracker "pbem1_turn1_b".toList =
      some (FileTrackingInfo.mk 0 false 100) ∧
    flickerSecondScan.fileTracker "pbem1_turn1_b".toList ≠
      some (FileTrackingInfo.mk 5000 false 200) ∧
    flickerThirdScan.sent = [("pbem1_turn1_b".toList,
      Notification.turnAdvance "B".toList "id_b".toList "C".toList 1)] ∧
    flickerThirdScan.fileTracker "pbem1_turn1_b".toList =
      some (FileTrackingInfo.mk 0 true 100) ∧
    entrySize (fileOf "m1_turn1_C" 200) = 200 ∧
    twinSizesScan.fileTracker (stringsToLower (fileOf "m1_turn1_C" 200).Name) =
      some (FileTrackingInfo.mk 40000 false 300) := by
  decide

/-! ## The reminder check (C11) -/

theorem timeSub_mono_left (t t' u : Int) (h : t ≤ t') : timeSub t u ≤ timeSub t' u := by
  unfold timeSub maxInt64 minInt64
  split_ifs <;> omega

theorem timeSub_anti_right (t u u' : Int) (h : u ≤ u') : timeSub t u' ≤ timeSub t u := by
  unfold timeSub maxInt64 minInt64
  split_ifs <;> omega

/-- A difference that fits 64 bits is the duration `Time.Sub` returns. -/
theorem timeSub_of_fits (t u : Int) (hlo : minInt64 ≤ t - u) (hhi : t - u ≤ maxInt64) :
    timeSub t u = t - u := by
  unfold timeSub
  unfold maxInt64 at *
  unfold minInt64 at *
  split_ifs <;> omega

theorem reminderDue_iff (rw : ReminderWorld) (interval : Int) (info : TurnInfo) :
    reminderDue rw interval info = true ↔
      (info.LastRemindedAt = 0 ∧ interval ≤ timeSub rw.sinceStartAt info.StartedAt) ∨
      (info.LastRemindedAt ≠ 0 ∧ interval ≤ timeSub rw.sinceReminderAt info.LastRemindedAt) := by
  unfold reminderDue
  simp

theorem reminderStep_sent_iff (rw : ReminderWorld) (interval : Int) (info : TurnInfo) :
    (reminderStep rw interval (some info)).2.isSome = true ↔
      reminderDue rw interval info = true := by
  unfold reminderStep
  by_cases hd : reminderDue rw interval info = true
  · by_cases hs : rw.sendOk = true <;> simp [hd, hs]
  · simp [hd]

/-- A reminder is never older than its turn: the check keeps it so, the clock
not running backwards. -/
theorem reminderStep_keeps_order (rw : ReminderWorld) (interval : Int) (info info' : TurnInfo)
    (hinv : info.LastRemindedAt ≠ 0 → info.StartedAt ≤ info.LastRemindedAt)
    (hclock : info.StartedAt ≤ rw.afterSend)
    (hres : (reminderStep rw interval (some info)).1 = some info') :
    info'.LastRemindedAt ≠ 0 → info'.StartedAt ≤ info'.LastRemindedAt := by
  unfold reminderStep at hres
  by_cases hd : reminderDue rw interval info = true
  · by_cases hs : rw.sendOk = true
    · simp only [hd, hs, if_true, Option.some.injEq] at hres
      subst hres
      intro _
      exact hclock
    · simp only [hd, hs, if_true, Bool.false_eq_true, if_false, Option.some.injEq] at hres
      subst hres
      exact hinv
  · simp only [hd, Bool.false_eq_true, if_false, Option.some.injEq] at hres
    subst hres
    exact hinv

/-- C11. The reminder check of one tick, for every state, every reminder
interval and every clock reading: with no active turn nothing is sent and
nothing changes; with an active turn whose last-reminder is none a reminder is
sent iff the time since the turn start is at least the interval; with an active
turn whose last-reminder is `t` a reminder is sent iff the time since `t` is at
least the interval; when the call succeeds last-reminder becomes the time then
read and nothing else changes; when it fails, or when nothing is sent, the
active-turn record is unchanged. Hence a reminder is sent only when the
interval has elapsed since the later of turn start and last successful
reminder (a reminder never being older than the turn it belongs to, and the
clock not running backwards). Elapsed times are the durations `time.Since`
returns; they are the plain differences whenever those fit 64 bits. -/
theorem reminderStep_spec (rw : ReminderWorld) (interval : Int) :
    reminderStep rw interval none = (none, none) ∧
    (∀ info : TurnInfo, info.LastRemindedAt = 0 →
      ((reminderStep rw interval (some info)).2.isSome = true ↔
        interval ≤ timeSub rw.sinceStartAt info.StartedAt)) ∧
    (∀ info : TurnInfo, info.LastRemindedAt ≠ 0 →
      ((reminderStep rw interval (some info)).2.isSome = true ↔
        interval ≤ timeSub rw.sinceReminderAt info.LastRemindedAt)) ∧
    (∀ info : TurnInfo, (reminderStep rw interval (some info)).2.isSome = true →
      rw.sendOk = true →
      (reminderStep rw interval (some info)).1 =
        some (TurnInfo.mk info.StartedAt info.Username info.DiscordID info.NextUsername
          info.TurnNumber rw.afterSend)) ∧
    (∀ info : TurnInfo, (reminderStep rw interval (some info)).2.isSome = true →
      rw.sendOk = false → (reminderStep rw interval (some info)).1 = some info) ∧
    (∀ info : TurnInfo, (reminderStep rw interval (some info)).2.isSome = false →
      (reminderStep rw interval (some info)).1 = some info) ∧
    (∀ info : TurnInfo, (reminderStep rw interval (some info)).2.isSome = true →
      (info.LastRemindedAt ≠ 0 → info.StartedAt ≤ info.LastRemindedAt) →
      rw.sinceStartAt ≤ rw.sinceReminderAt →
      interval ≤ timeSub rw.sinceReminderAt (reminderReference info)) ∧
    (∀ info : TurnInfo,
      (minInt64 ≤ rw.sinceStartAt - info.StartedAt →
        rw.sinceStartAt - info.StartedAt ≤ maxInt64 →
        timeSub rw.sinceStartAt info.StartedAt = rw.sinceStartAt - info.StartedAt) ∧
      (minInt64 ≤ rw.sinceReminderAt - info.LastRemindedAt →
        rw.sinceReminderAt - info.LastRemindedAt ≤ maxInt64 →
        timeSub rw.sinceReminderAt info.LastRemindedAt =
          rw.sinceReminderAt - info.LastRemindedAt)) := by
  refine ⟨rfl, ?_, ?_, ?_, ?_, ?_, ?_, ?_⟩
  · intro info hz
    rw [reminderStep_sent_iff, reminderDue_iff]
    constructor
    · rintro (⟨_, h⟩ | ⟨hne, _⟩)
      · exact h
      · exact absurd hz hne
    · intro h
      exact Or.inl ⟨hz, h⟩
  · intro info hnz
    rw [reminderStep_sent_iff, reminderDue_iff]
    constructor
    · rintro (⟨hz, _⟩ | ⟨_, h⟩)
      · exact absurd hz hnz
      · exact h
    · intro h
      exact Or.inr ⟨hnz, h⟩
  · intro info hsent hok
    have hd := (reminderStep_sent_iff rw interval info).mp hsent
    unfold reminderStep
    simp [hd, hok]
  · intro info hsent hfail
    have hd := (reminderStep_sent_iff rw interval info).mp hsent
    unfold reminderStep
    simp [hd, hfail]
  · intro info hnot
    have hd : reminderDue rw interval info = false := by
      cases h : reminderDue rw interval info with
      | false => rfl
      | true =>
        rw [(reminderStep_sent_iff rw interval info).mpr h] at hnot
        exact absurd hnot (by simp)
    unfold reminderStep
    simp [hd]
  · intro info hsent hinv hclock
    have hd := (reminderDue_iff rw interval info).mp
      ((reminderStep_sent_iff rw interval info).mp hsent)
    unfold reminderReference
    rcases hd with ⟨hz, h⟩ | ⟨hnz, h⟩
    · rw [if_pos hz]
      exact le_trans h (timeSub_mono_left _ _ _ hclock)
    · rw [if_neg hnz, max_eq_right (hinv hnz)]
      exact h
  · intro info
    exact ⟨timeSub_of_fits _ _, timeSub_of_fits _ _⟩

/-- C11, illustration: the turn of `B` started at instant 1000, the interval is
the default 720 minutes. A check made exactly 720 minutes after the start sends
the reminder and, the call succeeding, records the time; a check made one
nanosecond earlier sends nothing. -/
theorem reminderStep_spec_witness :
    reminderIntervalDuration 720 = 43200000000000 ∧
    (reminderStep (reminderWorldAt 43200000001000 true) (reminderIntervalDuration 720)
      (some turnOfB)).2.isSome = true ∧
    (reminderStep (reminderWorldAt 43200000001000 true) (reminderIntervalDuration 720)
      (some turnOfB)).1 =
      some (TurnInfo.mk 1000 "B".toList "id_b".toList "C".toList 1 43200000001000) ∧
    (reminderStep (reminderWorldAt 43200000000999 true) (reminderIntervalDuration 720)
      (some turnOfB)).2.isSome = false :=
  have h := reminderStep_spec (reminderWorldAt 43200000001000 true)
    (reminderIntervalDuration 720)
  have hsent := (h.2.1 turnOfB rfl).mpr (by decide)
  ⟨by decide, hsent, h.2.2.2.1 turnOfB hsent rfl, by decide⟩

/-! ## Dispatch failure and success (C12) -/

/-- When the webhook call the decision sequence would make fails, the
active-turn record is left as it was. -/
theorem evaluateFile_turnInfo_of_fail [CaseTable] (world : World) (ums : List UserMapping)
    (ign : List GoString) (g fn : GoString) (info : FileTrackingInfo) (st : ScanState)
    (hfail : world.webhookOk st.sent.length = false) :
    (evaluateFile world ums ign g fn info st).currentTurnInfo = st.currentTurnInfo := by
  cases hi : shouldIgnoreFile fn ign with
  | true => rw [evaluateFile_ignored world ums ign g fn info st hi]; rfl
  | false =>
    cases hp : stringsStartsWith fn g with
    | false =>
      cases hu : findUserIndex fn ums with
      | none => rw [evaluateFile_rename_none world ums ign g fn info st hi hp hu]; rfl
      | some i => rw [evaluateFile_rename_some world ums ign g fn info st i hi hp hu]; rfl
    | true =>
      cases hu : findUserIndex fn ums with
      | none => rw [evaluateFile_turn_none world ums ign g fn info st hi hp hu]; rfl
      | some i =>
        rw [evaluateFile_turn_some world ums ign g fn info st i hi hp hu]
        simp [markProcessed, hfail]

/-- In a world where every webhook call fails, the loop body leaves the
active-turn record as it was. -/
theorem processFile_turnInfo_of_fail [CaseTable] (world : World) (now : Int) (ums : List UserMapping)
    (deb : Int) (ign : List GoString) (cfg : Config) (st : ScanState) (file : DirEntry)
    (hfail : ∀ k, world.webhookOk k = false) :
    (processFile world now ums deb ign cfg st file).currentTurnInfo = st.currentTurnInfo := by
  apply processFile_cases world now ums deb ign cfg st file
    (fun s => s.currentTurnInfo = st.currentTurnInfo)
  · intro _; rfl
  · intro _ _ _; rfl
  · intro _ _ _ _ _; rfl
  · intro _ _ _ _ _ _; rfl
  · intro info _ _ _ _ _
    exact evaluateFile_turnInfo_of_fail world ums ign _ _ info _ (hfail _)

theorem scanLoop_turnInfo_of_fail [CaseTable] (world : World) (now : Int) (ums : List UserMapping)
    (deb : Int) (ign : List GoString) (cfg : Config)
    (hfail : ∀ k, world.webhookOk k = false) (files : List DirEntry) :
    ∀ st : ScanState,
      (scanLoop world now ums deb ign cfg st files).currentTurnInfo = st.currentTurnInfo := by
  induction files with
  | nil => intro st; rfl
  | cons file rest ih =>
    intro st
    rw [scanLoop_cons, ih]
    exact processFile_turnInfo_of_fail world now ums deb ign cfg st file hfail

/-- C12, as amended. For every eligible, non-ignored, correctly prefixed file
attributed to the player at index `i`: if the dispatch of its turn-advance
notification fails, the loop body leaves the active-turn record as it was,
reminder timestamps included; if the dispatch succeeds, the active-turn record
is replaced by a fresh one holding the acting player, the next player, the
save-instruction turn number, as start time the time read right after the
dispatch, and last-reminder = none; in both cases the file's record is marked
processed and the turn counter is the save-instruction turn number (advanced,
for the last player, before the dispatch). A scan all of whose dispatches fail
returns the active-turn record it was passed. -/
theorem processFile_dispatch_outcome [CaseTable] (world : World) (now : Int) (ums : List UserMapping)
    (deb : Int) (ign : List GoString) (cfg : Config) (st : ScanState) (file : DirEntry)
    (info : FileTrackingInfo) (i : Fin ums.length)
    (hacc : accepted cfg file = true)
    (hrec : st.fileTracker (stringsToLower file.Name) = some info)
    (hdeb : debounceOver now deb info = true)
    (hsize : sizeChanged (entrySize file) info = false)
    (hign : shouldIgnoreFile (stringsToLower file.Name) ign = false)
    (hpre : stringsStartsWith (stringsToLower file.Name) (stringsToLower cfg.GameName) = true)
    (hattr : attributedTo (stringsToLower file.Name) ums i) :
    (world.webhookOk st.sent.length = false →
      (processFile world now ums deb ign cfg st file).currentTurnInfo = st.currentTurnInfo) ∧
    (world.webhookOk st.sent.length = true →
      (processFile world now ums deb ign cfg st file).currentTurnInfo =
        some (TurnInfo.mk (world.timeNow st.sent.length) (ums.get i).Username
          (ums.get i).DiscordID (ums.get (nextIndex i)).Username
          (saveTurn ums.length i.val
            (max st.currentTurn (extractTurnNumber (stringsToLower file.Name)))) 0)) ∧
    (processFile world now ums deb ign cfg st file).fileTracker (stringsToLower file.Name) =
      some (FileTrackingInfo.mk info.FirstSeen true info.LastSize) ∧
    (processFile world now ums deb ign cfg st file).currentTurn =
      saveTurn ums.length i.val
        (max st.currentTurn (extractTurnNumber (stringsToLower file.Name))) ∧
    (∀ (files : List DirEntry) (fileTracker : FileTracker) (currentTurn : Int)
      (currentTurnInfo : Option TurnInfo), (∀ k, world.webhookOk k = false) →
      (processDirectory world now (some files) fileTracker ums deb ign cfg currentTurn
        currentTurnInfo).currentTurnInfo = currentTurnInfo) := by
  have hfind := (findUserIndex_some_iff (stringsToLower file.Name) ums i).mpr hattr
  have hnote := noteFile_currentTurn st (stringsToLower file.Name)
  have hsent : (noteFile st (stringsToLower file.Name)).sent = st.sent := rfl
  have hti : (noteFile st (stringsToLower file.Name)).currentTurnInfo = st.currentTurnInfo :=
    rfl
  rw [processFile_eligible world now ums deb ign cfg st file info hacc hrec hdeb hsize]
  refine ⟨?_, ?_, ?_, ?_, ?_⟩
  · intro hfail
    rw [evaluateFile_turnInfo_of_fail world ums ign _ _ info _ (by rw [hsent]; exact hfail)]
    exact hti
  · intro hok
    rw [evaluateFile_turn_some world ums ign _ _ info _ i hign hpre hfind]
    simp only [markProcessed, hnote, hsent, hok, if_true]
  · rw [evaluateFile_fileTracker]
    exact FileTracker.set_same _ _ _
  · rw [evaluateFile_turn_some world ums ign _ _ info _ i hign hpre hfind]
    simp only [markProcessed, hnote]
  · intro files fileTracker currentTurn currentTurnInfo hfail
    exact scanLoop_turnInfo_of_fail world now ums deb ign cfg hfail files
      (ScanState.mk fileTracker [] currentTurn currentTurnInfo [])

/-- C12, witness: players `A`, `B`, `C`, game `pbem1`, counter 1, the stable file
`pbem1_turn1_B`. With the webhook down the active-turn record stays `none` and
the record of the file is marked processed; with the webhook up the active turn
becomes that of `B`, next `C`, turn 1, started at the time 50000 read after the
dispatch, no reminder sent. -/
theorem processFile_dispatch_outcome_witness :
    (processFile (worldDown 50000) 40000 playersABC 30000 [] (configFor "pbem1")
      (waitingState "pbem1_turn1_b" 1) (fileOf "pbem1_turn1_B" 10)).currentTurnInfo = none ∧
    (processFile (worldDown 50000) 40000 playersABC 30000 [] (configFor "pbem1")
      (waitingState "pbem1_turn1_b" 1) (fileOf "pbem1_turn1_B" 10)).fileTracker
      (stringsToLower (fileOf "pbem1_turn1_B" 10).Name) =
      some (FileTrackingInfo.mk 0 true 10) ∧
    (processFile (worldOk 50000) 40000 playersABC 30000 [] (configFor "pbem1")
      (waitingState "pbem1_turn1_b" 1) (fileOf "pbem1_turn1_B" 10)).currentTurnInfo =
      some (TurnInfo.mk 50000 "B".toList "id_b".toList "C".toList 1 0) :=
  have hdown := processFile_dispatch_outcome (worldDown 50000) 40000 playersABC 30000 []
    (configFor "pbem1") (waitingState "pbem1_turn1_b" 1) (fileOf "pbem1_turn1_B" 10)
    (FileTrackingInfo.mk 0 false 10) ⟨1, by decide⟩ (by decide) (by decide) (by decide)
    (by decide) (by decide) (by decide) (by decide)
  have hup := processFile_dispatch_outcome (worldOk 50000) 40000 playersABC 30000 []
    (configFor "pbem1") (waitingState "pbem1_turn1_b" 1) (fileOf "pbem1_turn1_B" 10)
    (FileTrackingInfo.mk 0 false 10) ⟨1, by decide⟩ (by decide) (by decide) (by decide)
    (by decide) (by decide) (by decide) (by decide)
  ⟨(hdown.1 (by decide)).trans (by decide), hdown.2.2.1,
    (hup.2.1 (by decide)).trans (by decide)⟩

/-- C12, counterexample: two stable saves are met by one scan, no turn being
active. The first, `pbem1_turn1_B`, is eligible and attributed to `B`, and the
dispatch of its notification (the first call of the scan) fails; the second
call, for `pbem1_turn1_Bx`, succeeds. The active-turn record returned by the
scan is the fresh one of the second file, not the one passed in. And when the
dispatch for a save of the last player `C` fails, the turn counter has gone
from 1 to 2 all the same. -/
theorem processDirectory_turnInfo_replaced_after_failure :
    findUserIndex "pbem1_turn1_b".toList playersABC = some ⟨1, by decide⟩ ∧
    (worldFirstDown 50000).webhookOk 0 = false ∧
    twoSavesScan.sent =
      [("pbem1_turn1_b".toList,
        Notification.turnAdvance "B".toList "id_b".toList "C".toList 1),
       ("pbem1_turn1_bx".toList,
        Notification.turnAdvance "B".toList "id_b".toList "C".toList 1)] ∧
    twoSavesScan.fileTracker "pbem1_turn1_b".toList = some (FileTrackingInfo.mk 0 true 10) ∧
    twoSavesScan.currentTurnInfo =
      some (TurnInfo.mk 50000 "B".toList "id_b".toList "C".toList 1 0) ∧
    twoSavesScan.currentTurnInfo ≠ none ∧
    (processFile (worldDown 50000) 40000 playersABC 30000 [] (configFor "m1")
      (waitingState "m1_turn1_c" 1) (fileOf "m1_turn1_C" 10)).currentTurn = 2 ∧
    (processFile (worldDown 50000) 40000 playersABC 30000 [] (configFor "m1")
      (waitingState "m1_turn1_c" 1) (fileOf "m1_turn1_C" 10)).currentTurnInfo = none := by
  decide

/-! ## Ignored files (C13) -/

/-- The ignore filter answers true exactly when the lower-cased name contains
one of the patterns. -/
theorem shouldIgnoreFile_iff [CaseTable] (fn : GoString) (ign : List GoString) :
    shouldIgnoreFile fn ign = true ↔
      ∃ p ∈ ign, stringsContains (stringsToLower fn) p = true := by
  unfold shouldIgnoreFile
  cases ign with
  | nil => simp
  | cons p rest => simp

/-- C13. The filter `shouldIgnoreFile` returns true exactly when the lower-cased
name contains at least one ignore pattern as a substring, and false for an
empty pattern list. For every eligible file whose lower-cased name contains at
least one configured ignore pattern: the file's record is marked processed, no
webhook call (turn-advance or rename) is made for it, whether or not its name
starts with the game name, and the active-turn record is unchanged. -/
theorem processFile_ignored [CaseTable] (world : World) (now : Int) (ums : List UserMapping)
    (deb : Int) (ign : List GoString) (cfg : Config) (st : ScanState) (file : DirEntry)
    (info : FileTrackingInfo)
    (hacc : accepted cfg file = true)
    (hrec : st.fileTracker (stringsToLower file.Name) = some info)
    (hdeb : debounceOver now deb info = true)
    (hsize : sizeChanged (entrySize file) info = false)
    (hpat : ∃ p ∈ ign, stringsContains (stringsToLower file.Name) p = true) :
    (∀ (name : GoString) (patterns : List GoString),
      shouldIgnoreFile name patterns = true ↔
        ∃ p ∈ patterns, stringsContains (stringsToLower name) p = true) ∧
    (∀ name : GoString, shouldIgnoreFile name [] = false) ∧
    (processFile world now ums deb ign cfg st file).fileTracker (stringsToLower file.Name) =
      some (FileTrackingInfo.mk info.FirstSeen true info.LastSize) ∧
    (processFile world now ums deb ign cfg st file).sent = st.sent ∧
    (processFile world now ums deb ign cfg st file).currentTurnInfo = st.currentTurnInfo := by
  have hign : shouldIgnoreFile (stringsToLower file.Name) ign = true := by
    rw [shouldIgnoreFile_iff, stringsToLower_idem]
    exact hpat
  rw [processFile_eligible world now ums deb ign cfg st file info hacc hrec hdeb hsize,
    evaluateFile_ignored world ums ign _ _ info _ hign]
  refine ⟨shouldIgnoreFile_iff, fun name => rfl, ?_, rfl, rfl⟩
  exact FileTracker.set_same _ _ _

/-- C13, witness: with the ignore pattern `backup`, the stable file
`other_backup_A`, whose name does not start with the game name `pbem1` and
contains the player name `A`, is marked processed and nothing is sent. -/
theorem processFile_ignored_witness :
    stringsStartsWith (stringsToLower (fileOf "other_backup_A" 10).Name)
      (stringsToLower (configFor "pbem1").GameName) = false ∧
    (processFile (worldOk 50000) 40000 playersABC 30000 ["backup".toList] (configFor "pbem1")
      (waitingState "other_backup_a" 1) (fileOf "other_backup_A" 10)).fileTracker
      (stringsToLower (fileOf "other_backup_A" 10).Name) =
      some (FileTrackingInfo.mk 0 true 10) ∧
    (processFile (worldOk 50000) 40000 playersABC 30000 ["backup".toList] (configFor "pbem1")
      (waitingState "other_backup_a" 1) (fileOf "other_backup_A" 10)).sent = [] :=
  have h := processFile_ignored (worldOk 50000) 40000 playersABC 30000 ["backup".toList]
    (configFor "pbem1") (waitingState "other_backup_a" 1) (fileOf "other_backup_A" 10)
    (FileTrackingInfo.mk 0 false 10) (by decide) (by decide) (by decide) (by decide)
    ⟨"backup".toList, by decide, by decide⟩
  ⟨by decide, h.2.2.1, h.2.2.2.1⟩

/-! ## Decimal numerals -/

theorem isDigit_range (c : Char) (h : c.isDigit = true) : 48 ≤ c.toNat ∧ c.toNat ≤ 57 := by
  unfold Char.isDigit at h
  simp only [Bool.and_eq_true, decide_eq_true_eq, ge_iff_le] at h
  obtain ⟨h1, h2⟩ := h
  rw [UInt32.le_def, BitVec.le_def] at h1 h2
  exact ⟨h1, h2⟩

theorem digitChar_spec (d : Nat) (hd : d < 10) :
    (Char.ofNat (48 + d)).isDigit = true ∧ (Char.ofNat (48 + d)).toNat - 48 = d := by
  interval_cases d <;> decide

theorem digitsFold (cs : GoString) :
    ∀ a : Nat, cs.foldl (fun n c => 10 * n + (c.toNat - 48)) a =
      a * 10 ^ cs.length + digitsValue cs := by
  induction cs with
  | nil => intro a; simp [digitsValue]
  | cons c cs ih =>
    intro a
    unfold digitsValue
    rw [List.foldl_cons, List.foldl_cons, ih, ih (10 * 0 + (c.toNat - 48))]
    simp only [List.length_cons, pow_succ]
    ring

theorem digitsValue_cons (c : Char) (cs : GoString) :
    digitsValue (c :: cs) = (c.toNat - 48) * 10 ^ cs.length + digitsValue cs := by
  show (c :: cs).foldl _ 0 = _
  rw [List.foldl_cons, digitsFold]
  simp

theorem decimalAux_spec (fuel : Nat) :
    ∀ (n : Nat) (acc : GoString), n < fuel → acc.all Char.isDigit = true →
      (decimalAux fuel n acc).all Char.isDigit = true ∧ decimalAux fuel n acc ≠ [] ∧
      digitsValue (decimalAux fuel n acc) = n * 10 ^ acc.length + digitsValue acc := by
  induction fuel with
  | zero => intro n acc h; exact absurd h (Nat.not_lt_zero _)
  | succ fuel ih =>
    intro n acc hn hacc
    have hd := digitChar_spec (n % 10) (Nat.mod_lt _ (by decide))
    unfold decimalAux
    by_cases h0 : n / 10 = 0
    · rw [if_pos h0]
      refine ⟨by simp [hd.1, hacc], by simp, ?_⟩
      rw [digitsValue_cons, hd.2]
      have : n % 10 = n := by omega
      rw [this]
    · rw [if_neg h0]
      have hlt : n / 10 < fuel := by omega
      obtain ⟨h1, h2, h3⟩ := ih (n / 10) (Char.ofNat (48 + n % 10) :: acc) hlt
        (by simp [hd.1, hacc])
      refine ⟨h1, h2, ?_⟩
      rw [h3, digitsValue_cons, hd.2]
      simp only [List.length_cons, pow_succ]
      have hsplit := Nat.div_add_mod n 10
      generalize 10 ^ acc.length = q
      generalize digitsValue acc = v
      generalize n / 10 = a at hsplit
      generalize n % 10 = b at hsplit
      rw [← hsplit]
      ring

/-- The decimal numeral of `n` is a non-empty run of digits of value `n`. -/
theorem decimal_spec (n : Nat) :
    (decimal n).all Char.isDigit = true ∧ decimal n ≠ [] ∧ digitsValue (decimal n) = n := by
  have h := decimalAux_spec (n + 1) n [] (Nat.lt_succ_self n) rfl
  refine ⟨h.1, h.2.1, ?_⟩
  have := h.2.2
  simpa [decimal, digitsValue] using this

/-! ## The patterns of `extractTurnNumber` -/

theorem takeWhile_append_stop (p : Char → Bool) (l : GoString) (c : Char) (r : GoString)
    (hc : p c = false) :
    (l ++ c :: r).takeWhile p = l.takeWhile p ∧
    (l ++ c :: r).dropWhile p = l.dropWhile p ++ c :: r := by
  induction l with
  | nil => simp [List.takeWhile, List.dropWhile, hc]
  | cons a l ih =>
    by_cases ha : p a = true
    · simp [List.takeWhile, List.dropWhile, ha, ih.1, ih.2]
    · have ha' : p a = false := by simpa using ha
      simp [List.takeWhile, List.dropWhile, ha']

theorem takeWhile_all (p : Char → Bool) (l : GoString) (h : l.all p = true) :
    l.takeWhile p = l ∧ l.dropWhile p = [] := by
  induction l with
  | nil => simp
  | cons a l ih =>
    simp only [List.all_cons, Bool.and_eq_true] at h
    simp [List.takeWhile, List.dropWhile, h.1, ih h.2]

/-- On the marker `turn`, a non-empty run of digits and then the end of the text
or an underscore, the first pattern matches and captures the digits. -/
theorem matchTurnDigits_marker (ds tail : GoString) (hne : ds ≠ [])
    (hds : ds.all Char.isDigit = true) (htail : tail = [] ∨ ∃ p, tail = '_' :: p) :
    matchTurnDigits ('t' :: 'u' :: 'r' :: 'n' :: (ds ++ tail)) = some ds := by
  unfold matchTurnDigits
  have hpre : stringsStartsWith ('t' :: 'u' :: 'r' :: 'n' :: (ds ++ tail))
      ['t', 'u', 'r', 'n'] = true := by
    simp [stringsStartsWith, List.isPrefixOf]
  rw [if_pos hpre]
  have hdrop : ('t' :: 'u' :: 'r' :: 'n' :: (ds ++ tail)).drop 4 = ds ++ tail := rfl
  simp only [hdrop]
  rcases htail with rfl | ⟨p, rfl⟩
  · rw [List.append_nil, (takeWhile_all _ ds hds).1, (takeWhile_all _ ds hds).2]
    simp [hne]
  · have h := takeWhile_append_stop Char.isDigit ds '_' p (by decide)
    rw [h.1, h.2, (takeWhile_all _ ds hds).1, (takeWhile_all _ ds hds).2]
    simp [hne]

/-- On the marker `turn`, a run of digits and then a dot, the first pattern does
not match. -/
theorem matchTurnDigits_dot (ds ext : GoString) (hds : ds.all Char.isDigit = true) :
    matchTurnDigits ('t' :: 'u' :: 'r' :: 'n' :: (ds ++ '.' :: ext)) = none := by
  unfold matchTurnDigits
  have hpre : stringsStartsWith ('t' :: 'u' :: 'r' :: 'n' :: (ds ++ '.' :: ext))
      ['t', 'u', 'r', 'n'] = true := by
    simp [stringsStartsWith, List.isPrefixOf]
  rw [if_pos hpre]
  have hdrop : ('t' :: 'u' :: 'r' :: 'n' :: (ds ++ '.' :: ext)).drop 4 = ds ++ '.' :: ext := rfl
  simp only [hdrop]
  have h := takeWhile_append_stop Char.isDigit ds '.' ext (by decide)
  rw [h.1, h.2, (takeWhile_all _ ds hds).1, (takeWhile_all _ ds hds).2]
  simp

theorem matchTurnDigits_startsWith (t d : GoString) (h : matchTurnDigits t = some d) :
    stringsStartsWith t ['t', 'u', 'r', 'n'] = true := by
  unfold matchTurnDigits at h
  by_cases hp : stringsStartsWith t ['t', 'u', 'r', 'n'] = true
  · exact hp
  · rw [if_neg hp] at h
    exact absurd h (by simp)

theorem matchTurnDigits_head (c : Char) (r : GoString) (hc : c ≠ 't') :
    matchTurnDigits (c :: r) = none := by
  cases h : matchTurnDigits (c :: r) with
  | none => rfl
  | some d =>
    have := matchTurnDigits_startsWith _ _ h
    simp [stringsStartsWith, List.isPrefixOf] at this
    exact absurd this.1.symm hc

/-- A match of the first pattern that starts before an underscore ends at that
underscore at the latest: the text after the underscore plays no part. -/
theorem matchTurnDigits_append_underscore (x y : GoString) :
    matchTurnDigits (x ++ '_' :: y) = matchTurnDigits x := by
  rcases x with _ | ⟨a, _ | ⟨b, _ | ⟨c, _ | ⟨d, x'⟩⟩⟩⟩
  · simp [matchTurnDigits, stringsStartsWith, List.isPrefixOf]
  · simp [matchTurnDigits, stringsStartsWith, List.isPrefixOf]
  · simp [matchTurnDigits, stringsStartsWith, List.isPrefixOf]
  · simp [matchTurnDigits, stringsStartsWith, List.isPrefixOf]
  · unfold matchTurnDigits
    have hpre : stringsStartsWith (a :: b :: c :: d :: x' ++ '_' :: y) ['t', 'u', 'r', 'n'] =
        stringsStartsWith (a :: b :: c :: d :: x') ['t', 'u', 'r', 'n'] := by
      simp [stringsStartsWith, List.isPrefixOf]
    rw [hpre]
    by_cases hp : stringsStartsWith (a :: b :: c :: d :: x') ['t', 'u', 'r', 'n'] = true
    · rw [if_pos hp, if_pos hp]
      have hdrop1 : (a :: b :: c :: d :: x' ++ '_' :: y).drop 4 = x' ++ '_' :: y := rfl
      have hdrop2 : (a :: b :: c :: d :: x').drop 4 = x' := rfl
      simp only [hdrop1, hdrop2]
      have h := takeWhile_append_stop Char.isDigit x' '_' y (by decide)
      rw [h.1, h.2]
      cases hrest : x'.dropWhile Char.isDigit with
      | nil => simp
      | cons e es => simp
    · rw [if_neg hp, if_neg hp]

theorem regexFind_nil (body : GoString → Option GoString) (b : Bool) (h : body [] = none) :
    regexFind body b [] = none := by
  unfold regexFind
  cases b <;> simp [h]

/-- When neither alternative matches at the first character, the search moves on. -/
theorem regexFind_cons_skip (body : GoString → Option GoString) (b : Bool) (c : Char)
    (r : GoString) (h1 : b = true → body (c :: r) = none) (h2 : c = '_' → body r = none) :
    regexFind body b (c :: r) = regexFind body false r := by
  rw [regexFind]
  have e1 : (if b = true then body (c :: r) else none) = none := by
    by_cases hb : b = true
    · rw [if_pos hb]; exact h1 hb
    · rw [if_neg hb]
  have e2 : (if c = '_' then body r else none) = none := by
    by_cases hc : c = '_'
    · rw [if_pos hc]; exact h2 hc
    · rw [if_neg hc]
  simp only [e1, e2]

/-- A match found at the first character, after an underscore, is the result. -/
theorem regexFind_underscore_hit (body : GoString → Option GoString) (b : Bool)
    (r m : GoString) (h1 : b = true → body ('_' :: r) = none) (h2 : body r = some m) :
    regexFind body b ('_' :: r) = some m := by
  rw [regexFind]
  have e1 : (if b = true then body ('_' :: r) else none) = none := by
    by_cases hb : b = true
    · rw [if_pos hb]; exact h1 hb
    · rw [if_neg hb]
  simp only [e1, if_true, h2]

/-- What it means for the search to find nothing in a non-empty text. -/
theorem regexFind_cons_none (body : GoString → Option GoString) (b : Bool) (c : Char)
    (r : GoString) (h : regexFind body b (c :: r) = none) :
    (b = true → body (c :: r) = none) ∧ (c = '_' → body r = none) ∧
      regexFind body false r = none := by
  rw [regexFind] at h
  refine ⟨?_, ?_, ?_⟩
  · intro hb
    rw [if_pos hb] at h
    cases hbody : body (c :: r) with
    | none => rfl
    | some m => rw [hbody] at h; exact absurd h (by simp)
  · intro hc
    cases hbody : body r with
    | none => rfl
    | some m =>
      rw [if_pos hc, hbody] at h
      split at h
      · exact absurd h (by simp)
      · exact absurd h (by simp)
  · split at h
    · exact absurd h (by simp)
    · split at h
      · exact absurd h (by simp)
      · exact h

/-- The leftmost match of the first pattern in a text that continues, after an
underscore, a text without match: it is the match right after that underscore. -/
theorem regexFind_after_clean (pre y m : GoString) (hy : matchTurnDigits y = some m) :
    ∀ b : Bool, regexFind matchTurnDigits b pre = none →
      regexFind matchTurnDigits b (pre ++ '_' :: y) = some m := by
  induction pre with
  | nil =>
    intro b _
    exact regexFind_underscore_hit _ b y m (fun _ => matchTurnDigits_head _ _ (by decide)) hy
  | cons c pre' ih =>
    intro b h
    obtain ⟨h1, h2, h3⟩ := regexFind_cons_none _ b c pre' h
    have hstep : regexFind matchTurnDigits b (c :: (pre' ++ '_' :: y)) =
        regexFind matchTurnDigits false (pre' ++ '_' :: y) := by
      apply regexFind_cons_skip
      · intro hb
        have := matchTurnDigits_append_underscore (c :: pre') y
        rw [List.cons_append] at this
        rw [this]
        exact h1 hb
      · intro hc
        rw [matchTurnDigits_append_underscore]
        exact h2 hc
    rw [List.cons_append, hstep]
    exact ih false h3

theorem strconvAtoi_digits (ds : GoString) (hne : ds ≠ []) (hds : ds.all Char.isDigit = true)
    (hfit : (digitsValue ds : Int) ≤ maxInt64) :
    strconvAtoi ds = some (digitsValue ds : Int) := by
  unfold strconvAtoi
  rw [if_pos ⟨hne, hds, hfit⟩]

theorem stringsToLower_append [CaseTable] (a b : GoString) :
    stringsToLower (a ++ b) = stringsToLower a ++ stringsToLower b := by
  unfold stringsToLower
  exact List.map_append _ _ _

theorem stringsToLower_cons [CaseTable] (c : Char) (r : GoString) :
    stringsToLower (c :: r) = lowerChar c :: stringsToLower r := rfl

theorem lowerChar_digit [CaseTable] (c : Char) (h : c.isDigit = true) : lowerChar c = c := by
  have h2 := isDigit_range c h
  rw [lowerChar_ascii c (by omega)]
  unfold asciiLower
  by_cases hu : 'A' ≤ c ∧ c ≤ 'Z'
  · have h1 := upper_range c hu
    omega
  · rw [if_neg hu]

theorem stringsToLower_digits [CaseTable] (ds : GoString) (h : ds.all Char.isDigit = true) :
    stringsToLower ds = ds := by
  induction ds with
  | nil => rfl
  | cons c ds ih =>
    simp only [List.all_cons, Bool.and_eq_true] at h
    rw [stringsToLower_cons, lowerChar_digit c h.1, ih h.2]

/-- The text found by the first pattern in a name made of a text without match,
an underscore, the marker, a run of digits and a tail that is empty or starts
with an underscore: the run of digits. -/
theorem regexFind_save_name [CaseTable] (pre marker ds tail : GoString)
    (hmarker : stringsToLower marker = ['t', 'u', 'r', 'n'])
    (hne : ds ≠ []) (hds : ds.all Char.isDigit = true)
    (htail : tail = [] ∨ ∃ p, tail = '_' :: p)
    (hclean : regexFind matchTurnDigits true (stringsToLower pre) = none) :
    regexFind matchTurnDigits true (stringsToLower (pre ++ '_' :: marker ++ ds ++ tail)) =
      some ds := by
  have hlow : stringsToLower (pre ++ '_' :: marker ++ ds ++ tail) =
      stringsToLower pre ++ '_' :: ('t' :: 'u' :: 'r' :: 'n' :: (ds ++ stringsToLower tail)) := by
    rw [stringsToLower_append, stringsToLower_append, stringsToLower_append,
      stringsToLower_cons, hmarker, stringsToLower_digits ds hds]
    rw [lowerChar_underscore]
    simp
  rw [hlow]
  apply regexFind_after_clean _ _ _ _ true hclean
  apply matchTurnDigits_marker ds _ hne hds
  rcases htail with rfl | ⟨p, rfl⟩
  · exact Or.inl rfl
  · right
    refine ⟨stringsToLower p, ?_⟩
    rw [stringsToLower_cons]
    rw [lowerChar_underscore]

theorem extractTurnNumber_of_first [CaseTable] (name ds : GoString)
    (hfind : regexFind matchTurnDigits true (stringsToLower name) = some ds)
    (hne : ds ≠ []) (hds : ds.all Char.isDigit = true)
    (hfit : (digitsValue ds : Int) ≤ maxInt64) :
    extractTurnNumber name = (digitsValue ds : Int) := by
  unfold extractTurnNumber
  simp only [hfind, Option.some_bind, strconvAtoi_digits ds hne hds hfit]

theorem hasTurnMarker_false [CaseTable] (name : GoString) (h : hasTurnMarker name = false) :
    regexFind matchTurnDigits true (stringsToLower name) = none ∧
    regexFind matchPlayerTurnDigits true (stringsToLower name) = none := by
  unfold hasTurnMarker at h
  simp only [Bool.or_eq_false_iff] at h
  constructor
  · cases h1 : regexFind matchTurnDigits true (stringsToLower name) with
    | none => rfl
    | some m => rw [h1] at h; exact absurd h.1 (by simp)
  · cases h2 : regexFind matchPlayerTurnDigits true (stringsToLower name) with
    | none => rfl
    | some m => rw [h2] at h; exact absurd h.2 (by simp)

/-! ## Save names (C14) -/

/-- C14, as amended. For every turn number `N` from 0 to the largest 64-bit integer, written
in decimal, every game name `g`, every player name `p` and every spelling of
the marker `turn` in upper or lower case: when `g` contains no turn marker,
`extractTurnNumber` returns `N` on the name `g_turnN_p`, the name the
notifications tell the player to use, whatever the letter case of `g` and `p`;
when `g_p` contains no turn marker, it returns `N` on the name `g_p_turnN`; it
returns 0 on every name that contains no turn marker; and it returns `N` on
every name that is, up to letter case, the save name `%s_turn%d_%s` the
notifications print for `g`, `N` and `p`. -/
theorem extractTurnNumber_save_names [CaseTable] (N : Nat) (g p marker : GoString)
    (hN : (N : Int) ≤ maxInt64)
    (hmarker : stringsToLower marker = ['t', 'u', 'r', 'n']) :
    (hasTurnMarker g = false →
      extractTurnNumber (g ++ '_' :: marker ++ decimal N ++ '_' :: p) = (N : Int)) ∧
    (hasTurnMarker (g ++ '_' :: p) = false →
      extractTurnNumber (g ++ '_' :: p ++ '_' :: marker ++ decimal N) = (N : Int)) ∧
    (∀ name : GoString, hasTurnMarker name = false → extractTurnNumber name = 0) ∧
    (hasTurnMarker g = false → ∀ name : GoString,
      stringsToLower name = stringsToLower (saveInstructionName g (N : Int) p) →
      extractTurnNumber name = (N : Int)) := by
  obtain ⟨hdig, hne, hval⟩ := decimal_spec N
  refine ⟨?_, ?_, ?_, ?_⟩
  · intro hclean
    have hfind := regexFind_save_name g marker (decimal N) ('_' :: p) hmarker hne hdig
      (Or.inr ⟨p, rfl⟩) (hasTurnMarker_false g hclean).1
    have := extractTurnNumber_of_first _ _ hfind hne hdig (by rw [hval]; exact hN)
    rw [hval] at this
    exact this
  · intro hclean
    have hfind := regexFind_save_name (g ++ '_' :: p) marker (decimal N) [] hmarker hne hdig
      (Or.inl rfl) (hasTurnMarker_false _ hclean).1
    rw [List.append_nil] at hfind
    have := extractTurnNumber_of_first _ _ hfind hne hdig (by rw [hval]; exact hN)
    rw [hval] at this
    exact this
  · intro name hclean
    obtain ⟨h1, h2⟩ := hasTurnMarker_false name hclean
    unfold extractTurnNumber
    simp only [h1, h2, Option.none_bind]
  · intro hclean name hname
    have hfind := regexFind_save_name g ['t', 'u', 'r', 'n'] (decimal N) ('_' :: p)
      stringsToLower_turn hne
      hdig (Or.inr ⟨p, rfl⟩) (hasTurnMarker_false g hclean).1
    have hshape : saveInstructionName g (N : Int) p =
        g ++ '_' :: ['t', 'u', 'r', 'n'] ++ decimal N ++ '_' :: p := by
      unfold saveInstructionName formatInt
      simp
    rw [← hshape, ← hname] at hfind
    have := extractTurnNumber_of_first _ _ hfind hne hdig (by rw [hval]; exact hN)
    rw [hval] at this
    exact this

/-- C14, witness: turn 12, game `PBEM1`, player `Bob`, the marker spelt `Turn`:
the names `PBEM1_Turn12_Bob` and `PBEM1_Bob_Turn12` both give 12. -/
theorem extractTurnNumber_save_names_witness :
    extractTurnNumber "PBEM1_Turn12_Bob".toList = 12 ∧
    extractTurnNumber "PBEM1_Bob_Turn12".toList = 12 ∧
    saveInstructionName "pbem1".toList 12 "Bob".toList = "pbem1_turn12_Bob".toList ∧
    extractTurnNumber "Pbem1_TURN12_bob".toList = 12 :=
  have h := extractTurnNumber_save_names 12 "PBEM1".toList "Bob".toList "Turn".toList
    (by decide) (by decide)
  have h' := extractTurnNumber_save_names 12 "pbem1".toList "Bob".toList "turn".toList
    (by decide) (by decide)
  ⟨h.1 (by decide), h.2.1 (by decide), by decide,
    h'.2.2.2 (by decide) "Pbem1_TURN12_bob".toList (by decide)⟩

/-- C14, counterexample: the turn number 9223372036854775808, one above the
largest 64-bit integer, game name `g`, player name `p`. The text `g` and the
text `g_p` contain no turn marker, the names `g_turn9223372036854775808_p` and
`g_p_turn9223372036854775808` are the two names of the claim for this number,
and `extractTurnNumber` returns 0 on both: the first pattern finds the digits,
`strconv.Atoi` rejects them as out of range, and the second pattern matches
nowhere. -/
theorem extractTurnNumber_save_names_beyond_int64 :
    hasTurnMarker "g".toList = false ∧
    hasTurnMarker ("g".toList ++ '_' :: "p".toList) = false ∧
    "g".toList ++ '_' :: "turn".toList ++ decimal 9223372036854775808 ++ '_' :: "p".toList =
      "g_turn9223372036854775808_p".toList ∧
    "g".toList ++ '_' :: "p".toList ++ '_' :: "turn".toList ++ decimal 9223372036854775808 =
      "g_p_turn9223372036854775808".toList ∧
    regexFind matchTurnDigits true (stringsToLower "g_turn9223372036854775808_p".toList) =
      some "9223372036854775808".toList ∧
    strconvAtoi "9223372036854775808".toList = none ∧
    extractTurnNumber "g_turn9223372036854775808_p".toList = 0 ∧
    extractTurnNumber "g_p_turn9223372036854775808".toList = 0 := by
  decide

/-! ## Letters outside ASCII -/

/-- Capital letters outside ASCII are lower-cased like the others. The file
`É.se1` has the key `é.se1` and is caught by the ignore pattern `é`; the names
`pbem1_turn1_BÉ` and `pbem1_turn1_Bé` are not distinct after lower-casing; and
with the players `Émile` and `Bob` the stable file `pbem1_turn1_ÉMILE_bob` is
attributed to `Émile`, the first mapping whose lower-cased name occurs in its
key: the call goes to `Émile` with `Bob` as next player, and the turn counter
stays at 1. -/
theorem stringsToLower_beyond_ascii :
    stringsToLower "É.se1".toList = "é.se1".toList ∧
    shouldIgnoreFile "É.se1".toList ["é".toList] = true ∧
    ¬ distinctNames [fileOf "pbem1_turn1_BÉ" 10, fileOf "pbem1_turn1_Bé" 10] ∧
    (processDirectory (worldOk 0) 0 (some [fileOf "É.se1" 10]) emptyTracker playersABC 30000 []
      defaultConfig 1 none).fileTracker "é.se1".toList =
      some (FileTrackingInfo.mk 0 false 10) ∧
    attributedTo "pbem1_turn1_émile_bob".toList playersEmileBob ⟨0, by decide⟩ ∧
    (processFile (worldOk 50000) 40000 playersEmileBob 30000 [] (configFor "pbem1")
      (waitingState "pbem1_turn1_émile_bob" 1) (fileOf "pbem1_turn1_ÉMILE_bob" 10)).sent =
      [("pbem1_turn1_émile_bob".toList,
        Notification.turnAdvance "Émile".toList "id_e".toList "Bob".toList 1)] ∧
    (processFile (worldOk 50000) 40000 playersEmileBob 30000 [] (configFor "pbem1")
      (waitingState "pbem1_turn1_émile_bob" 1) (fileOf "pbem1_turn1_ÉMILE_bob" 10)).currentTurn =
      1 := by
  decide

/-! ## Names with an extension (C15) -/

/-- A pattern that matches at no suffix of a text is found nowhere in it. -/
theorem regexFind_none_of_suffixes (body : GoString → Option GoString) (s : GoString) :
    (∀ t, t <:+ s → body t = none) → ∀ b : Bool, regexFind body b s = none := by
  induction s with
  | nil =>
    intro h b
    exact regexFind_nil body b (h [] (List.suffix_refl _))
  | cons c r ih =>
    intro h b
    rw [regexFind_cons_skip body b c r (fun _ => h _ (List.suffix_refl _))
      (fun _ => h _ (List.suffix_cons c r))]
    exact ih (fun t ht => h t (ht.trans (List.suffix_cons c r))) false

theorem stringsContains_cons (c : Char) (cs sub : GoString) :
    stringsContains (c :: cs) sub = (sub.isPrefixOf (c :: cs) || stringsContains cs sub) := by
  rw [stringsContains]

/-- In a text that does not contain `turn`, the first pattern matches at no suffix. -/
theorem matchTurnDigits_none_of_no_turn (s : GoString)
    (h : stringsContains s ['t', 'u', 'r', 'n'] = false) :
    ∀ t, t <:+ s → matchTurnDigits t = none := by
  induction s with
  | nil =>
    intro t ht
    rw [List.suffix_nil] at ht
    subst ht
    rfl
  | cons c r ih =>
    rw [stringsContains_cons, Bool.or_eq_false_iff] at h
    intro t ht
    rcases List.suffix_cons_iff.mp ht with rfl | ht'
    · cases hm : matchTurnDigits (c :: r) with
      | none => rfl
      | some d =>
        have := matchTurnDigits_startsWith _ _ hm
        unfold stringsStartsWith at this
        rw [h.1] at this
        exact absurd this (by simp)
    · exact ih h.2 t ht'

theorem isDigit_ne_t (c : Char) (h : c.isDigit = true) : c ≠ 't' := by
  intro hc
  subst hc
  exact absurd h (by decide)

/-- After the marker, a run of digits, a dot and an extension without `turn`,
the first pattern matches at no suffix. -/
theorem matchTurnDigits_none_digits_dot (ds ext : GoString)
    (hds : ds.all Char.isDigit = true)
    (hext : stringsContains ext ['t', 'u', 'r', 'n'] = false) :
    ∀ t, t <:+ (ds ++ '.' :: ext) → matchTurnDigits t = none := by
  induction ds with
  | nil =>
    intro t ht
    rcases List.suffix_cons_iff.mp ht with rfl | ht'
    · exact matchTurnDigits_head _ _ (by decide)
    · exact matchTurnDigits_none_of_no_turn ext hext t ht'
  | cons d ds ih =>
    simp only [List.all_cons, Bool.and_eq_true] at hds
    intro t ht
    rw [List.cons_append] at ht
    rcases List.suffix_cons_iff.mp ht with rfl | ht'
    · exact matchTurnDigits_head _ _ (isDigit_ne_t d hds.1)
    · exact ih hds.2 t ht'

/-- In a name made of a text without `turn`, an underscore, the marker, a run of
digits, a dot and an extension without `turn`, the first pattern matches at no
suffix. -/
theorem matchTurnDigits_none_extension (gp ds ext : GoString)
    (hgp : stringsContains gp ['t', 'u', 'r', 'n'] = false)
    (hds : ds.all Char.isDigit = true)
    (hext : stringsContains ext ['t', 'u', 'r', 'n'] = false) :
    ∀ t, t <:+ (gp ++ '_' :: 't' :: 'u' :: 'r' :: 'n' :: (ds ++ '.' :: ext)) →
      matchTurnDigits t = none := by
  induction gp with
  | nil =>
    intro t ht
    rw [List.nil_append] at ht
    rcases List.suffix_cons_iff.mp ht with rfl | ht
    · exact matchTurnDigits_head _ _ (by decide)
    rcases List.suffix_cons_iff.mp ht with rfl | ht
    · exact matchTurnDigits_dot ds ext hds
    rcases List.suffix_cons_iff.mp ht with rfl | ht
    · exact matchTurnDigits_head _ _ (by decide)
    rcases List.suffix_cons_iff.mp ht with rfl | ht
    · exact matchTurnDigits_head _ _ (by decide)
    rcases List.suffix_cons_iff.mp ht with rfl | ht
    · exact matchTurnDigits_head _ _ (by decide)
    exact matchTurnDigits_none_digits_dot ds ext hds hext t ht
  | cons c g ih =>
    have hall := matchTurnDigits_none_of_no_turn (c :: g) hgp
    rw [stringsContains_cons, Bool.or_eq_false_iff] at hgp
    intro t ht
    rw [List.cons_append] at ht
    rcases List.suffix_cons_iff.mp ht with rfl | ht'
    · have := matchTurnDigits_append_underscore (c :: g)
        ('t' :: 'u' :: 'r' :: 'n' :: (ds ++ '.' :: ext))
      rw [List.cons_append] at this
      rw [this]
      exact hall _ (List.suffix_refl _)
    · exact ih hgp.2 t ht'

/-- A match of the second pattern holds a match of the first at a suffix. -/
theorem matchPlayerTurnDigits_some (t d : GoString) (h : matchPlayerTurnDigits t = some d) :
    ∃ t', t' <:+ t ∧ matchTurnDigits t' = some d := by
  unfold matchPlayerTurnDigits at h
  split_ifs at h
  have hdrop : t.drop 6 <:+ t := List.drop_suffix 6 t
  split at h
  · rename_i r heq
    refine ⟨r, ?_, h⟩
    rw [heq] at hdrop
    exact (List.suffix_cons '_' r).trans hdrop
  · exact ⟨_, hdrop, h⟩

theorem matchPlayerTurnDigits_none_of_suffixes (s : GoString)
    (h : ∀ t, t <:+ s → matchTurnDigits t = none) :
    ∀ t, t <:+ s → matchPlayerTurnDigits t = none := by
  intro t ht
  cases hm : matchPlayerTurnDigits t with
  | none => rfl
  | some d =>
    obtain ⟨t', ht', hmt⟩ := matchPlayerTurnDigits_some t d hm
    rw [h t' (ht'.trans ht)] at hmt
    exact absurd hmt (by simp)

/-- The turn number of a name is that of its lower-cased form. -/
theorem extractTurnNumber_lower [CaseTable] (name : GoString) :
    extractTurnNumber (stringsToLower name) = extractTurnNumber name := by
  unfold extractTurnNumber
  rw [stringsToLower_idem]

/-- C15. For every name of the form `g_p_turnN.ext`, where the digits of `N` are
immediately followed by a dot and an extension and neither `g_p` nor `ext`
contains the text `turn` (in whatever letter case the name is written),
`extractTurnNumber` returns 0, on the name and on its lower-cased form; so the
filename-driven advance of a scan leaves the turn counter of such a file where
it was (a counter below 0 is raised to 0, never to `N`). -/
theorem extractTurnNumber_extension [CaseTable] (gp marker ds ext : GoString)
    (hmarker : stringsToLower marker = ['t', 'u', 'r', 'n'])
    (hgp : stringsContains (stringsToLower gp) ['t', 'u', 'r', 'n'] = false)
    (hds : ds.all Char.isDigit = true)
    (hext : stringsContains (stringsToLower ext) ['t', 'u', 'r', 'n'] = false) :
    extractTurnNumber (gp ++ '_' :: marker ++ ds ++ '.' :: ext) = 0 ∧
    extractTurnNumber (stringsToLower (gp ++ '_' :: marker ++ ds ++ '.' :: ext)) = 0 ∧
    (∀ st : ScanState,
      (noteFile st (stringsToLower (gp ++ '_' :: marker ++ ds ++ '.' :: ext))).currentTurn =
        max st.currentTurn 0) ∧
    (∀ st : ScanState, 0 ≤ st.currentTurn →
      (noteFile st (stringsToLower (gp ++ '_' :: marker ++ ds ++ '.' :: ext))).currentTurn =
        st.currentTurn) := by
  have hlow : stringsToLower (gp ++ '_' :: marker ++ ds ++ '.' :: ext) =
      stringsToLower gp ++
        '_' :: 't' :: 'u' :: 'r' :: 'n' :: (ds ++ '.' :: stringsToLower ext) := by
    rw [stringsToLower_append, stringsToLower_append, stringsToLower_append,
      stringsToLower_cons, stringsToLower_cons, hmarker, stringsToLower_digits ds hds]
    have h1 : lowerChar '_' = '_' := lowerChar_underscore
    have h2 : lowerChar '.' = '.' := lowerChar_dot
    rw [h1, h2]
    simp
  have hsuf := matchTurnDigits_none_extension (stringsToLower gp) ds (stringsToLower ext)
    hgp hds hext
  have h1 := regexFind_none_of_suffixes matchTurnDigits _ hsuf true
  have h2 := regexFind_none_of_suffixes matchPlayerTurnDigits _
    (matchPlayerTurnDigits_none_of_suffixes _ hsuf) true
  have hzero : extractTurnNumber (gp ++ '_' :: marker ++ ds ++ '.' :: ext) = 0 := by
    unfold extractTurnNumber
    simp only [hlow, h1, h2, Option.none_bind]
  have hzero' : extractTurnNumber
      (stringsToLower (gp ++ '_' :: marker ++ ds ++ '.' :: ext)) = 0 := by
    rw [extractTurnNumber_lower]
    exact hzero
  refine ⟨hzero, hzero', ?_, ?_⟩
  · intro st
    rw [noteFile_currentTurn, hzero']
  · intro st hst
    rw [noteFile_currentTurn, hzero']
    exact max_eq_left hst

/-- C15, witness: `pbem1_bob_turn7.se1` passes the default extension filter,
`extractTurnNumber` returns 0 on it, and a scan that meets it as a new file
returns the turn counter 1 it was passed. -/
theorem extractTurnNumber_extension_witness :
    hasAllowedExtension "pbem1_bob_turn7.se1".toList defaultConfig.AllowedExtensions = true ∧
    extractTurnNumber "pbem1_bob_turn7.se1".toList = 0 ∧
    (processDirectory (worldOk 0) 0 (some [fileOf "pbem1_bob_turn7.se1" 10]) emptyTracker
      playersABC 30000 [] defaultConfig 1 none).currentTurn = 1 :=
  have h := extractTurnNumber_extension "pbem1_bob".toList "turn".toList "7".toList
    "se1".toList (by decide) (by decide) (by decide) (by decide)
  ⟨by decide, h.1, by decide⟩

end Monitor
